import Mathlib

/-!
Verification development for the content-generation pipeline of
`schema-generator.tsx`.  Strings from the JavaScript source are modelled as
`List Char`; JavaScript regular-expression passes are modelled as explicit
character-level scanners that follow the engine's leftmost-match,
greedy-with-backtracking semantics for the concrete patterns appearing in the
source.  Machine numbers that matter (word counts, HTTP status codes, retry
counters) are modelled as `Nat`/`Int`; the fuzzy-match scores of the link
repair pass, which the source computes with JavaScript floating point, are
modelled as exact rationals (the comparisons the source performs are far from
any rounding boundary at the inputs considered here).
-/

set_option linter.unusedVariables false
set_option maxRecDepth 8192

namespace ContentOptimizer

/-- Character strings of the JavaScript source. -/
abbrev Str := List Char

/-- Left brace character (written via its code point). -/
def lbrace : Char := Char.ofNat 123

/-- Right brace character (written via its code point). -/
def rbrace : Char := Char.ofNat 125

/-- Whitespace class of JavaScript regular expressions (`\s`), restricted to
the ASCII whitespace characters that can actually occur in the inputs
considered here: space, tab, line feed, carriage return, form feed,
vertical tab. -/
def isWsRe (c : Char) : Bool :=
  c = ' ' || c = '\t' || c = '\n' || c = '\r' || c = Char.ofNat 12 || c = Char.ofNat 11

/-- `String.prototype.toLowerCase` on the ASCII range. -/
def toLowerStr (s : Str) : Str := s.map Char.toLower

/-- Is the first list a prefix of the second? -/
def isPrefixL : Str → Str → Bool
  | [], _ => true
  | _ :: _, [] => false
  | a :: as, b :: bs => a = b && isPrefixL as bs

/-- Substring containment (`String.prototype.includes`). -/
def containsSub (needle : Str) : Str → Bool
  | [] => needle.isEmpty
  | c :: rest => isPrefixL needle (c :: rest) || containsSub needle rest

/-- `String.prototype.trim`. -/
def trimWs (s : Str) : Str :=
  ((s.dropWhile isWsRe).reverse.dropWhile isWsRe).reverse

mutual

/-- Splitting on `/\s+/`: accumulates the current token (reversed) and emits
it at each whitespace run, exactly as `String.prototype.split(/\s+/)` does (a
leading separator produces a leading empty token, a trailing separator a
trailing empty token). -/
def jsSplitWsGo (cur : Str) : Str → List Str
  | [] => [cur.reverse]
  | c :: rest =>
    if isWsRe c then cur.reverse :: jsSplitWsSkip rest else jsSplitWsGo (c :: cur) rest

/-- Skips the remainder of a whitespace run, then resumes token accumulation. -/
def jsSplitWsSkip : Str → List Str
  | [] => [[]]
  | c :: rest =>
    if isWsRe c then jsSplitWsSkip rest else jsSplitWsGo [c] rest

end

/-- `String.prototype.split(/\s+/)`. -/
def jsSplitWs (s : Str) : List Str := jsSplitWsGo [] s

/-- Splitting on a single literal character (`String.prototype.split(' ')`,
as used on page titles by the quota pass). -/
def jsSplitChar (sep : Char) : Str → List Str
  | [] => [[]]
  | c :: rest =>
    if c = sep then [] :: jsSplitChar sep rest
    else
      match jsSplitChar sep rest with
      | [] => [[c]]
      | t :: ts => (c :: t) :: ts

-- `content.replace(/<[^>]*>/g, ' ')` — every maximal `<...>` group becomes a
-- single space; an unterminated `<` is left alone (the regex finds no match
-- there).
mutual

/-- Main mode of `content.replace(/<[^>]*>/g, ' ')`.  At a `<` that is
eventually closed by some `>` the regex matches (through the first `>`) and a
single space is emitted; a `<` with no `>` anywhere after it can start no
match — and then no later match exists either, since any match would need a
`>` — so the remainder is kept verbatim. -/
def stripTagsSp : Str → Str
  | [] => []
  | c :: rest =>
    if c = '<' then
      if rest.any (· = '>') then ' ' :: stripTagsSkip rest else c :: rest
    else c :: stripTagsSp rest

/-- Tag mode: consume up to and including the closing `>`. -/
def stripTagsSkip : Str → Str
  | [] => []
  | c :: rest => if c = '>' then stripTagsSp rest else stripTagsSkip rest

end

/-- One character of `content.replace(/\s+/g, ' ')`: `prevWs` records whether
the previous character belonged to a whitespace run (whose first character
already emitted the single replacement space). -/
def collapseWsGo (prevWs : Bool) : Str → Str
  | [] => []
  | c :: rest =>
    if isWsRe c then
      if prevWs then collapseWsGo true rest else ' ' :: collapseWsGo true rest
    else c :: collapseWsGo false rest

/-- `content.replace(/\s+/g, ' ')`. -/
def collapseWs (s : Str) : Str := collapseWsGo false s

/-! ### Word-count gate (source lines 309–325) -/

/-- The word count computed by `enforceWordCount`:
`content.replace(/<[^>]*>/g,' ').replace(/\s+/g,' ').trim()` split on `/\s+/`
and filtered to non-empty words. -/
def wordCountOf (content : Str) : Nat :=
  let textOnly := trimWs (collapseWs (stripTagsSp content))
  ((jsSplitWs textOnly).filter (fun w => w.length > 0)).length

/-- The message interpolated by `enforceWordCount` when content is too short. -/
def shortMsg (wc minWords : Nat) : Str :=
  "CONTENT TOO SHORT: ".data ++ (Nat.repr wc).data ++
    " words (minimum ".data ++ (Nat.repr minWords).data ++ " required)".data

/-- Model of the `ContentTooShortError` class (source lines 1339–1349): it
carries the message, the full content and the measured word count. -/
structure ContentTooShortError where
  message : Str
  content : Str
  wordCount : Nat
deriving DecidableEq, Repr

/-- `enforceWordCount` (source lines 309–325).  Below the minimum it throws
`ContentTooShortError`; above the maximum it only logs a warning (line 321)
and still returns the word count. -/
def enforceWordCount (content : Str) (minWords maxWords : Nat) :
    Except ContentTooShortError Nat :=
  let wc := wordCountOf content
  if wc < minWords then
    .error ⟨shortMsg wc minWords, content, wc⟩
  else
    -- `wc > maxWords` only triggers `console.warn`; the function returns normally.
    .ok wc

/-! ### Retry controller (source lines 696–763)

The backoff-delay computation (lines 723–759) only affects timing — the value
returned/thrown by `callAiWithRetry` never depends on it — so the model elides
the delays and the `Retry-After` header inspection, and represents the
attempt-indexed outcomes of `apiCall` as a function `Nat → Except AiError α`. -/

/-- An error thrown by a provider call: an optional `status` field and a
message string. -/
structure AiError where
  status : Option Nat
  message : Str
deriving DecidableEq, Repr

/-- Tries to match `\[(\d{3})[^\]]*\]` at the head of the string: an opening
bracket, three digits, any run of non-`]` characters, then `]`. -/
def statusMatchAt : Str → Option Nat
  | '[' :: d1 :: d2 :: d3 :: rest =>
    if d1.isDigit && d2.isDigit && d3.isDigit &&
        !(rest.dropWhile (· ≠ ']')).isEmpty then
      some ((d1.toNat - 48) * 100 + (d2.toNat - 48) * 10 + (d3.toNat - 48))
    else none
  | _ => none

/-- `errorMessage.match(/\[(\d{3})[^\]]*\]/)` — the first position at which the
pattern matches, scanning left to right. -/
def findStatusGo : Str → Option Nat
  | [] => none
  | c :: rest =>
    match statusMatchAt (c :: rest) with
    | some n => some n
    | none => findStatusGo rest

/-- The fail-fast classification of `callAiWithRetry` (source lines 703–715):
client errors in [400,500) other than 429 (with `error.status` taking
precedence over a status parsed from the message), context-length errors and
invalid-API-key errors are non-retriable. -/
def isNonRetriable (e : AiError) : Bool :=
  let msgL := toLowerStr e.message
  let statusCode : Option Nat :=
    match e.status with
    | some s => some s
    | none => findStatusGo msgL
  let isClient :=
    match statusCode with
    | some s => decide (400 ≤ s ∧ s < 500 ∧ s ≠ 429)
    | none => false
  let isCtx := containsSub "context length".data msgL || containsSub "token limit".data msgL
  let isKey := containsSub "api key not valid".data msgL
  isClient || isCtx || isKey

/-- Outcome of `callAiWithRetry` when it does not return a value: either a
rethrown operational error (`throw error`, lines 714 and 720) or the generic
exhaustion error `Error("AI call failed after all retries.")` of line 762. -/
inductive RetryFailure where
  | op (e : AiError)
  | exhausted
deriving DecidableEq, Repr

/-- The retry loop of `callAiWithRetry`, with `attempt` the current attempt
index and `remaining` the number of loop iterations left
(`remaining = maxRetries - attempt`).  On the final attempt (line 718,
`attempt === maxRetries - 1`) the *last operational error* is rethrown. -/
def callAiWithRetryAux {α : Type} (apiCall : Nat → Except AiError α) :
    Nat → Nat → Except RetryFailure α
  | _, 0 => .error .exhausted
  | attempt, r + 1 =>
    match apiCall attempt with
    | .ok v => .ok v
    | .error e =>
      if isNonRetriable e then .error (.op e)
      else if r = 0 then .error (.op e)
      else callAiWithRetryAux apiCall (attempt + 1) r

/-- `callAiWithRetry` (source lines 696–763). -/
def callAiWithRetry {α : Type} (apiCall : Nat → Except AiError α)
    (maxRetries : Nat) : Except RetryFailure α :=
  callAiWithRetryAux apiCall 0 maxRetries

/-! ### Internal Link Engine (source lines 1011–1245)

The placeholder micro-format `[INTERNAL_LINK slug="…" text="…"]` is scanned
by explicit parsers mirroring the source's regular expressions.  The scanners
carry a fuel argument (always instantiated with more than the input length)
solely so that they are structurally recursive and hence computable by the
kernel. -/

/-- A sitemap page as consumed by the link passes; `id` is the page URL. -/
structure Page where
  id : Str
  title : Str
  slug : Str
deriving DecidableEq, Repr

/-- Consume an exact literal. -/
def eatLit (lit s : Str) : Option Str :=
  if isPrefixL lit s then some (s.drop lit.length) else none

/-- Consume `\s+` (at least one whitespace character, then the rest of the
run). -/
def eatWs1 : Str → Option Str
  | [] => none
  | c :: r => if isWsRe c then some (r.dropWhile isWsRe) else none

/-- Consume `([^"]+)"` — a non-empty run of non-quote characters followed by
the closing quote; returns the captured run. -/
def eatAttrVal (s : Str) : Option (Str × Str) :=
  let v := s.takeWhile (· ≠ '"')
  let rest := s.drop v.length
  if v.isEmpty then none
  else if rest.head? = some '"' then some (v, rest.tail) else none

/-- Try to match `\[INTERNAL_LINK\s+slug="([^"]+)"\s+text="([^"]+)"\]` at the
head of `s`; on success returns (full match, slug capture, text capture,
rest).  The pattern is deterministic: each `[^"]+` is delimited by the
following quote and each `\s+` by the following literal. -/
def matchStrictAt (s : Str) : Option (Str × Str × Str × Str) :=
  (eatLit "[INTERNAL_LINK".data s).bind fun s1 =>
  (eatWs1 s1).bind fun s2 =>
  (eatLit "slug=\"".data s2).bind fun s3 =>
  (eatAttrVal s3).bind fun a1 =>
  (eatWs1 a1.2).bind fun s5 =>
  (eatLit "text=\"".data s5).bind fun s6 =>
  (eatAttrVal s6).bind fun a2 =>
  (eatLit "]".data a2.2).bind fun s8 =>
  some (s.take (s.length - s8.length), a1.1, a2.1, s8)

/-- Generic fueled scan-and-replace modelling `String.prototype.replace` with
a global regex: at each position try the matcher `p`; on a match emit its
replacement and resume after the match (replaced text is not rescanned),
otherwise copy one character. -/
def scanRep (p : Str → Option (Str × Str)) : Nat → Str → Str
  | 0, _ => []
  | _ + 1, [] => []
  | n + 1, c :: rest =>
    match p (c :: rest) with
    | some (out, r2) => out ++ scanRep p n r2
    | none => c :: scanRep p n rest

/-- `scanRep` with enough fuel never to run out (every matcher used here
consumes at least one character per match). -/
def runScanRep (p : Str → Option (Str × Str)) (s : Str) : Str :=
  scanRep p (s.length + 1) s

/-- Generic fueled scan-and-collect modelling `String.prototype.matchAll`:
records the match position and payload, resuming after each match. -/
def scanCol {β : Type} (p : Str → Option (β × Str)) :
    Nat → Nat → Str → List (Nat × β)
  | 0, _, _ => []
  | _ + 1, _, [] => []
  | n + 1, i, c :: rest =>
    match p (c :: rest) with
    | some (b, r2) => (i, b) :: scanCol p n (i + ((c :: rest).length - r2.length)) r2
    | none => scanCol p n (i + 1) rest

/-- `scanCol` with enough fuel never to run out. -/
def runScanCol {β : Type} (p : Str → Option (β × Str)) (s : Str) : List (Nat × β) :=
  scanCol p (s.length + 1) 0 s

/-- `runScanCol` started at an arbitrary position counter (used to reason
about match positions). -/
def runScanColAt {β : Type} (p : Str → Option (β × Str)) (i : Nat) (s : Str) :
    List (Nat × β) :=
  scanCol p (s.length + 1) i s

/-- Words longer than 2 characters, after splitting on `/\s+/` (the
"meaningful words" of the repair scorer, lines 1029 and 1057). -/
def sigWords (s : Str) : List Str :=
  (jsSplitWs s).filter (fun w => w.length > 2)

/-- A JavaScript `Set` materialized as a list: first occurrences in insertion
order. -/
def jsSetList {α : Type} [DecidableEq α] : List α → List α :=
  go []
where
  go (seen : List α) : List α → List α
    | [] => []
    | a :: as => if seen.contains a then go seen as else a :: go (a :: seen) as

/-- `text.replace(/"/g, '&quot;')` (lines 1081 and 1213). -/
def escQuotes : Str → Str
  | [] => []
  | c :: r => if c = '"' then "&quot;".data ++ escQuotes r else c :: escQuotes r

/-- Builds the canonical placeholder text `[INTERNAL_LINK slug="…" text="…"]`
(lines 1082 and 1157). -/
def phStr (sl tx : Str) : Str :=
  "[INTERNAL_LINK slug=\"".data ++ sl ++ "\" text=\"".data ++ tx ++ "\"]".data

/-- Exact rational arithmetic for the repair scores, as unreduced integer
fractions (kernel-computable, unlike `Rat`, whose normalization uses
well-founded recursion).  All denominators arising below are positive: the
two divisions of the scorer are guarded by `intersection.size > 0`, which
forces both word sets non-empty. -/
structure Frac where
  num : Int
  den : Int
deriving Repr

/-- Embed an integer. -/
def Frac.ofInt (n : Int) : Frac := ⟨n, 1⟩

/-- Fraction addition. -/
def Frac.add (a b : Frac) : Frac := ⟨a.num * b.den + b.num * a.den, a.den * b.den⟩

/-- Fraction multiplication. -/
def Frac.mul (a b : Frac) : Frac := ⟨a.num * b.num, a.den * b.den⟩

/-- Fraction division (used only with positive divisors). -/
def Frac.divF (a b : Frac) : Frac := ⟨a.num * b.den, a.den * b.num⟩

/-- `a < b` by cross-multiplication (valid for positive denominators). -/
def Frac.blt (a b : Frac) : Bool := a.num * b.den < b.num * a.den

/-- One catalogue step of the repair scorer (lines 1034–1076): pages without
slug or title, and pages whose significant-title-word list is empty, are
skipped; otherwise the page's score is accumulated and a strictly greater
score takes over (so earlier pages win ties). -/
def repairStep (anchorLower : Str) (aws : List Str)
    (acc : Option Page × Frac) (p : Page) : Option Page × Frac :=
  if p.slug.isEmpty || p.title.isEmpty then acc
  else
    let titleLower := toLowerStr p.title
    let titleWords := sigWords titleLower
    if titleWords.isEmpty then acc
    else
      let base : Frac :=
        (Frac.ofInt (if titleLower = anchorLower then 100 else 0)).add
          ((Frac.ofInt (if containsSub anchorLower titleLower then 60 else 0)).add
            (Frac.ofInt (if containsSub titleLower anchorLower then 50 else 0)))
      let titleWordSet := jsSetList titleWords
      let inter := aws.filter (fun w => titleWordSet.contains w)
      let score : Frac :=
        if inter.length > 0 then
          let anchorPct :=
            ((Frac.ofInt inter.length).divF (Frac.ofInt aws.length)).mul
              (Frac.ofInt 100)
          let titlePct :=
            ((Frac.ofInt inter.length).divF (Frac.ofInt titleWordSet.length)).mul
              (Frac.ofInt 100)
          base.add ((anchorPct.add titlePct).divF (Frac.ofInt 2))
        else base
      if Frac.blt acc.2 score then (some p, score) else acc

/-- The best-match fold of the repair pass walks the catalogue in order. -/
def repairBest (anchorLower : Str) (aws : List Str) (pages : List Page) :
    Option Page × Frac :=
  pages.foldl (repairStep anchorLower aws) (none, Frac.ofInt (-1))

/-- The replacement callback of `validateAndRepairInternalLinks` (lines
1019–1086): a placeholder with a catalogue slug is kept verbatim; otherwise
the best fuzzy match is forged when its score exceeds 50, else the
placeholder degrades to its anchor text. -/
def repairRepl (pages : List Page) (m sl tx : Str) : Str :=
  if pages.any (fun p => p.slug = sl) then m
  else
    let anchorLower := toLowerStr tx
    let aws := jsSetList (sigWords anchorLower)
    match repairBest anchorLower aws pages with
    | (some best, score) =>
      if Frac.blt (Frac.ofInt 50) score then phStr best.slug (escQuotes tx) else tx
    | (none, _) => tx

/-- Lifts a placeholder replacement callback to a `scanRep` matcher. -/
def pStrict (g : Str → Str → Str → Str) (s : Str) : Option (Str × Str) :=
  (matchStrictAt s).map (fun x => (g x.1 x.2.1 x.2.2.1, x.2.2.2))

/-- `validateAndRepairInternalLinks` (source lines 1011–1088).  The catalogue
argument is an `Option` to model a `null`/`undefined` array. -/
def validateAndRepairInternalLinks (content : Str)
    (availablePages : Option (List Page)) : Str :=
  match availablePages with
  | none => content
  | some pages =>
    if content.isEmpty || pages.isEmpty then content
    else runScanRep (pStrict (repairRepl pages)) content

/-- All matches of the strict placeholder pattern
(`String.prototype.matchAll`): (position, (full match, slug, text)). -/
def strictMatches (content : Str) : List (Nat × (Str × Str × Str)) :=
  runScanCol
    (fun s => (matchStrictAt s).map (fun x => ((x.1, x.2.1, x.2.2.1), x.2.2.2)))
    content

/-- `match[1]` of the quota pass's `placeholderRegex` (line 1103):
`/\[INTERNAL_LINK\s+slug="[^"]+"\s+text="[^"]+"\]/g` declares **no capture
groups**, so `match[1]` is always `undefined`. -/
def jsGroup1NC : Str → Option Str := fun _ => none

/-- The prioritized search-term list derived from a page title (lines
1120–1129): the full title; for 5+-word titles the title minus its last word;
for 4+-word titles the title minus its first word; deduplicated (first
occurrences), filtered to length > 10, stably sorted longest first. -/
def searchTermsOf (title : Str) : List Str :=
  let ws := jsSplitChar ' ' title
  let cand :=
    [title] ++
    (if ws.length > 4 then [List.intercalate [' '] ws.dropLast] else []) ++
    (if ws.length > 3 then [List.intercalate [' '] (ws.drop 1)] else [])
  sortLenDesc ((jsSetList cand).filter (fun v => v.length > 10))
where
  insLenDesc (x : Str) : List Str → List Str
    | [] => [x]
    | y :: ys => if y.length ≥ x.length then y :: insLenDesc x ys else x :: y :: ys
  sortLenDesc (l : List Str) : List Str := l.foldl (fun acc x => insLenDesc x acc) []

/-- The lookbehind class `(?<=[>\s\n\t(])` of the injection regex (line
1148). -/
def lbOk (c : Char) : Bool := c = '>' || isWsRe c || c = '('

/-- The lookahead class `(?=[<\s\n\t.,!?)])` of the injection regex. -/
def laOk (c : Char) : Bool :=
  c = '<' || isWsRe c || c = '.' || c = ',' || c = '!' || c = '?' || c = ')'

/-- Case-insensitive literal prefix test (the term is `escapeRegExp`-escaped
in the source, so it matches literally; the `i` flag lower-cases both
sides). -/
def ciPrefix (term s : Str) : Bool :=
  isPrefixL (toLowerStr term) (toLowerStr s)

/-- One scanning step of the injection replace: `prev` is the character before
the current position (the lookbehind).  On the first full match the matched
slice (in its original casing) is passed to `mkRep` and the remainder is kept
verbatim — faithful to the source, whose callback replaces only the first
match and returns every later match unchanged (lines 1150–1163). -/
def injectFirstGo (term : Str) (mkRep : Str → Str) : Char → Str → Option Str
  | _, [] => none
  | prev, c :: rest =>
    if lbOk prev && ciPrefix term (c :: rest) &&
        (match (c :: rest).drop term.length with
         | [] => false
         | d :: _ => laOk d) then
      some (mkRep ((c :: rest).take term.length) ++ (c :: rest).drop term.length)
    else
      (injectFirstGo term mkRep c rest).map (fun out => c :: out)

/-- The injection replace over a whole content string; the lookbehind can
never match at position 0. -/
def injectFirst (term : Str) (mkRep : Str → Str) (content : Str) : Option Str :=
  match content with
  | [] => none
  | c :: rest => (injectFirstGo term mkRep c rest).map (fun out => c :: out)

/-- The inner `for (const term of page.searchTerms)` loop (lines 1143–1170):
first term that matches anywhere wins. -/
def tryTerms (p : Page) (content : Str) : List Str → Option Str
  | [] => none
  | t :: ts =>
    match injectFirst t (fun matched => phStr p.slug matched) content with
    | some c2 => some c2
    | none => tryTerms p content ts

/-- The outer candidate loop of the quota pass (lines 1138–1171). -/
def quotaLoop : List (Page × List Str) → Str → Int → List Str → Str
  | [], content, _, _ => content
  | (p, terms) :: more, content, deficit, newly =>
    if deficit ≤ 0 then content
    else if newly.contains p.slug then quotaLoop more content deficit newly
    else
      match tryTerms p content terms with
      | some content2 => quotaLoop more content2 (deficit - 1) (p.slug :: newly)
      | none => quotaLoop more content deficit newly

/-- `enforceInternalLinkQuota` (source lines 1100–1178).  Note `linkedSlugs`
is built from `match[1]` of a capture-group-free regex, i.e. from
`undefined` values only. -/
def enforceInternalLinkQuota (content : Str) (availablePages : Option (List Page))
    (primaryKeyword : Str) (minLinks : Int) : Str :=
  match availablePages with
  | none => content
  | some pages =>
    if pages.isEmpty then content
    else
      let existing := strictMatches content
      let linkedSlugs : List (Option Str) := existing.map (fun m => jsGroup1NC m.2.1)
      let deficit : Int := minLinks - existing.length
      if deficit ≤ 0 then content
      else
        let candidates :=
          ((pages.filter (fun p =>
              !p.slug.isEmpty && !p.title.isEmpty &&
              !(linkedSlugs.contains (some p.slug)) &&
              (jsSplitChar ' ' p.title).length > 2)).map
            (fun p => (p, searchTermsOf p.title))).filter
            (fun pc => !pc.2.isEmpty)
        quotaLoop candidates content deficit []

/-- The fixed UTM query string appended by the resolution pass.  This models
`new URL(page.id)` followed by three `searchParams.set` calls and
`toString()` for an already-normalized absolute URL with no query string or
fragment — the only URL shape exercised by the claims below. -/
def addUtmParams (id : Str) : Str :=
  id ++ ("?utm_source=wp-content-optimizer&utm_medium=internal-link" ++
    "&utm_campaign=content-hub-automation").data

/-- Slug lookup in the `Map` of line 1194: built by successive insertion over
the filtered catalogue, so a later page with the same slug overwrites an
earlier one. -/
def lookupLastBySlug (pages : List Page) (sl : Str) : Option Page :=
  (pages.filter (fun p => !p.slug.isEmpty)).foldl
    (fun acc p => if p.slug = sl then some p else acc) none

/-- The replacement callback of `processInternalLinks` (lines 1199–1220). -/
def processRepl (pages : List Page) (m sl tx : Str) : Str :=
  match lookupLastBySlug pages sl with
  | some page =>
    if !page.id.isEmpty then
      "<a href=\"".data ++ addUtmParams page.id ++ "\">".data ++
        escQuotes tx ++ "</a>".data
    else tx
  | none => tx

/-- `processInternalLinks` (source lines 1188–1221). -/
def processInternalLinks (content : Str)
    (availablePages : Option (List Page)) : Str :=
  match availablePages with
  | none => content
  | some pages =>
    if content.isEmpty || pages.isEmpty then content
    else runScanRep (pStrict (processRepl pages)) content

/-- Try to match the broad pattern `\[INTERNAL_LINK[^\]]*\]` at the head of
`s` (line 1230): everything from the literal up to the first `]`. -/
def matchBroadAt (s : Str) : Option (Str × Str) :=
  (eatLit "[INTERNAL_LINK".data s).bind fun s1 =>
    let inside := s1.takeWhile (· ≠ ']')
    let rest := s1.drop inside.length
    if rest.head? = some ']' then
      some (s.take (s.length - rest.tail.length), rest.tail)
    else none

/-- First occurrence of `lit ++ ([^"]+) ++ "` inside a string —
`match.match(/slug="([^"]+)"/)` and the `text` analogue (lines 1232–1233);
returns the capture. -/
def findAttrGo (lit : Str) : Str → Option Str
  | [] => none
  | c :: rest =>
    match eatLit lit (c :: rest) with
    | some s1 =>
      match eatAttrVal s1 with
      | some (v, _) => some v
      | none => findAttrGo lit rest
    | none => findAttrGo lit rest

/-- The replacement callback of `sanitizeBrokenPlaceholders` (lines
1231–1244): a broad match with both a non-empty slug and a non-empty text
attribute is kept; otherwise it is replaced by its text attribute if present,
else deleted. -/
def sanitizeRepl (m : Str) : Str :=
  match findAttrGo "slug=\"".data m, findAttrGo "text=\"".data m with
  | some _, some _ => m
  | _, some t => t
  | _, none => []

/-- `sanitizeBrokenPlaceholders` (source lines 1229–1245). -/
def sanitizeBrokenPlaceholders (content : Str) : Str :=
  runScanRep (fun s => (matchBroadAt s).map (fun x => (sanitizeRepl x.1, x.2))) content

/-- Number of broad (`\[INTERNAL_LINK[^\]]*\]`) placeholder matches left in a
content string. -/
def broadPlaceholderCount (content : Str) : Nat :=
  (runScanCol (fun s => matchBroadAt s) content).length

/-- The four link-engine passes composed in the order asserted by the claim:
repair, then quota enforcement, then resolution, then the broken-placeholder
sanitizer.  (The orchestrator itself actually runs the sanitizer *first* —
source lines 4061–4064.) -/
def linkEnginePipeline (content : Str) (pages : Option (List Page))
    (kw : Str) (minLinks : Int) : Str :=
  sanitizeBrokenPlaceholders
    (processInternalLinks
      (enforceInternalLinkQuota
        (validateAndRepairInternalLinks content pages) pages kw minLinks)
      pages)

/-- The catalogue page of claim C6. -/
def c6Page : Page :=
  ⟨"https://example.com/seo-guide".data, "The Ultimate SEO Guide 2025".data,
    "seo-guide".data⟩

/-- The content of claim C6: a placeholder with a hallucinated slug. -/
def c6Content : Str := phStr "seo-guide-2025".data "SEO Guide".data

/-- The catalogue page of claim C4's failing input. -/
def c4Page : Page :=
  ⟨"https://example.com/complete-guide-to-gardening".data,
    "Complete Guide To Gardening".data, "complete-guide-to-gardening".data⟩

/-- C4's failing input: prose mentioning the page title, followed by an
existing placeholder already linking that same page. -/
def c4Content : Str :=
  "<p>Read the Complete Guide To Gardening now.</p> ".data ++
    phStr "complete-guide-to-gardening".data "Complete Guide To Gardening".data

/-- Number of strict placeholders in `content` whose slug is `sl`. -/
def slugMatchCount (content sl : Str) : Nat :=
  ((strictMatches content).filter (fun x => x.2.2.1 = sl)).length

/-- C2's counterexample content: a placeholder with its two attributes in
reversed order — it matches the broad pattern but not the strict one. -/
def c2Cex : Str := "[INTERNAL_LINK text=\"b\" slug=\"a\"]".data

/-- A one-page catalogue for C2's counterexample. -/
def c2Page : Page := ⟨"https://example.com/a".data, "Alpha".data, "a".data⟩

/-! ### Structured contents for the link-pipeline invariant

For the amended form of the pipeline invariant, contents are described as an
interleaving of plain-text segments and canonical placeholders. -/

/-- A content fragment: plain text or a canonical placeholder. -/
inductive Item where
  | txt (s : Str)
  | ph (slug text : Str)
deriving DecidableEq, Repr

/-- The character string of one fragment. -/
def itemStr : Item → Str
  | .txt s => s
  | .ph sl tx => phStr sl tx

/-- The character string of an interleaving. -/
def itemsRender (items : List Item) : Str := (items.map itemStr).flatten

/-- Is a fragment a placeholder? -/
def isPh : Item → Bool
  | .txt _ => false
  | .ph _ _ => true

/-- A safe attribute value: non-empty, no quote (so the strict pattern
captures it exactly) and no opening bracket (so a degraded placeholder cannot
recreate a placeholder). -/
def attrOk (s : Str) : Prop := s ≠ [] ∧ '"' ∉ s ∧ '[' ∉ s

instance (s : Str) : Decidable (attrOk s) := by unfold attrOk; infer_instance

/-- Fragment safety: text segments contain no opening bracket; placeholder
attributes are safe. -/
def itemOk : Item → Prop
  | .txt s => '[' ∉ s
  | .ph sl tx => attrOk sl ∧ attrOk tx

instance : ∀ it, Decidable (itemOk it)
  | .txt s => by unfold itemOk; infer_instance
  | .ph sl tx => by unfold itemOk; infer_instance

/-- Catalogue safety: slug, title and URL non-empty without quotes or opening
brackets. -/
def pageOk (p : Page) : Prop := attrOk p.slug ∧ attrOk p.title ∧ attrOk p.id

instance (p : Page) : Decidable (pageOk p) := by unfold pageOk; infer_instance

/-- The action of the repair pass on a single fragment: a placeholder whose
slug is in the catalogue survives; a repaired one gets the best-match slug; an
unrepairable one degrades to its anchor text. -/
def repairItemF (pages : List Page) : Item → Item
  | .txt s => .txt s
  | .ph sl tx =>
    if pages.any (fun p => p.slug = sl) then .ph sl tx
    else
      let anchorLower := toLowerStr tx
      let aws := jsSetList (sigWords anchorLower)
      match repairBest anchorLower aws pages with
      | (some best, score) =>
        if Frac.blt (Frac.ofInt 50) score then .ph best.slug (escQuotes tx)
        else .txt tx
      | (none, _) => .txt tx

/-- A safe interleaving used as the C2 witness. -/
def c2wItems : List Item :=
  [.txt "<p>Intro ".data, .ph "seo-guide".data "SEO Guide".data,
    .txt " more</p>".data]

/-- The catalogue page of the C2 witness. -/
def c2wPage : Page :=
  ⟨"https://example.com/seo-guide".data, "SEO Guide".data, "seo-guide".data⟩

/-! ### Video De-duplication Guardian (source lines 1359–1395) -/

/-- A selected video; only its (possibly absent) `videoId` field is consumed
by `enforceUniqueVideoEmbeds`. -/
structure Video where
  videoId : Option Str
deriving DecidableEq, Repr

/-- Greedy quantifier with at least one repetition: try the longest
consumption first, backtracking downwards (the `+` of the iframe regex). -/
def greedyD1 {β : Type} (f : Nat → Option β) : Nat → Option β
  | 0 => none
  | i + 1 => (f (i + 1)).orElse (fun _ => greedyD1 f i)

/-- Greedy quantifier with zero or more repetitions (the `*` of the iframe
regex). -/
def greedyD0 {β : Type} (f : Nat → Option β) : Nat → Option β
  | 0 => f 0
  | i + 1 => (f (i + 1)).orElse (fun _ => greedyD0 f i)

/-- The literal `<iframe`. -/
def ifrLit : Str := "<iframe".data

/-- The literal `src="https://www.youtube.com/embed/` of the iframe regex. -/
def embedLit : Str := "src=\"https://www.youtube.com/embed/".data

/-- The literal `></iframe>` closing the iframe regex. -/
def ifrTail : Str := "></iframe>".data

/-- The video-identifier character class `[^"?&]`. -/
def vidClass (c : Char) : Bool := c ≠ '"' && c ≠ '?' && c ≠ '&'

/-- After the capture group has consumed `j` characters of `v`, the trailing
`[^>]*><\/iframe>` of the iframe regex: greedily consume `l` non-`>`
characters, then require the literal `></iframe>`. -/
def ifrInner2 (v : Str) (i j : Nat) : Option (Nat × Str) :=
  greedyD0 (fun l =>
    if isPrefixL ifrTail ((v.drop j).drop l) then
      some (ifrLit.length + i + embedLit.length + j + l + ifrTail.length,
        v.take j)
    else none) (((v.drop j).takeWhile (· ≠ '>')).length)

/-- After `<iframe` has matched and `[^>]+` has consumed `i` characters of
`t`: require the literal `src="https://www.youtube.com/embed/`, then greedily
capture `([^"?&]+)`. -/
def ifrScan (t : Str) (i : Nat) : Option (Nat × Str) :=
  if isPrefixL embedLit (t.drop i) then
    greedyD1 (ifrInner2 ((t.drop i).drop embedLit.length) i)
      ((((t.drop i).drop embedLit.length).takeWhile vidClass).length)
  else none

/-- Try to match
`<iframe[^>]+src="https:\/\/www\.youtube\.com\/embed\/([^"?&]+)[^>]*><\/iframe>`
at the head of `s`, with the regex engine's greedy-backtracking semantics for
the three quantifiers; on success returns (full match, captured id, rest). -/
def matchIframeAt (s : Str) : Option (Str × Str × Str) :=
  if isPrefixL ifrLit s then
    (greedyD1 (ifrScan (s.drop ifrLit.length))
      (((s.drop ifrLit.length).takeWhile (· ≠ '>')).length)).map
      (fun r => (s.take r.1, r.2, s.drop r.1))
  else none

/-- The iframe matcher as consumed by the scanner: payload (full match, id),
plus the rest of the string. -/
def pIfr (s : Str) : Option ((Str × Str) × Str) :=
  (matchIframeAt s).map (fun r => ((r.1, r.2.1), r.2.2))

/-- All iframe matches of a content string (`matchAll`): (position, (full
match, id)). -/
def iframeMatchesN (content : Str) : List (Nat × (Str × Str)) :=
  runScanCol pIfr content

/-- `String.prototype.indexOf(needle, i)` scanning from position `i`. -/
def indexOfAux (needle : Str) : Nat → Str → Option Nat
  | i, [] => if isPrefixL needle [] then some i else none
  | i, c :: rest =>
    if isPrefixL needle (c :: rest) then some i else indexOfAux needle (i + 1) rest

/-- `content.indexOf(needle, start)`. -/
def jsIndexOfFrom (s needle : Str) (start : Nat) : Option Nat :=
  indexOfAux needle start (s.drop start)

/-- `String.prototype.replace` with a plain-string pattern: replaces the first
occurrence.  (The replacement strings used here contain no `$` patterns.) -/
def jsReplaceFirst (pat repl s : Str) : Str :=
  match indexOfAux pat 0 s with
  | some i => s.take i ++ repl ++ s.drop (i + pat.length)
  | none => s

/-- The body of `enforceUniqueVideoEmbeds` once at least two videos were
selected (source lines 1366–1394). -/
def dedupBody (content : Str) (vs : List Video) : Str :=
  let ms := iframeMatchesN content
  if ms.length < 2 then content
  else
    let ids := ms.map (fun m => m.2.2)
    let firstId := ids.headD []
    if ids.all (fun id => id = firstId) then
      match vs[1]? with
      | some v2 =>
        match v2.videoId with
        | some vid =>
          if !vid.isEmpty && vid ≠ firstId then
            match ms[1]? with
            | some m2 =>
              match jsIndexOfFrom content m2.2.1 m2.1 with
              | some idx =>
                content.take idx ++ jsReplaceFirst firstId vid m2.2.1 ++
                  content.drop (idx + m2.2.1.length)
              | none => content
            | none => content
          else content
        | none => content
      | none => content
    else content

/-- `enforceUniqueVideoEmbeds` (source lines 1359–1395). -/
def enforceUniqueVideoEmbeds (content : Str) (youtubeVideos : Option (List Video)) :
    Str :=
  match youtubeVideos with
  | none => content
  | some vs =>
    if vs.length < 2 then content
    else dedupBody content vs

/-- The single-space gap between `<iframe` and `src=` in a canonical embed
tag (the `[^>]+` of the regex consumes exactly its leading space when the
backtracking engine settles). -/
def ifrGap : Str := " src=\"https://www.youtube.com/embed/".data

/-- The fixed prefix of a canonical YouTube iframe embed tag. -/
def mkIframePre : Str := "<iframe src=\"https://www.youtube.com/embed/".data

/-- The fixed suffix of a canonical YouTube iframe embed tag. -/
def mkIframeSuf : Str := "\"></iframe>".data

/-- A canonical YouTube embed tag for a given video identifier. -/
def mkIframe (id : Str) : Str := mkIframePre ++ id ++ mkIframeSuf

/-- Characters allowed in a YouTube video identifier. -/
def idChar (c : Char) : Bool := c.isAlphanum || c = '-' || c = '_'

/-! ### JSON extractor (source lines 497–605) -/

/-- The whitespace accepted by `JSON.parse` between tokens. -/
def isJsonWs (c : Char) : Bool := c = ' ' || c = '\t' || c = '\n' || c = '\r'

/-- Skip inter-token JSON whitespace. -/
def skipWs (s : Str) : Str := s.dropWhile isJsonWs

/-- A hexadecimal digit (for `\uXXXX` escapes). -/
def isHexDig (c : Char) : Bool :=
  c.isDigit || ('a' ≤ c && c ≤ 'f') || ('A' ≤ c && c ≤ 'F')

/-- Scan the remainder of a JSON string literal (after the opening quote),
with full escape handling; returns the rest after the closing quote. -/
def scanStringRest : Str → Option Str
  | [] => none
  | c :: rest =>
    if c = '"' then some rest
    else if c = '\\' then
      match rest with
      | [] => none
      | e :: rest2 =>
        if e = 'u' then
          match rest2 with
          | h1 :: h2 :: h3 :: h4 :: r =>
            if isHexDig h1 && isHexDig h2 && isHexDig h3 && isHexDig h4 then
              scanStringRest r
            else none
          | _ => none
        else if e = '"' || e = '\\' || e = '/' || e = 'b' || e = 'f' || e = 'n' ||
            e = 'r' || e = 't' then scanStringRest rest2
        else none
    else if c.toNat < 32 then none
    else scanStringRest rest

/-- Scan a JSON number whose first character is `c` (grammar
`-?(0|[1-9][0-9]*)(\.[0-9]+)?([eE][+-]?[0-9]+)?`). -/
def scanNumAt (c : Char) (rest : Str) : Option Str :=
  let intPart : Str → Option Str := fun s =>
    match s with
    | [] => none
    | d :: r =>
      if d = '0' then some r
      else if d.isDigit then some (r.dropWhile Char.isDigit)
      else none
  match (if c = '-' then intPart rest else intPart (c :: rest)) with
  | none => none
  | some r1 =>
    match (match r1 with
      | '.' :: rf =>
        match rf with
        | d :: _ => if d.isDigit then some (rf.dropWhile Char.isDigit) else none
        | [] => none
      | _ => some r1) with
    | none => none
    | some r2 =>
      match r2 with
      | e :: re =>
        if e = 'e' || e = 'E' then
          match (match re with
            | s1 :: rr => if s1 = '+' || s1 = '-' then rr else re
            | [] => re) with
          | d :: rr2 => if d.isDigit then some ((d :: rr2).dropWhile Char.isDigit)
            else none
          | [] => none
        else some r2
      | [] => some r2

mutual

/-- Consume one JSON value (leading whitespace already skipped); fueled. -/
def scanVal : Nat → Str → Option Str
  | 0, _ => none
  | n + 1, s =>
    match s with
    | [] => none
    | c :: rest =>
      if c = '"' then scanStringRest rest
      else if c = lbrace then
        match skipWs rest with
        | d :: r2 => if d = rbrace then some r2 else scanMembers n (d :: r2)
        | [] => none
      else if c = '[' then
        match skipWs rest with
        | d :: r2 => if d = ']' then some r2 else scanElems n (d :: r2)
        | [] => none
      else if c = 't' then eatLit "rue".data rest
      else if c = 'f' then eatLit "alse".data rest
      else if c = 'n' then eatLit "ull".data rest
      else scanNumAt c rest

/-- Consume the members of an object (at a key, whitespace skipped), then
the closing brace. -/
def scanMembers : Nat → Str → Option Str
  | 0, _ => none
  | n + 1, s =>
    match s with
    | [] => none
    | c :: rest =>
      if c = '"' then
        match scanStringRest rest with
        | some r2 =>
          match skipWs r2 with
          | ':' :: r3 =>
            match scanVal n (skipWs r3) with
            | some r4 =>
              match skipWs r4 with
              | ',' :: r5 => scanMembers n (skipWs r5)
              | d :: r5 => if d = rbrace then some r5 else none
              | [] => none
            | none => none
          | _ => none
        | none => none
      else none

/-- Consume the elements of an array (at a value), then the closing
bracket. -/
def scanElems : Nat → Str → Option Str
  | 0, _ => none
  | n + 1, s =>
    match scanVal n s with
    | some r =>
      match skipWs r with
      | ',' :: r2 => scanElems n (skipWs r2)
      | d :: r2 => if d = ']' then some r2 else none
      | [] => none
    | none => none

end

/-- Whether `JSON.parse` accepts the string. -/
def jsonParses (s : Str) : Bool :=
  match scanVal (s.length + 1) (skipWs s) with
  | some rest => (skipWs rest).isEmpty
  | none => false

mutual

/-- A JSON value (numbers restricted to single digits, strings carried
verbatim), used to describe the inputs of the extractor. -/
inductive Json where
  | num : Fin 10 → Json
  | str : Str → Json
  | boolean : Bool → Json
  | nul : Json
  | obj : JPairs → Json
  | arr : JList → Json

/-- The member list of a JSON object. -/
inductive JPairs where
  | nil : JPairs
  | cons : Str → Json → JPairs → JPairs

/-- The element list of a JSON array. -/
inductive JList where
  | nil : JList
  | cons : Json → JList → JList

end

mutual

/-- Serialize a JSON value without whitespace; with `tc = true` a trailing
comma is inserted before the closer of every non-empty container. -/
def serJ (tc : Bool) : Json → Str
  | .num d => [Nat.digitChar d.val]
  | .str s => '"' :: (s ++ ['"'])
  | .boolean b => if b then "true".data else "false".data
  | .nul => "null".data
  | .obj p =>
    lbrace :: (serPairs tc p ++
      ((match p with | .nil => [] | .cons _ _ _ => if tc then [','] else []) ++
        [rbrace]))
  | .arr l =>
    '[' :: (serList tc l ++
      ((match l with | .nil => [] | .cons _ _ => if tc then [','] else []) ++
        [']']))

/-- Serialize object members, comma-separated. -/
def serPairs (tc : Bool) : JPairs → Str
  | .nil => []
  | .cons k v tl =>
    '"' :: (k ++ '"' :: ':' :: (serJ tc v ++
      (match tl with | .nil => [] | .cons _ _ _ => ',' :: serPairs tc tl)))

/-- Serialize array elements, comma-separated. -/
def serList (tc : Bool) : JList → Str
  | .nil => []
  | .cons v tl =>
    serJ tc v ++ (match tl with | .nil => [] | .cons _ _ => ',' :: serList tc tl)

end

/-- Characters allowed inside the strings and keys of a safe value
(ASCII letters, digits and spaces): no quotes, no escapes, no brackets, no
commas, no backticks, no control characters. -/
def safeChar (c : Char) : Bool :=
  "abcdefghijklmnopqrstuvwxyzABCDEFGHIJKLMNOPQRSTUVWXYZ0123456789 ".data.contains c

mutual

/-- A safe value: all strings and keys over `safeChar`. -/
def safeJ : Json → Bool
  | .num _ => true
  | .str s => s.all safeChar
  | .boolean _ => true
  | .nul => true
  | .obj p => safeP p
  | .arr l => safeL l

def safeP : JPairs → Bool
  | .nil => true
  | .cons k v tl => k.all safeChar && safeJ v && safeP tl

def safeL : JList → Bool
  | .nil => true
  | .cons v tl => safeJ v && safeL tl

end

mutual

/-- Fuel consumed by the checker on a serialized value. -/
def jsize : Json → Nat
  | .num _ => 1
  | .str _ => 1
  | .boolean _ => 1
  | .nul => 1
  | .obj p => 1 + jsizeP p
  | .arr l => 1 + jsizeL l

def jsizeP : JPairs → Nat
  | .nil => 0
  | .cons _ v tl => 1 + jsize v + jsizeP tl

def jsizeL : JList → Nat
  | .nil => 0
  | .cons v tl => 1 + jsize v + jsizeL tl

end

/-- `replace(/^```(?:json)?\s*/, '')`: drop an opening fence, an optional
`json` tag and following whitespace, all anchored at the start. -/
def stripOpenFence (s : Str) : Str :=
  if isPrefixL "```".data s then
    let r := s.drop 3
    let r2 := if isPrefixL "json".data r then r.drop 4 else r
    r2.dropWhile isWsRe
  else s

/-- `replace(/\s*```$/, '')`: drop a closing fence and the whitespace run
before it, anchored at the end. -/
def stripCloseFence (s : Str) : Str :=
  if isPrefixL "```".data s.reverse then
    ((s.reverse.drop 3).dropWhile isWsRe).reverse
  else s

/-- The matcher of `replace(/```json\s*/gi, '')`. -/
def mFenceJson (s : Str) : Option (Str × Str) :=
  if isPrefixL "```".data s && ciPrefix "json".data (s.drop 3) then
    some ([], (s.drop 7).dropWhile isWsRe)
  else none

/-- The matcher of `replace(/```\s*/g, '')`. -/
def mFencePlain (s : Str) : Option (Str × Str) :=
  if isPrefixL "```".data s then some ([], (s.drop 3).dropWhile isWsRe)
  else none

/-- The matcher of `replace(/,(\s*[}\]])/g, '$1')`: consumes the comma, the
whitespace run and the closer, and re-emits the whitespace and closer. -/
def mStripTC (s : Str) : Option (Str × Str) :=
  match s with
  | c :: rest =>
    if c = ',' then
      match rest.dropWhile isWsRe with
      | d :: r3 =>
        if d = rbrace ∨ d = ']' then
          some (rest.takeWhile isWsRe ++ [d], r3)
        else none
      | [] => none
    else none
  | [] => none

/-- The matcher of the post-candidate repair `replace(/,(?=\s*[}\]])/g,
'')`: a lookahead, so only the comma is consumed. -/
def mTC2 (s : Str) : Option (Str × Str) :=
  match s with
  | c :: rest =>
    if c = ',' then
      match rest.dropWhile isWsRe with
      | d :: _ => if d = rbrace ∨ d = ']' then some ([], rest) else none
      | [] => none
    else none
  | [] => none

/-- `String.prototype.indexOf` for a single character. -/
def firstIdxOf (t : Char) : Str → Option Nat
  | [] => none
  | c :: rest => if c = t then some 0 else (firstIdxOf t rest).map (· + 1)

/-- One step of the bracket-balancing state machine of the extractor
(source lines 551–570): state is (balance, inString, escapeNext). -/
def procOne (sc ec : Char) : Int × Bool × Bool → Char → Int × Bool × Bool :=
  fun st c =>
    if st.2.2 then (st.1, st.2.1, false)
    else if c = '\\' then (st.1, st.2.1, true)
    else
      let inStr2 := if c = '"' then !st.2.1 else st.2.1
      if inStr2 then (st.1, inStr2, false)
      else if c = sc then (st.1 + 1, inStr2, false)
      else if c = ec then (st.1 - 1, inStr2, false)
      else (st.1, inStr2, false)

/-- Iterated balance steps. -/
def procList (sc ec : Char) (st : Int × Bool × Bool) (s : Str) :
    Int × Bool × Bool :=
  s.foldl (procOne sc ec) st

/-- Whether the balance scan reaches zero (and exits) inside `s`. -/
def hitsZero (sc ec : Char) : Int × Bool × Bool → Str → Bool
  | _, [] => false
  | st, c :: rest =>
    let st2 := procOne sc ec st c
    if !st.2.2 && c ≠ '\\' && !st2.2.1 && st2.1 = 0 then true
    else hitsZero sc ec st2 rest

/-- The balance loop (source lines 551–570): returns the exit index (if the
balance reached zero) and the final balance. -/
def scFalls (sc ec : Char) : Nat → Int × Bool × Bool → Str → Option Nat × Int
  | _, st, [] => (none, st.1)
  | i, st, c :: rest =>
    let st2 := procOne sc ec st c
    if !st.2.2 && c ≠ '\\' && !st2.2.1 && st2.1 = 0 then (some i, st2.1)
    else scFalls sc ec (i + 1) st2 rest

/-- Candidate extraction and the two parse attempts (source lines 536–604),
starting from the first bracket. -/
def extractCore (potentialJson : Str) : Except Str Str :=
  let sc := potentialJson.headD lbrace
  let ec := if sc = lbrace then rbrace else ']'
  let res := scFalls sc ec 1 (1, false, false) (potentialJson.drop 1)
  let candidate :=
    match res.1 with
    | some i => potentialJson.take (i + 1)
    | none =>
      potentialJson ++ (if 0 < res.2 then List.replicate res.2.toNat ec else [])
  if jsonParses candidate then .ok candidate
  else
    let repaired := runScanRep mTC2 candidate
    if jsonParses repaired then .ok repaired
    else .error "Unable to parse JSON from AI response after multiple repair attempts.".data

/-- Locating the first `{`/`[` of the cleaned text (source lines 521–534). -/
def extractTail (c3 : Str) : Except Str Str :=
  match firstIdxOf lbrace c3, firstIdxOf '[' c3 with
  | none, none =>
    .error "No JSON object/array found. Ensure your prompt requests JSON output only without markdown.".data
  | some b, none => extractCore (c3.drop b)
  | none, some q => extractCore (c3.drop q)
  | some b, some q => extractCore (c3.drop (min b q))

/-- The cleanup pipeline (source lines 509–518): anchored fence strips and
trim, global fence removal, trailing-comma removal. -/
def extractClean (text : Str) : Str :=
  runScanRep mStripTC
    (runScanRep mFencePlain
      (runScanRep mFenceJson (trimWs (stripCloseFence (stripOpenFence text)))))

/-- `extractJson` (source lines 497–605). -/
def extractJson (text : Str) : Except Str Str :=
  if text.isEmpty then .error "Input text is invalid or empty.".data
  else if jsonParses text then .ok text
  else extractTail (extractClean text)

instance exceptDecEq : DecidableEq (Except Str Str) := fun a b =>
  match a, b with
  | .ok x, .ok y =>
    if h : x = y then isTrue (by rw [h])
    else isFalse (fun hc => h (Except.ok.inj hc))
  | .error x, .error y =>
    if h : x = y then isTrue (by rw [h])
    else isFalse (fun hc => h (Except.error.inj hc))
  | .ok _, .error _ => isFalse (fun hc => Except.noConfusion hc)
  | .error _, .ok _ => isFalse (fun hc => Except.noConfusion hc)

/-- Characters allowed in the conversational prose of the amended claim:
letters, digits, spaces, periods, colons and exclamation marks. -/
def proseOk (c : Char) : Bool :=
  "abcdefghijklmnopqrstuvwxyzABCDEFGHIJKLMNOPQRSTUVWXYZ0123456789 .:!".data.contains c

/-- Every comma is immediately followed by a character that is neither
whitespace nor a closer (so the trailing-comma strip cannot fire). -/
def commaOk : Str → Bool
  | [] => true
  | [_] => true
  | c :: d :: rest =>
    (if c = ',' then !isWsRe d && !(d = rbrace) && !(d = ']') else true) &&
      commaOk (d :: rest)

/-- A valid continuation after a serialized value: nothing, or a separator
or closer (never a character that could extend a number). -/
def restOk : Str → Bool
  | [] => true
  | c :: _ => c = ',' || c = ']' || c = rbrace

/-! ### Content Normalizer (source lines 1405–1464) -/

/-- `\w` or `-`: the characters kept by the slug fallback's second
`replace` (which deletes runs of everything else). -/
def isWordDash (c : Char) : Bool := c.isAlphanum || c = '_' || c = '-'

/-- `replace(/\s+/g, '-')`: each whitespace run becomes a single dash
(state machine on whether the previous character was whitespace). -/
def dashWs : Bool → Str → Str
  | _, [] => []
  | prevWs, c :: rest =>
    if isWsRe c then
      if prevWs then dashWs true rest else '-' :: dashWs true rest
    else c :: dashWs false rest

/-- The slug fallback: `itemTitle.toLowerCase().replace(/\s+/g,
'-').replace(/[^\w-]+/g, '')`. -/
def slugify (t : Str) : Str := (dashWs false (toLowerStr t)).filter isWordDash

/-- One entry of `imageDetails`. -/
structure ImageDetail where
  prompt : Str
  altText : Str
  title : Str
  placeholder : Str
deriving DecidableEq, Repr

/-- The `strategy` record. -/
structure StrategyRec where
  targetAudience : Str
  searchIntent : Str
  competitorAnalysis : Str
  contentAngle : Str
deriving DecidableEq, Repr

/-- The `socialMediaCopy` record. -/
structure SocialCopy where
  twitter : Str
  linkedIn : Str
deriving DecidableEq, Repr

/-- The raw parsed JSON consumed by the normalizer: every field may be
absent (`none`). -/
structure RawContent where
  title : Option Str
  slug : Option Str
  content : Option Str
  metaDescription : Option Str
  primaryKeyword : Option Str
  imageDetails : Option (List ImageDetail)
  semanticKeywords : Option (List Str)
  strategy : Option StrategyRec
  jsonLdSchema : Option (List (Str × Str))
  socialMediaCopy : Option SocialCopy
deriving DecidableEq, Repr

/-- The normalizer's output: every field guaranteed present. -/
structure GeneratedContent where
  title : Str
  slug : Str
  content : Str
  metaDescription : Str
  primaryKeyword : Str
  imageDetails : List ImageDetail
  semanticKeywords : List Str
  strategy : StrategyRec
  jsonLdSchema : List (Str × Str)
  socialMediaCopy : SocialCopy
deriving DecidableEq, Repr

/-- JS falsiness of an optional string field: absent or empty. -/
def strFalsy : Option Str → Bool
  | none => true
  | some s => s.isEmpty

/-- `String.prototype.split` on a non-empty literal separator (fueled; each
step consumes at least one character). -/
def splitLitF (lit : Str) : Nat → Str → List Str
  | 0, _ => [[]]
  | _ + 1, [] => [[]]
  | n + 1, c :: rest =>
    if isPrefixL lit (c :: rest) then
      [] :: splitLitF lit n ((c :: rest).drop lit.length)
    else
      match splitLitF lit n rest with
      | [] => [[c]]
      | t :: ts => (c :: t) :: ts

/-- `content.split(lit)` with enough fuel. -/
def jsSplitLit (lit s : Str) : List Str := splitLitF lit (s.length + 1) s

/-- The placeholder-injection step (source lines 1435–1455): guarded by the
truthiness of `content`; splices after the `splitIdx`-th paragraph, or
appends when the body is shorter. -/
def injectPh (splitIdx : Nat) (tok phtag : Str) (content : Str) : Str :=
  if !content.isEmpty && !containsSub tok content then
    let paragraphs := jsSplitLit "</p>".data content
    if splitIdx < paragraphs.length then
      List.intercalate "</p>".data
        (paragraphs.take splitIdx ++ [phtag] ++ paragraphs.drop splitIdx)
    else content ++ phtag
  else content

/-- The two synthesized image descriptors (hero image and infographic). -/
def defaultImageDetails (title slugBase : Str) : List ImageDetail :=
  [⟨"A high-quality, photorealistic image representing the concept of: \"".data ++
      title ++
      "\". Cinematic, professional blog post header image, 16:9 aspect ratio.".data,
    "A conceptual image for \"".data ++ title ++ "\"".data,
    slugBase ++ "-feature-image".data,
    "[IMAGE_1_PLACEHOLDER]".data⟩,
   ⟨"An infographic or diagram illustrating a key point from the article: \"".data ++
      title ++ "\". Clean, modern design with clear labels. 16:9 aspect ratio.".data,
    "Infographic explaining a key concept from \"".data ++ title ++ "\"".data,
    slugBase ++ "-infographic".data,
    "[IMAGE_2_PLACEHOLDER]".data⟩]

/-- `normalizeGeneratedContent` (source lines 1405–1464). -/
def normalizeGeneratedContent (parsedJson : RawContent) (itemTitle : Str) :
    GeneratedContent :=
  let title := if strFalsy parsedJson.title then itemTitle
    else parsedJson.title.getD []
  let slug := if strFalsy parsedJson.slug then slugify itemTitle
    else parsedJson.slug.getD []
  let content0 := if strFalsy parsedJson.content then []
    else parsedJson.content.getD []
  let needImgs := parsedJson.imageDetails = none ∨ parsedJson.imageDetails = some []
  let slugBase := if slug.isEmpty then slugify itemTitle else slug
  let imageDetails := if needImgs then defaultImageDetails title slugBase
    else parsedJson.imageDetails.getD []
  let content2 :=
    if needImgs then
      injectPh 5 "[IMAGE_2_PLACEHOLDER]".data "<p>[IMAGE_2_PLACEHOLDER]</p>".data
        (injectPh 2 "[IMAGE_1_PLACEHOLDER]".data
          "<p>[IMAGE_1_PLACEHOLDER]</p>".data content0)
    else content0
  { title := title
    slug := slug
    content := content2
    metaDescription := if strFalsy parsedJson.metaDescription then
        "Read this comprehensive guide on ".data ++ title ++ ".".data
      else parsedJson.metaDescription.getD []
    primaryKeyword := if strFalsy parsedJson.primaryKeyword then itemTitle
      else parsedJson.primaryKeyword.getD []
    imageDetails := imageDetails
    semanticKeywords := parsedJson.semanticKeywords.getD []
    strategy := parsedJson.strategy.getD ⟨[], [], [], []⟩
    jsonLdSchema := parsedJson.jsonLdSchema.getD []
    socialMediaCopy := parsedJson.socialMediaCopy.getD ⟨[], []⟩ }

/-- The empty-object input (every field absent). -/
def emptyRaw : RawContent :=
  ⟨none, none, none, none, none, none, none, none, none, none⟩

/-- An input whose only field is a short one-paragraph body lacking the
image placeholder tokens. -/
def rawWithBody : RawContent :=
  ⟨none, none, some "<p>hi</p>".data, none, none, none, none, none, none, none⟩

/-- A typical retriable server error: HTTP 503. -/
def e503 : AiError := ⟨some 503, "service unavailable".data⟩

/-- A content string of exactly 500 single-letter words. -/
def w500 : Str := List.intercalate [' '] (List.replicate 500 ['x'])

-- ════════════════════════════════════════════════════════════════════════════
-- Theorems
-- ════════════════════════════════════════════════════════════════════════════

/-- If every attempt up to the last one fails with a retriable error, the
retry loop rethrows the error of the final attempt. -/
theorem callAiWithRetryAux_allFail {α : Type} (apiCall : Nat → Except AiError α)
    (err : Nat → AiError) :
    ∀ r a, 1 ≤ r →
      (∀ i, a ≤ i → i < a + r →
        apiCall i = .error (err i) ∧ isNonRetriable (err i) = false) →
      callAiWithRetryAux apiCall a r = .error (.op (err (a + r - 1))) := by
  intro r
  induction r with
  | zero => intro a h; omega
  | succ r ih =>
    intro a _ h
    have h0 := h a (le_refl a) (by omega)
    rw [callAiWithRetryAux, h0.1]
    simp only [h0.2, Bool.false_eq_true, if_false]
    by_cases hr : r = 0
    · subst hr; simp
    · rw [if_neg hr]
      have harith : a + (r + 1) - 1 = a + 1 + r - 1 := by omega
      rw [harith]
      exact ih (a + 1) (by omega) (fun i hi1 hi2 => h i (by omega) (by omega))

/-- C3 (amended): when every attempt fails with a retriable error,
`callAiWithRetry` — contrary to the claim — rethrows the *last operational
error* after exhausting `maxRetries` attempts (source line 720); the generic
exhaustion error of line 762 is only reachable when no attempt runs at all. -/
theorem c3_retry_exhaustion_rethrows_last_error {α : Type}
    (apiCall : Nat → Except AiError α) (err : Nat → AiError) (n : Nat)
    (hn : 1 ≤ n)
    (h : ∀ i, i < n → apiCall i = .error (err i) ∧ isNonRetriable (err i) = false) :
    callAiWithRetry apiCall n = .error (.op (err (n - 1))) := by
  unfold callAiWithRetry
  have := callAiWithRetryAux_allFail apiCall err n 0 hn
    (fun i hi1 hi2 => h i (by omega))
  simpa using this

/-- C3 (counterexample): an operation that fails with a retriable HTTP 503 on
all of its 5 attempts makes `callAiWithRetry` raise that operational error
itself — not a generic exhaustion error distinct from it. -/
theorem c3_counterexample :
    callAiWithRetry (fun _ => (.error e503 : Except AiError Unit)) 5 =
      .error (.op e503) ∧
    RetryFailure.op e503 ≠ RetryFailure.exhausted := by
  refine ⟨rfl, fun h => RetryFailure.noConfusion h⟩

/-- C3 witness: the amended theorem applied at a concrete always-failing
operation with 3 attempts. -/
theorem c3_retry_exhaustion_rethrows_last_error_witness :
    callAiWithRetry (fun _ => (.error e503 : Except AiError Unit)) 3 =
      .error (.op e503) :=
  c3_retry_exhaustion_rethrows_last_error (fun _ => .error e503) (fun _ => e503)
    3 (by decide) (fun i _ => ⟨rfl, by show isNonRetriable e503 = false; decide⟩)

/-- C9: with `maxRetries = 0` the loop body never runs, so the wrapped
operation is never invoked (the result is the same for *every* `apiCall`) and
the generic exhaustion error of source line 762 is raised. -/
theorem c9_zero_retries_generic_exhaustion {α : Type}
    (apiCall : Nat → Except AiError α) :
    callAiWithRetry apiCall 0 = .error .exhausted := rfl

/-- C8: content measuring 500 words against a 2200-word minimum raises
`ContentTooShortError` carrying the measured count 500 and the original
content unchanged; content above the configured maximum (with a consistent
minimum) never fails — the overage only logs a warning. -/
theorem c8_word_count_gate :
    (∀ content maxW, wordCountOf content = 500 →
      enforceWordCount content 2200 maxW =
        .error ⟨shortMsg 500 2200, content, 500⟩) ∧
    (∀ content minW maxW, minW ≤ maxW → maxW < wordCountOf content →
      enforceWordCount content minW maxW = .ok (wordCountOf content)) := by
  constructor
  · intro content maxW h
    simp only [enforceWordCount, h]
    norm_num
  · intro content minW maxW h1 h2
    simp only [enforceWordCount]
    rw [if_neg (by omega)]

/-- C8 witness: a concrete 500-single-letter-word content against the
2200-word minimum, and the same content against a 100–400 band where it is
over the maximum. -/
theorem c8_word_count_gate_witness :
    enforceWordCount w500 2200 3000 = .error ⟨shortMsg 500 2200, w500, 500⟩ ∧
    enforceWordCount w500 100 400 = .ok 500 := by
  have hw : wordCountOf w500 = 500 := by decide
  refine ⟨c8_word_count_gate.1 w500 3000 hw, ?_⟩
  have := c8_word_count_gate.2 w500 100 400 (by decide) (by rw [hw]; decide)
  rw [hw] at this
  exact this

/-- C10: each of the three catalogue-driven passes returns the content
unchanged when the catalogue is null (`none`) or empty. -/
theorem c10_empty_catalogue_identity :
    ∀ (content kw : Str) (minLinks : Int),
      validateAndRepairInternalLinks content none = content ∧
      validateAndRepairInternalLinks content (some []) = content ∧
      enforceInternalLinkQuota content none kw minLinks = content ∧
      enforceInternalLinkQuota content (some []) kw minLinks = content ∧
      processInternalLinks content none = content ∧
      processInternalLinks content (some []) = content := by
  intro content kw minLinks
  refine ⟨rfl, ?_, rfl, rfl, rfl, ?_⟩ <;>
    simp [validateAndRepairInternalLinks, processInternalLinks]

/-- C6: with the catalogue page `seo-guide` titled "The Ultimate SEO Guide
2025" and a placeholder carrying the hallucinated slug `seo-guide-2025` with
anchor text "SEO Guide", the repair pass rewrites the placeholder to the real
slug `seo-guide` (its score, 60 + 70 = 130, exceeds the 50 threshold). -/
theorem c6_repair_rewrites_hallucinated_slug :
    validateAndRepairInternalLinks c6Content (some [c6Page]) =
      phStr "seo-guide".data "SEO Guide".data := by
  decide

/-- C4: the quota pass's `linkedSlugs` set is built from `match[1]` of a
regex without capture groups, so already-linked pages re-enter the candidate
pool: content already containing one placeholder for
`complete-guide-to-gardening` gains a second placeholder for the same page.
-/
theorem c4_quota_relinks_already_linked_page :
    slugMatchCount c4Content "complete-guide-to-gardening".data = 1 ∧
    slugMatchCount
        (enforceInternalLinkQuota c4Content (some [c4Page]) "gardening".data 2)
        "complete-guide-to-gardening".data = 2 := by
  constructor <;> decide

/-- C2 (counterexample): a placeholder whose attributes appear in reversed
order (`text` before `slug`) is matched by none of the strict passes, and the
final sanitizer keeps it because it finds both attributes non-empty — so the
full pipeline leaves one malformed placeholder in the body. -/
theorem c2_counterexample :
    linkEnginePipeline c2Cex (some [c2Page]) [] 0 = c2Cex ∧
    broadPlaceholderCount (linkEnginePipeline c2Cex (some [c2Page]) [] 0) = 1 := by
  constructor <;> decide

/-! ### Scanner lemmas -/

theorem isPrefixL_self_append : ∀ l r : Str, isPrefixL l (l ++ r) = true := by
  intro l r
  induction l with
  | nil => rfl
  | cons c cs ih => simpa [isPrefixL] using ih

theorem eatLit_self (lit r : Str) : eatLit lit (lit ++ r) = some r := by
  simp [eatLit, isPrefixL_self_append, List.drop_left]

theorem eatLit_le (lit s r : Str) (h : eatLit lit s = some r) :
    r.length ≤ s.length := by
  unfold eatLit at h
  split at h
  · cases h; simpa using List.length_drop_le lit.length s
  · cases h

theorem eatLit_cons_head (c : Char) (lit' s x : Str)
    (h : eatLit (c :: lit') s = some x) : ∃ t, s = c :: t := by
  unfold eatLit at h
  split at h
  · next hp =>
    cases s with
    | nil => simp [isPrefixL] at hp
    | cons b bs =>
      simp only [isPrefixL, Bool.and_eq_true, decide_eq_true_eq] at hp
      exact ⟨bs, by rw [hp.1]⟩
  · cases h

theorem eatWs1_lt (s r : Str) (h : eatWs1 s = some r) : r.length < s.length := by
  cases s with
  | nil => cases h
  | cons c cs =>
    simp only [eatWs1] at h
    by_cases hw : isWsRe c
    · rw [if_pos hw] at h
      cases h
      simp only [List.length_cons]
      exact Nat.lt_succ_of_le
        (List.Sublist.length_le (List.dropWhile_sublist isWsRe))
    · rw [if_neg hw] at h; cases h

theorem eatAttrVal_lt (s : Str) (v r : Str) (h : eatAttrVal s = some (v, r)) :
    r.length < s.length := by
  simp only [eatAttrVal] at h
  by_cases he : (s.takeWhile (· ≠ '"')).isEmpty
  · rw [if_pos he] at h; cases h
  · rw [if_neg he] at h
    by_cases hh : (s.drop (s.takeWhile (· ≠ '"')).length).head? = some '"'
    · rw [if_pos hh] at h
      cases h
      have h1 : (s.drop (s.takeWhile (· ≠ '"')).length).length ≤ s.length := by
        simpa using List.length_drop_le _ s
      have h2 : (s.drop (s.takeWhile (· ≠ '"')).length) ≠ [] := by
        intro hx; rw [hx] at hh; simp at hh
      have h3 : (s.takeWhile (· ≠ '"')) ≠ [] := by
        intro hx; rw [hx] at he; exact he rfl
      have h4 : (s.takeWhile (· ≠ '"')).length +
          (s.drop (s.takeWhile (· ≠ '"')).length).length = s.length := by
        have hle := List.IsPrefix.length_le (List.takeWhile_prefix (· ≠ '"') (l := s))
        simp only [List.length_drop]
        omega
      have h5 : (s.drop (s.takeWhile (· ≠ '"')).length).tail.length <
          (s.drop (s.takeWhile (· ≠ '"')).length).length := by
        cases hx : (s.drop (s.takeWhile (· ≠ '"')).length) with
        | nil => exact absurd hx h2
        | cons a as => simp
      have h6 : 0 < (s.takeWhile (· ≠ '"')).length := by
        cases hx : (s.takeWhile (· ≠ '"')) with
        | nil => exact absurd hx h3
        | cons a as => simp
      omega
    · rw [if_neg hh] at h; cases h

theorem matchStrictAt_lt (s : Str) (m sl tx r : Str)
    (h : matchStrictAt s = some (m, sl, tx, r)) : r.length < s.length := by
  unfold matchStrictAt at h
  cases h1 : eatLit "[INTERNAL_LINK".data s with
  | none => rw [h1] at h; simp at h
  | some s1 =>
  rw [h1] at h; simp only [Option.some_bind] at h
  cases h2 : eatWs1 s1 with
  | none => rw [h2] at h; simp at h
  | some s2 =>
  rw [h2] at h; simp only [Option.some_bind] at h
  cases h3 : eatLit "slug=\"".data s2 with
  | none => rw [h3] at h; simp at h
  | some s3 =>
  rw [h3] at h; simp only [Option.some_bind] at h
  cases h4 : eatAttrVal s3 with
  | none => rw [h4] at h; simp at h
  | some p4 =>
  rw [h4] at h; simp only [Option.some_bind] at h
  cases h5 : eatWs1 p4.2 with
  | none => rw [h5] at h; simp at h
  | some s5 =>
  rw [h5] at h; simp only [Option.some_bind] at h
  cases h6 : eatLit "text=\"".data s5 with
  | none => rw [h6] at h; simp at h
  | some s6 =>
  rw [h6] at h; simp only [Option.some_bind] at h
  cases h7 : eatAttrVal s6 with
  | none => rw [h7] at h; simp at h
  | some p7 =>
  rw [h7] at h; simp only [Option.some_bind] at h
  cases h8 : eatLit "]".data p7.2 with
  | none => rw [h8] at h; simp at h
  | some s8 =>
  rw [h8] at h; simp only [Option.some_bind] at h
  simp only [Option.some.injEq, Prod.mk.injEq] at h
  obtain ⟨hm', hsl', htx', hr⟩ := h
  subst hr
  have e1 := eatLit_le _ _ _ h1
  have e2 := eatWs1_lt _ _ h2
  have e3 := eatLit_le _ _ _ h3
  have e4 := eatAttrVal_lt _ _ _ (by rw [h4] : eatAttrVal s3 = some (p4.1, p4.2))
  have e5 := eatWs1_lt _ _ h5
  have e6 := eatLit_le _ _ _ h6
  have e7 := eatAttrVal_lt _ _ _ (by rw [h7] : eatAttrVal s6 = some (p7.1, p7.2))
  have e8 := eatLit_le _ _ _ h8
  omega

theorem matchStrictAt_head (s : Str) (x : Str × Str × Str × Str)
    (h : matchStrictAt s = some x) : ∃ t, s = '[' :: t := by
  unfold matchStrictAt at h
  cases h1 : eatLit "[INTERNAL_LINK".data s with
  | none => rw [h1] at h; cases h
  | some s1 =>
    have hlit : "[INTERNAL_LINK".data = '[' :: "INTERNAL_LINK".data := by decide
    rw [hlit] at h1
    exact eatLit_cons_head _ _ _ _ h1

theorem matchBroadAt_lt (s : Str) (m r : Str) (h : matchBroadAt s = some (m, r)) :
    r.length < s.length := by
  simp only [matchBroadAt] at h
  cases h1 : eatLit "[INTERNAL_LINK".data s with
  | none => rw [h1] at h; simp at h
  | some s1 =>
  rw [h1] at h; simp only [Option.some_bind] at h
  by_cases hh : (s1.drop (s1.takeWhile (· ≠ ']')).length).head? = some ']'
  · rw [if_pos hh] at h
    simp only [Option.some.injEq, Prod.mk.injEq] at h
    obtain ⟨hm, hr⟩ := h
    subst hr
    have h2 : (s1.drop (s1.takeWhile (· ≠ ']')).length) ≠ [] := by
      intro hx; rw [hx] at hh; cases hh
    have h5 : (s1.drop (s1.takeWhile (· ≠ ']')).length).tail.length <
        (s1.drop (s1.takeWhile (· ≠ ']')).length).length := by
      cases hx : (s1.drop (s1.takeWhile (· ≠ ']')).length) with
      | nil => exact absurd hx h2
      | cons a as => simp
    have h3 : (s1.drop (s1.takeWhile (· ≠ ']')).length).length ≤ s1.length := by
      simpa using List.length_drop_le _ s1
    have e1 := eatLit_le _ _ _ h1
    omega
  · rw [if_neg hh] at h; simp at h

theorem matchBroadAt_head (s : Str) (x : Str × Str)
    (h : matchBroadAt s = some x) : ∃ t, s = '[' :: t := by
  unfold matchBroadAt at h
  cases h1 : eatLit "[INTERNAL_LINK".data s with
  | none => rw [h1] at h; cases h
  | some s1 =>
    have hlit : "[INTERNAL_LINK".data = '[' :: "INTERNAL_LINK".data := by decide
    rw [hlit] at h1
    exact eatLit_cons_head _ _ _ _ h1

/-- Fuel irrelevance for `scanRep`, given that the matcher always consumes at
least one character. -/
theorem scanRep_irrel (p : Str → Option (Str × Str))
    (hp : ∀ s o r, p s = some (o, r) → r.length < s.length) :
    ∀ f1 s f2, s.length < f1 → s.length < f2 → scanRep p f1 s = scanRep p f2 s := by
  intro f1
  induction f1 with
  | zero => intro s f2 h1 h2; omega
  | succ n ih =>
    intro s f2 h1 h2
    cases s with
    | nil =>
      cases f2 with
      | zero => omega
      | succ m => rfl
    | cons c rest =>
      cases f2 with
      | zero => omega
      | succ m =>
        simp only [scanRep]
        cases hps : p (c :: rest) with
        | none =>
          simp only [List.length_cons] at h1 h2
          show c :: scanRep p n rest = c :: scanRep p m rest
          rw [ih rest m (by omega) (by omega)]
        | some pr =>
          obtain ⟨o, r⟩ := pr
          have hlt := hp _ _ _ hps
          simp only [List.length_cons] at h1 h2
          show o ++ scanRep p n r = o ++ scanRep p m r
          simp only [List.length_cons] at hlt
          rw [ih r m (by omega) (by omega)]

/-- A scan over characters at which the matcher can never fire copies them
verbatim. -/
theorem runScanRep_skip (p : Str → Option (Str × Str)) (xs rest : Str)
    (hx : ∀ c t, c ∈ xs → p (c :: t) = none) :
    runScanRep p (xs ++ rest) = xs ++ runScanRep p rest := by
  induction xs with
  | nil => simp
  | cons c xs ih =>
    have hc : p (c :: (xs ++ rest)) = none := hx c _ (by simp)
    show runScanRep p (c :: (xs ++ rest)) = c :: xs ++ runScanRep p rest
    unfold runScanRep
    simp only [List.length_cons, scanRep, hc]
    have := ih (fun c' t hc' => hx c' t (by simp [hc']))
    unfold runScanRep at this
    rw [this]
    simp

/-- A scan hitting a full match at the current position emits its replacement
and resumes after the match. -/
theorem runScanRep_hit (p : Str → Option (Str × Str))
    (hp : ∀ s o r, p s = some (o, r) → r.length < s.length)
    (m out rest : Str) (hm : m ≠ [])
    (hmatch : p (m ++ rest) = some (out, rest)) :
    runScanRep p (m ++ rest) = out ++ runScanRep p rest := by
  cases m with
  | nil => exact absurd rfl hm
  | cons c m' =>
    show runScanRep p (c :: (m' ++ rest)) = out ++ runScanRep p rest
    unfold runScanRep
    simp only [List.length_cons, scanRep]
    rw [show c :: (m' ++ rest) = (c :: m') ++ rest from rfl, hmatch]
    show out ++ scanRep p ((m' ++ rest).length + 1) rest = out ++ runScanRep p rest
    congr 1
    exact scanRep_irrel p hp ((m' ++ rest).length + 1) rest (rest.length + 1)
      (by simp only [List.length_append]; omega) (by omega)

/-- Fuel irrelevance for `scanCol`. -/
theorem scanCol_irrel {β : Type} (p : Str → Option (β × Str))
    (hp : ∀ s b r, p s = some (b, r) → r.length < s.length) :
    ∀ f1 s f2 i, s.length < f1 → s.length < f2 →
      scanCol p f1 i s = scanCol p f2 i s := by
  intro f1
  induction f1 with
  | zero => intro s f2 i h1 h2; omega
  | succ n ih =>
    intro s f2 i h1 h2
    cases s with
    | nil =>
      cases f2 with
      | zero => omega
      | succ m => rfl
    | cons c rest =>
      cases f2 with
      | zero => omega
      | succ m =>
        simp only [scanCol]
        cases hps : p (c :: rest) with
        | none =>
          simp only [List.length_cons] at h1 h2
          show scanCol p n (i + 1) rest = scanCol p m (i + 1) rest
          rw [ih rest m (i + 1) (by omega) (by omega)]
        | some pr =>
          obtain ⟨b, r⟩ := pr
          have hlt := hp _ _ _ hps
          simp only [List.length_cons] at h1 h2
          show (i, b) :: scanCol p n (i + ((c :: rest).length - r.length)) r =
            (i, b) :: scanCol p m (i + ((c :: rest).length - r.length)) r
          simp only [List.length_cons] at hlt
          rw [ih r m _ (by omega) (by omega)]

/-- The number of collected matches does not depend on the position
counter. -/
theorem scanCol_length_indep {β : Type} (p : Str → Option (β × Str)) :
    ∀ f s i j, (scanCol p f i s).length = (scanCol p f j s).length := by
  intro f
  induction f with
  | zero => intro s i j; rfl
  | succ n ih =>
    intro s i j
    cases s with
    | nil => rfl
    | cons c rest =>
      simp only [scanCol]
      cases hps : p (c :: rest) with
      | none =>
        show (scanCol p n (i + 1) rest).length = (scanCol p n (j + 1) rest).length
        exact ih rest (i + 1) (j + 1)
      | some pr =>
        obtain ⟨b, r⟩ := pr
        show ((i, b) :: scanCol p n (i + ((c :: rest).length - r.length)) r).length =
          ((j, b) :: scanCol p n (j + ((c :: rest).length - r.length)) r).length
        simp only [List.length_cons]
        rw [ih r _ _]

/-- Characters at which the matcher can never fire contribute no matches. -/
theorem scanCol_skip_nil {β : Type} (p : Str → Option (β × Str)) (s : Str)
    (hx : ∀ c t, c ∈ s → p (c :: t) = none) :
    ∀ f i, scanCol p f i s = [] := by
  induction s with
  | nil => intro f i; cases f <;> rfl
  | cons c rest ih =>
    intro f i
    cases f with
    | zero => rfl
    | succ n =>
      have hc := hx c rest (by simp)
      simp only [scanCol, hc]
      exact ih (fun c' t hc' => hx c' t (by simp [hc'])) n (i + 1)

/-- Match count over a skipped chunk. -/
theorem countCol_skip {β : Type} (p : Str → Option (β × Str)) (xs rest : Str)
    (hx : ∀ c t, c ∈ xs → p (c :: t) = none) :
    (runScanCol p (xs ++ rest)).length = (runScanCol p rest).length := by
  induction xs with
  | nil => simp
  | cons c xs ih =>
    have hc : p (c :: (xs ++ rest)) = none := hx c _ (by simp)
    show (runScanCol p (c :: (xs ++ rest))).length = _
    unfold runScanCol
    simp only [List.length_cons, scanCol, hc]
    rw [scanCol_length_indep p _ _ 1 0]
    have := ih (fun c' t hc' => hx c' t (by simp [hc']))
    unfold runScanCol at this
    exact this

/-- Match count over a chunk beginning with a full match. -/
theorem countCol_hit {β : Type} (p : Str → Option (β × Str))
    (hp : ∀ s b r, p s = some (b, r) → r.length < s.length)
    (m : Str) (b : β) (rest : Str) (hm : m ≠ [])
    (hmatch : p (m ++ rest) = some (b, rest)) :
    (runScanCol p (m ++ rest)).length = 1 + (runScanCol p rest).length := by
  cases m with
  | nil => exact absurd rfl hm
  | cons c m' =>
    show (runScanCol p (c :: (m' ++ rest))).length = _
    unfold runScanCol
    simp only [List.length_cons, scanCol]
    rw [show c :: (m' ++ rest) = (c :: m') ++ rest from rfl, hmatch]
    show ((0, b) :: scanCol p ((m' ++ rest).length + 1)
        (0 + (((c :: m') ++ rest).length - rest.length)) rest).length =
      1 + (runScanCol p rest).length
    simp only [List.length_cons]
    rw [scanCol_irrel p hp ((m' ++ rest).length + 1) rest (rest.length + 1)
      (0 + (((c :: m') ++ rest).length - rest.length))
      (by simp only [List.length_append]; omega) (by omega)]
    rw [scanCol_length_indep p (rest.length + 1) rest
      (0 + (((c :: m') ++ rest).length - rest.length)) 0]
    unfold runScanCol
    omega

/-! ### Placeholder parsing and distribution over interleavings -/

theorem takeWhile_append_stop (p : Char → Bool) (v : Str) (c : Char) (r : Str)
    (hv : ∀ x ∈ v, p x = true) (hc : p c = false) :
    (v ++ c :: r).takeWhile p = v := by
  induction v with
  | nil => simp [List.takeWhile_cons, hc]
  | cons a as ih =>
    have ha := hv a (by simp)
    simp only [List.cons_append, List.takeWhile_cons, ha, if_true]
    rw [ih (fun x hx => hv x (by simp [hx]))]

theorem eatAttrVal_closed (v r : Str) (hv : v ≠ []) (hq : '"' ∉ v) :
    eatAttrVal (v ++ '"' :: r) = some (v, r) := by
  have ht : (v ++ '"' :: r).takeWhile (· ≠ '"') = v := by
    refine takeWhile_append_stop _ v '"' r (fun x hx => ?_) (by simp)
    simp only [decide_eq_true_eq]
    exact fun hxx => hq (hxx ▸ hx)
  simp only [eatAttrVal, ht, List.drop_left, List.head?_cons, List.tail_cons]
  simp [List.isEmpty_iff, hv]

theorem eatWs1_single (c x : Char) (y : Str) (hc : isWsRe c = true)
    (hx : isWsRe x = false) : eatWs1 (c :: (x :: y)) = some (x :: y) := by
  simp [eatWs1, hc, List.dropWhile_cons, hx]

/-- The strict pattern matches a canonical placeholder exactly, capturing its
two attributes. -/
theorem matchStrictAt_ph (sl tx t : Str) (hsl : sl ≠ []) (hslq : '"' ∉ sl)
    (htx : tx ≠ []) (htxq : '"' ∉ tx) :
    matchStrictAt (phStr sl tx ++ t) = some (phStr sl tx, sl, tx, t) := by
  have hassoc : phStr sl tx ++ t =
      "[INTERNAL_LINK slug=\"".data ++ (sl ++ ("\" text=\"".data ++
        (tx ++ ("\"]".data ++ t)))) := by
    unfold phStr
    simp only [List.append_assoc]
  have e1 : ∀ Z : Str, eatLit "[INTERNAL_LINK".data ("[INTERNAL_LINK slug=\"".data ++ Z) =
      some (' ' :: 's' :: 'l' :: 'u' :: 'g' :: '=' :: '"' :: Z) := fun _ => rfl
  have e2 : ∀ Z : Str, eatWs1 (' ' :: 's' :: 'l' :: 'u' :: 'g' :: '=' :: '"' :: Z) =
      some ('s' :: 'l' :: 'u' :: 'g' :: '=' :: '"' :: Z) := fun _ => rfl
  have e3 : ∀ Z : Str, eatLit "slug=\"".data ('s' :: 'l' :: 'u' :: 'g' :: '=' :: '"' :: Z) =
      some Z := fun _ => rfl
  have e4 : ∀ W : Str, "\" text=\"".data ++ W =
      '"' :: (' ' :: 't' :: 'e' :: 'x' :: 't' :: '=' :: '"' :: W) := fun _ => rfl
  have e5 : ∀ Z : Str, eatWs1 (' ' :: 't' :: 'e' :: 'x' :: 't' :: '=' :: '"' :: Z) =
      some ('t' :: 'e' :: 'x' :: 't' :: '=' :: '"' :: Z) := fun _ => rfl
  have e6 : ∀ Z : Str, eatLit "text=\"".data ('t' :: 'e' :: 'x' :: 't' :: '=' :: '"' :: Z) =
      some Z := fun _ => rfl
  have e7 : ∀ W : Str, "\"]".data ++ W = '"' :: (']' :: W) := fun _ => rfl
  have e8 : ∀ W : Str, eatLit "]".data (']' :: W) = some W := fun _ => rfl
  rw [hassoc]
  unfold matchStrictAt
  rw [e1]
  simp only [Option.some_bind]
  rw [e2]
  simp only [Option.some_bind]
  rw [e3]
  simp only [Option.some_bind]
  rw [e4]
  rw [show sl ++ '"' :: (' ' :: 't' :: 'e' :: 'x' :: 't' :: '=' :: '"' ::
      (tx ++ ("\"]".data ++ t))) =
    sl ++ '"' :: (' ' :: 't' :: 'e' :: 'x' :: 't' :: '=' :: '"' ::
      (tx ++ ("\"]".data ++ t))) from rfl]
  rw [eatAttrVal_closed sl _ hsl hslq]
  simp only [Option.some_bind]
  rw [e5]
  simp only [Option.some_bind]
  rw [e6]
  simp only [Option.some_bind]
  rw [e7]
  rw [eatAttrVal_closed tx _ htx htxq]
  simp only [Option.some_bind]
  rw [e8]
  simp only [Option.some_bind]
  have hback : "[INTERNAL_LINK slug=\"".data ++
      (sl ++ ('"' :: ' ' :: 't' :: 'e' :: 'x' :: 't' :: '=' :: '"' ::
        (tx ++ ('"' :: ']' :: t)))) = phStr sl tx ++ t := by
    rw [hassoc, e4, e7]
  rw [hback]
  rw [show (phStr sl tx ++ t).length - t.length = (phStr sl tx).length from by
    simp [List.length_append]]
  rw [List.take_left]

/-- A canonical placeholder is never the empty string. -/
theorem phStr_ne_nil (sl tx : Str) : phStr sl tx ≠ [] := by
  simp [phStr]

/-- The lifted strict matcher consumes at least one character. -/
theorem pStrict_lt (g : Str → Str → Str → Str) :
    ∀ s o r, pStrict g s = some (o, r) → r.length < s.length := by
  intro s o r h
  unfold pStrict at h
  cases hm : matchStrictAt s with
  | none => rw [hm] at h; cases h
  | some x =>
    rw [hm] at h
    obtain ⟨m, sl, tx, r'⟩ := x
    have h2 : ((fun x : Str × Str × Str × Str => (g x.1 x.2.1 x.2.2.1, x.2.2.2))
        (m, sl, tx, r')) = (o, r) := Option.some.inj h
    have hr : r' = r := congrArg Prod.snd h2
    have := matchStrictAt_lt s m sl tx r' hm
    rw [hr] at this
    exact this

/-- The lifted strict matcher can only fire at an opening bracket. -/
theorem pStrict_none (g : Str → Str → Str → Str) (c : Char) (t : Str)
    (hc : c ≠ '[') : pStrict g (c :: t) = none := by
  unfold pStrict
  cases hm : matchStrictAt (c :: t) with
  | none => rfl
  | some x =>
    obtain ⟨t', ht'⟩ := matchStrictAt_head _ _ hm
    have hcb : c = '[' := by
      have := congrArg List.head? ht'
      simpa using this
    exact (hc hcb).elim

/-- The lifted strict matcher on a canonical placeholder. -/
theorem pStrict_hit (g : Str → Str → Str → Str) (sl tx t : Str) (hsl : sl ≠ [])
    (hslq : '"' ∉ sl) (htx : tx ≠ []) (htxq : '"' ∉ tx) :
    pStrict g (phStr sl tx ++ t) = some (g (phStr sl tx) sl tx, t) := by
  unfold pStrict
  rw [matchStrictAt_ph sl tx t hsl hslq htx htxq]
  rfl

theorem itemsRender_cons (it : Item) (items : List Item) :
    itemsRender (it :: items) = itemStr it ++ itemsRender items := by
  simp [itemsRender]

/-- Distribution of a strict-placeholder replace over a safe interleaving. -/
theorem runScanRep_items (g : Str → Str → Str → Str) (items : List Item)
    (hok : ∀ it ∈ items, itemOk it) :
    runScanRep (pStrict g) (itemsRender items) =
      (items.map (fun it =>
        match it with
        | .txt s => s
        | .ph sl tx => g (phStr sl tx) sl tx)).flatten := by
  induction items with
  | nil => rfl
  | cons it items ih =>
    have ihs := ih (fun x hx => hok x (by simp [hx]))
    cases it with
    | txt s =>
      have hs : '[' ∉ s := hok (.txt s) (by simp)
      rw [itemsRender_cons]
      show runScanRep (pStrict g) (s ++ itemsRender items) = s ++ _
      rw [runScanRep_skip (pStrict g) s _ (fun c t hc =>
        pStrict_none g c t (fun he => hs (he ▸ hc))), ihs]
    | ph sl tx =>
      obtain ⟨⟨hsl, hslq, _⟩, ⟨htx, htxq, _⟩⟩ := hok (.ph sl tx) (by simp)
      rw [itemsRender_cons]
      show runScanRep (pStrict g) (phStr sl tx ++ itemsRender items) =
        g (phStr sl tx) sl tx ++ _
      rw [runScanRep_hit (pStrict g) (pStrict_lt g) (phStr sl tx) _ _
        (phStr_ne_nil sl tx) (pStrict_hit g sl tx _ hsl hslq htx htxq), ihs]

/-! ### The amended pipeline invariant -/

theorem escQuotes_id (s : Str) (h : '"' ∉ s) : escQuotes s = s := by
  induction s with
  | nil => rfl
  | cons c cs ih =>
    have hc : c ≠ '"' := fun he => h (by simp [he])
    simp only [escQuotes, if_neg hc]
    rw [ih (fun hx => h (by simp [hx]))]

theorem repairStep_mem (al : Str) (aws : List Str) (acc : Option Page × Frac)
    (p q : Page) (h : (repairStep al aws acc p).1 = some q) :
    acc.1 = some q ∨ q = p := by
  simp only [repairStep] at h
  repeat' split at h
  all_goals first
    | exact Or.inl h
    | exact Or.inr (Option.some.inj h).symm

theorem repairBest_mem (al : Str) (aws : List Str) (pages : List Page) (q : Page)
    (h : (repairBest al aws pages).1 = some q) : q ∈ pages := by
  unfold repairBest at h
  suffices H : ∀ (l : List Page) (acc : Option Page × Frac),
      (l.foldl (repairStep al aws) acc).1 = some q → acc.1 = some q ∨ q ∈ l by
    rcases H pages (none, Frac.ofInt (-1)) h with h1 | h2
    · cases h1
    · exact h2
  intro l
  induction l with
  | nil => intro acc h; exact Or.inl h
  | cons p l ih =>
    intro acc h
    rcases ih (repairStep al aws acc p) h with h1 | h2
    · rcases repairStep_mem al aws acc p q h1 with h3 | h4
      · exact Or.inl h3
      · exact Or.inr (by simp [h4])
    · exact Or.inr (by simp [h2])

theorem lookupLast_mem (pages : List Page) (sl : Str) (q : Page)
    (h : lookupLastBySlug pages sl = some q) : q ∈ pages := by
  unfold lookupLastBySlug at h
  suffices H : ∀ (l : List Page) (acc : Option Page),
      l.foldl (fun acc p => if p.slug = sl then some p else acc) acc = some q →
      acc = some q ∨ q ∈ l by
    rcases H _ none h with h1 | h2
    · cases h1
    · exact List.mem_of_mem_filter h2
  intro l
  induction l with
  | nil => intro acc h; exact Or.inl h
  | cons p l ih =>
    intro acc h
    rcases ih _ h with h1 | h2
    · have h1' : (if p.slug = sl then some p else acc) = some q := h1
      by_cases hp : p.slug = sl
      · rw [if_pos hp] at h1'
        exact Or.inr (by simp [← Option.some.inj h1'])
      · rw [if_neg hp] at h1'
        exact Or.inl h1'
    · exact Or.inr (by simp [h2])

theorem repairItemF_ok (pages : List Page) (hpages : ∀ p ∈ pages, pageOk p)
    (it : Item) (hit : itemOk it) : itemOk (repairItemF pages it) := by
  cases it with
  | txt s => exact hit
  | ph sl tx =>
    obtain ⟨hsl, htx⟩ := hit
    show itemOk (if pages.any (fun p => p.slug = sl) then Item.ph sl tx
      else match repairBest (toLowerStr tx)
        (jsSetList (sigWords (toLowerStr tx))) pages with
        | (some best, score) =>
          if Frac.blt (Frac.ofInt 50) score then Item.ph best.slug (escQuotes tx)
          else Item.txt tx
        | (none, _) => Item.txt tx)
    by_cases hany : pages.any (fun p => p.slug = sl)
    · rw [if_pos hany]; exact ⟨hsl, htx⟩
    · rw [if_neg hany]
      rcases hb : repairBest (toLowerStr tx) (jsSetList (sigWords (toLowerStr tx)))
        pages with ⟨ob, sc⟩
      cases ob with
      | none => exact htx.2.2
      | some best =>
        show itemOk (if Frac.blt (Frac.ofInt 50) sc then
          Item.ph best.slug (escQuotes tx) else Item.txt tx)
        by_cases hsc : Frac.blt (Frac.ofInt 50) sc
        · rw [if_pos hsc]
          have hbm : best ∈ pages := repairBest_mem _ _ _ _ (by rw [hb])
          have hbo := (hpages best hbm).1
          show attrOk best.slug ∧ attrOk (escQuotes tx)
          rw [escQuotes_id tx htx.2.1]
          exact ⟨hbo, htx⟩
        · rw [if_neg hsc]; exact htx.2.2

theorem flatten_map_nil (items : List Item) (F : Item → Str)
    (hF : ∀ s, F (.txt s) = s) (h : itemsRender items = []) :
    (items.map F).flatten = [] := by
  induction items with
  | nil => rfl
  | cons it rest ih =>
    rw [itemsRender_cons] at h
    obtain ⟨h1, h2⟩ := List.append_eq_nil.mp h
    cases it with
    | txt s =>
      have hs : s = [] := h1
      simp only [List.map_cons, List.flatten_cons, hF, hs, List.nil_append]
      exact ih h2
    | ph sl tx => exact absurd h1 (phStr_ne_nil sl tx)

/-- The repair pass maps a safe interleaving fragmentwise. -/
theorem repair_render (pages : List Page) (hne : pages ≠ []) (items : List Item)
    (hok : ∀ it ∈ items, itemOk it) :
    validateAndRepairInternalLinks (itemsRender items) (some pages) =
      itemsRender (items.map (repairItemF pages)) := by
  have hpe : pages.isEmpty = false := by
    simpa [List.isEmpty_iff] using hne
  show (if (itemsRender items).isEmpty || pages.isEmpty then itemsRender items
    else runScanRep (pStrict (repairRepl pages)) (itemsRender items)) =
    itemsRender (items.map (repairItemF pages))
  by_cases hc : (itemsRender items).isEmpty
  · rw [if_pos (by simp [hc])]
    have hnil : itemsRender items = [] := by simpa [List.isEmpty_iff] using hc
    rw [hnil]
    unfold itemsRender
    rw [List.map_map]
    exact (flatten_map_nil items _ (fun s => rfl) hnil).symm
  · rw [if_neg (by simp [hpe, hc])]
    rw [runScanRep_items (repairRepl pages) items hok]
    unfold itemsRender
    rw [List.map_map]
    congr 1
    apply List.map_congr_left
    intro it hit
    cases it with
    | txt s => rfl
    | ph sl tx =>
      show repairRepl pages (phStr sl tx) sl tx =
        itemStr (repairItemF pages (Item.ph sl tx))
      show (if pages.any (fun p => p.slug = sl) then phStr sl tx
        else match repairBest (toLowerStr tx)
            (jsSetList (sigWords (toLowerStr tx))) pages with
          | (some best, score) =>
            if Frac.blt (Frac.ofInt 50) score then phStr best.slug (escQuotes tx)
            else tx
          | (none, _) => tx) =
        itemStr (if pages.any (fun p => p.slug = sl) then Item.ph sl tx
          else match repairBest (toLowerStr tx)
            (jsSetList (sigWords (toLowerStr tx))) pages with
          | (some best, score) =>
            if Frac.blt (Frac.ofInt 50) score then
              Item.ph best.slug (escQuotes tx)
            else Item.txt tx
          | (none, _) => Item.txt tx)
      by_cases hany : pages.any (fun p => p.slug = sl)
      · rw [if_pos hany, if_pos hany]; rfl
      · rw [if_neg hany, if_neg hany]
        rcases repairBest (toLowerStr tx) (jsSetList (sigWords (toLowerStr tx)))
          pages with ⟨ob, sc⟩
        cases ob with
        | none => rfl
        | some best =>
          show (if Frac.blt (Frac.ofInt 50) sc then phStr best.slug (escQuotes tx)
              else tx) =
            itemStr (if Frac.blt (Frac.ofInt 50) sc then
              Item.ph best.slug (escQuotes tx) else Item.txt tx)
          by_cases hsc : Frac.blt (Frac.ofInt 50) sc
          · rw [if_pos hsc, if_pos hsc]; rfl
          · rw [if_neg hsc, if_neg hsc]; rfl

/-- The resolution pass maps a safe interleaving fragmentwise. -/
theorem process_render (pages : List Page) (hne : pages ≠ []) (items : List Item)
    (hok : ∀ it ∈ items, itemOk it) :
    processInternalLinks (itemsRender items) (some pages) =
      (items.map (fun it =>
        match it with
        | .txt s => s
        | .ph sl tx => processRepl pages (phStr sl tx) sl tx)).flatten := by
  have hpe : pages.isEmpty = false := by
    simpa [List.isEmpty_iff] using hne
  show (if (itemsRender items).isEmpty || pages.isEmpty then itemsRender items
    else runScanRep (pStrict (processRepl pages)) (itemsRender items)) = _
  by_cases hc : (itemsRender items).isEmpty
  · rw [if_pos (by simp [hc])]
    have hnil : itemsRender items = [] := by simpa [List.isEmpty_iff] using hc
    rw [hnil]
    exact (flatten_map_nil items _ (fun s => rfl) hnil).symm
  · rw [if_neg (by simp [hpe, hc])]
    exact runScanRep_items (processRepl pages) items hok

/-- The quota pass is the identity as soon as the strict placeholder count
meets the minimum. -/
theorem quota_noop (content : Str) (pages : List Page) (kw : Str)
    (minLinks : Int) (hne : pages ≠ [])
    (hq : minLinks ≤ ((strictMatches content).length : Int)) :
    enforceInternalLinkQuota content (some pages) kw minLinks = content := by
  show (if pages.isEmpty then content
    else if (minLinks - ((strictMatches content).length : Int)) ≤ 0 then content
    else _) = content
  rw [if_neg (by simpa [List.isEmpty_iff] using hne), if_pos (by omega)]

theorem addUtm_no_lb (id : Str) (h : '[' ∉ id) : '[' ∉ addUtmParams id := by
  unfold addUtmParams
  intro hmem
  rcases List.mem_append.mp hmem with h1 | h2
  · exact h h1
  · exact absurd h2 (by decide)

theorem processRepl_no_lb (pages : List Page) (hpages : ∀ p ∈ pages, pageOk p)
    (sl tx : Str) (htx : attrOk tx) :
    '[' ∉ processRepl pages (phStr sl tx) sl tx := by
  unfold processRepl
  cases hl : lookupLastBySlug pages sl with
  | none => exact htx.2.2
  | some page =>
    show '[' ∉ (if !page.id.isEmpty then
      "<a href=\"".data ++ addUtmParams page.id ++ "\">".data ++
        escQuotes tx ++ "</a>".data else tx)
    by_cases hid : page.id.isEmpty
    · rw [if_neg (by simp [hid])]
      exact htx.2.2
    · rw [if_pos (by simp [hid])]
      have hpid : '[' ∉ page.id := (hpages page (lookupLast_mem _ _ _ hl)).2.2.2.2
      rw [escQuotes_id tx htx.2.1]
      intro hmem
      simp only [List.append_assoc, List.mem_append] at hmem
      rcases hmem with h | h | h | h | h
      · exact absurd h (by decide)
      · exact addUtm_no_lb page.id hpid h
      · exact absurd h (by decide)
      · exact htx.2.2 h
      · exact absurd h (by decide)

/-- C2 (amended): over a content made of bracket-free text segments
interleaved with canonical placeholders carrying safe attributes, against a
non-empty catalogue of safely-named pages, and whose placeholder count after
the repair pass already meets the quota, the four passes run in the claimed
order leave zero placeholder tokens — broad or strict, resolved or
malformed — in the body. -/
theorem c2_pipeline_zero_placeholders (items : List Item) (pages : List Page)
    (kw : Str) (minLinks : Int)
    (hitems : ∀ it ∈ items, itemOk it)
    (hpages : ∀ p ∈ pages, pageOk p) (hne : pages ≠ [])
    (hquota : minLinks ≤ ((strictMatches (validateAndRepairInternalLinks
      (itemsRender items) (some pages))).length : Int)) :
    broadPlaceholderCount
      (linkEnginePipeline (itemsRender items) (some pages) kw minLinks) = 0 := by
  unfold linkEnginePipeline
  rw [quota_noop _ pages kw minLinks hne hquota]
  have hc1r := repair_render pages hne items hitems
  have hok1 : ∀ it ∈ items.map (repairItemF pages), itemOk it := by
    intro it hit
    obtain ⟨it0, hit0, rfl⟩ := List.mem_map.mp hit
    exact repairItemF_ok pages hpages it0 (hitems it0 hit0)
  rw [hc1r, process_render pages hne _ hok1]
  have hnolb : '[' ∉ ((items.map (repairItemF pages)).map (fun it =>
      match it with
      | .txt s => s
      | .ph sl tx => processRepl pages (phStr sl tx) sl tx)).flatten := by
    intro hmem
    rw [List.mem_flatten] at hmem
    obtain ⟨chunk, hchunk, hmemc⟩ := hmem
    obtain ⟨it, hit, rfl⟩ := List.mem_map.mp hchunk
    cases it with
    | txt s => exact (hok1 _ hit) hmemc
    | ph sl tx => exact processRepl_no_lb pages hpages sl tx ((hok1 _ hit).2) hmemc
  set out := ((items.map (repairItemF pages)).map (fun it =>
      match it with
      | .txt s => s
      | .ph sl tx => processRepl pages (phStr sl tx) sl tx)).flatten with hout
  have hskip : ∀ c t, c ∈ out →
      (fun s => (matchBroadAt s).map (fun x => (sanitizeRepl x.1, x.2))) (c :: t)
        = none := by
    intro c t hc
    cases hm : matchBroadAt (c :: t) with
    | none => simp [hm]
    | some x =>
      obtain ⟨t', ht'⟩ := matchBroadAt_head _ _ hm
      have hcb : c = '[' := by simpa using congrArg List.head? ht'
      exact absurd (hcb ▸ hc) hnolb
  have hsan : sanitizeBrokenPlaceholders out = out := by
    unfold sanitizeBrokenPlaceholders
    have := runScanRep_skip
      (fun s => (matchBroadAt s).map (fun x => (sanitizeRepl x.1, x.2)))
      out [] hskip
    have h0 : runScanRep
        (fun s => (matchBroadAt s).map (fun x => (sanitizeRepl x.1, x.2))) [] =
        [] := rfl
    rw [h0, List.append_nil] at this
    simpa using this
  rw [hsan]
  have hskip2 : ∀ c t, c ∈ out → matchBroadAt (c :: t) = none := by
    intro c t hc
    cases hm : matchBroadAt (c :: t) with
    | none => rfl
    | some x =>
      obtain ⟨t', ht'⟩ := matchBroadAt_head _ _ hm
      have hcb : c = '[' := by simpa using congrArg List.head? ht'
      exact absurd (hcb ▸ hc) hnolb
  unfold broadPlaceholderCount runScanCol
  rw [scanCol_skip_nil _ out hskip2 (out.length + 1) 0]
  rfl

/-- C2 witness: the amended theorem applied at a concrete safe interleaving
with a one-page catalogue and a quota of 1. -/
theorem c2_pipeline_zero_placeholders_witness :
    broadPlaceholderCount
      (linkEnginePipeline (itemsRender c2wItems) (some [c2wPage]) [] 1) = 0 :=
  c2_pipeline_zero_placeholders c2wItems [c2wPage] [] 1 (by decide) (by decide)
    (by decide) (by decide)

/-! ### Video guardian: greedy-quantifier and prefix lemmas -/

theorem isPrefixL_length (n : Str) : ∀ s, isPrefixL n s = true → n.length ≤ s.length := by
  induction n with
  | nil => intro s _; simp
  | cons a as ih =>
    intro s h
    cases s with
    | nil => exact absurd h (by simp [isPrefixL])
    | cons b bs =>
      have h' : (decide (a = b) && isPrefixL as bs) = true := h
      simp only [Bool.and_eq_true] at h'
      have := ih bs h'.2
      simp only [List.length_cons]
      omega

theorem isPrefixL_get (n : Str) : ∀ s, isPrefixL n s = true →
    ∀ k, k < n.length → n[k]? = s[k]? := by
  induction n with
  | nil => intro s _ k hk; simp at hk
  | cons a as ih =>
    intro s h k hk
    cases s with
    | nil => exact absurd h (by simp [isPrefixL])
    | cons b bs =>
      have h' : (decide (a = b) && isPrefixL as bs) = true := h
      simp only [Bool.and_eq_true, decide_eq_true_eq] at h'
      cases k with
      | zero => simp [h'.1]
      | succ j =>
        simp only [List.getElem?_cons_succ]
        exact ih bs h'.2 j (by simpa using hk)

theorem isPrefixL_take_false (n : Str) : ∀ (s : Str) (m : Nat),
    isPrefixL (n.take m) (s.take m) = false → isPrefixL n s = false := by
  induction n with
  | nil =>
    intro s m h
    exfalso
    cases m with
    | zero => exact absurd h (by simp [isPrefixL])
    | succ k => exact absurd h (by simp [isPrefixL])
  | cons a as ih =>
    intro s m h
    cases m with
    | zero => exact absurd h (by simp [isPrefixL])
    | succ k =>
      cases s with
      | nil => rfl
      | cons b bs =>
        have h' : (decide (a = b) && isPrefixL (as.take k) (bs.take k)) = false := h
        show (decide (a = b) && isPrefixL as bs) = false
        cases hab : decide (a = b) with
        | false => simp
        | true =>
          rw [hab] at h'
          simp only [Bool.true_and] at h'
          simp only [Bool.true_and]
          exact ih bs k h'

theorem greedyD1_inv {β : Type} (f : Nat → Option β) :
    ∀ n b, greedyD1 f n = some b → ∃ i, 1 ≤ i ∧ i ≤ n ∧ f i = some b := by
  intro n
  induction n with
  | zero => intro b h; exact absurd h (by simp [greedyD1])
  | succ m ih =>
    intro b h
    show ∃ i, 1 ≤ i ∧ i ≤ m + 1 ∧ f i = some b
    have h' : (f (m + 1)).orElse (fun _ => greedyD1 f m) = some b := h
    cases hf : f (m + 1) with
    | some x =>
      rw [hf] at h'
      have hx : some x = some b := h'
      exact ⟨m + 1, by omega, by omega, hf.trans hx⟩
    | none =>
      rw [hf] at h'
      have hx : greedyD1 f m = some b := h'
      obtain ⟨i, h1, h2, h3⟩ := ih b hx
      exact ⟨i, h1, by omega, h3⟩

theorem greedyD0_inv {β : Type} (f : Nat → Option β) :
    ∀ n b, greedyD0 f n = some b → ∃ i, i ≤ n ∧ f i = some b := by
  intro n
  induction n with
  | zero => intro b h; exact ⟨0, Nat.le_refl 0, h⟩
  | succ m ih =>
    intro b h
    have h' : (f (m + 1)).orElse (fun _ => greedyD0 f m) = some b := h
    cases hf : f (m + 1) with
    | some x =>
      rw [hf] at h'
      have hx : some x = some b := h'
      exact ⟨m + 1, by omega, hf.trans hx⟩
    | none =>
      rw [hf] at h'
      have hx : greedyD0 f m = some b := h'
      obtain ⟨i, h1, h3⟩ := ih b hx
      exact ⟨i, by omega, h3⟩

theorem greedyD1_top {β : Type} (f : Nat → Option β) (n : Nat) (b : β)
    (h : f (n + 1) = some b) : greedyD1 f (n + 1) = some b := by
  show (f (n + 1)).orElse (fun _ => greedyD1 f n) = some b
  rw [h]
  rfl

theorem greedyD1_pos_top {β : Type} (f : Nat → Option β) (n : Nat) (b : β)
    (h1 : 1 ≤ n) (h : f n = some b) : greedyD1 f n = some b := by
  cases n with
  | zero => omega
  | succ m => exact greedyD1_top f m b h

theorem greedyD0_top {β : Type} (f : Nat → Option β) (n : Nat) (b : β)
    (h : f n = some b) : greedyD0 f n = some b := by
  cases n with
  | zero => exact h
  | succ m =>
    show (f (m + 1)).orElse (fun _ => greedyD0 f m) = some b
    rw [h]
    rfl

theorem greedyD1_skip {β : Type} (f : Nat → Option β) (i0 : Nat) :
    ∀ n, i0 ≤ n → (∀ k, i0 < k → k ≤ n → f k = none) →
      greedyD1 f n = greedyD1 f i0 := by
  intro n
  induction n with
  | zero =>
    intro h _
    have h0 : i0 = 0 := Nat.le_zero.mp h
    rw [h0]
  | succ m ih =>
    intro hle hnone
    by_cases hi : i0 = m + 1
    · rw [hi]
    · have h1 : i0 ≤ m := by omega
      have h2 : f (m + 1) = none := hnone (m + 1) (by omega) (by omega)
      show (f (m + 1)).orElse (fun _ => greedyD1 f m) = greedyD1 f i0
      rw [h2]
      show greedyD1 f m = greedyD1 f i0
      exact ih h1 (fun k hk1 hk2 => hnone k hk1 (by omega))

theorem greedy_eval {β : Type} (f : Nat → Option β) (n : Nat) (b : β)
    (h1 : 1 ≤ n) (hskip : ∀ k, 1 < k → k ≤ n → f k = none)
    (hhit : f 1 = some b) : greedyD1 f n = some b := by
  rw [greedyD1_skip f 1 n h1 hskip]
  exact greedyD1_pos_top f 1 b (by omega) hhit

theorem idChar_ne (c : Char) (h : idChar c = true) (d : Char)
    (hd : idChar d = false) : c ≠ d := by
  intro he
  subst he
  exact absurd (h.symm.trans hd) (by decide)

theorem idChar_vid (c : Char) (h : idChar c = true) : vidClass c = true := by
  unfold vidClass
  rw [decide_eq_true (idChar_ne c h '"' (by decide)),
    decide_eq_true (idChar_ne c h '?' (by decide)),
    decide_eq_true (idChar_ne c h '&' (by decide))]
  rfl

theorem idChar_ngt (c : Char) (h : idChar c = true) : decide (c ≠ '>') = true :=
  decide_eq_true (idChar_ne c h '>' (by decide))

/-- `embedLit` is not a prefix of any of its own proper-suffix extensions
(the literal has no non-trivial border reaching its start). -/
theorem embedLit_shift (d : Nat) (h1 : 1 ≤ d) (h2 : d ≤ 34) (X : Str) :
    isPrefixL embedLit (embedLit.drop d ++ X) = false := by
  interval_cases d <;>
    first
      | (apply isPrefixL_take_false _ _ 2
         rw [List.take_append_of_le_length (by decide)]
         decide)
      | (apply isPrefixL_take_false _ _ 1
         rw [List.take_append_of_le_length (by decide)]
         decide)

/-- `embedLit` cannot match inside the id region: its 4th character `=` is
not an id character, and `"` occurs among its first 4 characters nowhere. -/
theorem embedLit_not_pref_id (d : Str) (hd : ∀ c ∈ d, idChar c = true) (tl : Str) :
    isPrefixL embedLit (d ++ '"' :: tl) = false := by
  cases hb : isPrefixL embedLit (d ++ '"' :: tl) with
  | false => rfl
  | true =>
    exfalso
    by_cases hL : 4 ≤ d.length
    · have h3 := isPrefixL_get embedLit _ hb 3 (by decide)
      rw [List.getElem?_append, if_pos (by omega)] at h3
      have he : embedLit[3]? = some '=' := by decide
      rw [he] at h3
      have hm : '=' ∈ d := List.getElem?_mem h3.symm
      exact absurd (hd '=' hm) (by decide)
    · have hk := isPrefixL_get embedLit _ hb d.length (by
        have : embedLit.length = 35 := by decide
        omega)
      have hr : (d ++ '"' :: tl)[d.length]? = some '"' := by
        rw [List.getElem?_append, if_neg (by omega)]
        simp
      rw [hr] at hk
      have hc : d.length = 0 ∨ d.length = 1 ∨ d.length = 2 ∨ d.length = 3 := by
        omega
      rcases hc with h0 | h0 | h0 | h0 <;>
        (rw [h0] at hk; exact absurd hk (by decide))

/-- The trailing part of the iframe regex on a canonical tag: `[^>]*`
settles on one character (the closing quote) and `></iframe>` matches. -/
theorem ifrInner2_hit (id Z : Str) (i : Nat) :
    ifrInner2 (id ++ '"' :: (ifrTail ++ Z)) i id.length =
      some (ifrLit.length + i + embedLit.length + id.length + 1 + ifrTail.length,
        id) := by
  unfold ifrInner2
  rw [List.drop_left]
  have hnl : (('"' :: (ifrTail ++ Z)).takeWhile (· ≠ '>')).length = 1 := by
    rw [show '"' :: (ifrTail ++ Z) = ['"'] ++ '>' :: ("</iframe>".data ++ Z)
      from rfl]
    rw [takeWhile_append_stop _ ['"'] '>' _ (by decide) (by decide)]
    decide
  rw [hnl]
  apply greedyD0_top
  show (if isPrefixL ifrTail (ifrTail ++ Z) = true then
      some (ifrLit.length + i + embedLit.length + id.length + 1 + ifrTail.length,
        (id ++ '"' :: (ifrTail ++ Z)).take id.length)
    else none) =
    some (ifrLit.length + i + embedLit.length + id.length + 1 + ifrTail.length, id)
  rw [isPrefixL_self_append]
  show some (ifrLit.length + i + embedLit.length + id.length + 1 + ifrTail.length,
      (id ++ '"' :: (ifrTail ++ Z)).take id.length) =
    some (ifrLit.length + i + embedLit.length + id.length + 1 + ifrTail.length, id)
  rw [List.take_left]

/-- On a canonical tag suffix, the middle literal and the greedy capture
group succeed at consumption amount `1` of `[^>]+` with the capture taking
the whole id. -/
theorem ifrScan_one (id Z : Str) (hne : id ≠ [])
    (hid : ∀ c ∈ id, idChar c = true) :
    ifrScan (' ' :: (embedLit ++ (id ++ '"' :: (ifrTail ++ Z)))) 1 =
      some (ifrLit.length + 1 + embedLit.length + id.length + 1 + ifrTail.length,
        id) := by
  show greedyD1 (ifrInner2 (id ++ '"' :: (ifrTail ++ Z)) 1)
      (((id ++ '"' :: (ifrTail ++ Z)).takeWhile vidClass).length) =
    some (ifrLit.length + 1 + embedLit.length + id.length + 1 + ifrTail.length, id)
  have hnj : ((id ++ '"' :: (ifrTail ++ Z)).takeWhile vidClass).length =
      id.length := by
    rw [takeWhile_append_stop vidClass id '"' _
      (fun x hx => idChar_vid x (hid x hx)) (by decide)]
  rw [hnj]
  apply greedyD1_pos_top _ _ _ (by
    cases id with
    | nil => exact absurd rfl hne
    | cons c cs => simp)
  exact ifrInner2_hit id Z 1

/-- Away from offset `1`, the middle literal of the iframe regex cannot
match on a canonical tag: `[^>]+` must consume exactly the single space. -/
theorem ifrScan_skip (id rest : Str) (hid : ∀ c ∈ id, idChar c = true) :
    ∀ k, 1 < k → k ≤ 37 + id.length →
      ifrScan (' ' :: (embedLit ++ (id ++ '"' :: (ifrTail ++ rest)))) k = none := by
  intro k hk1 hk2
  obtain ⟨d, rfl⟩ : ∃ d, k = d + 1 := ⟨k - 1, by omega⟩
  have hd1 : 1 ≤ d := by omega
  unfold ifrScan
  rw [show (' ' :: (embedLit ++ (id ++ '"' :: (ifrTail ++ rest)))).drop (d + 1) =
      (embedLit ++ (id ++ '"' :: (ifrTail ++ rest))).drop d from rfl]
  have hfalse : isPrefixL embedLit
      ((embedLit ++ (id ++ '"' :: (ifrTail ++ rest))).drop d) = false := by
    by_cases hc1 : d ≤ 34
    · rw [List.drop_append_of_le_length (by
        have h35 : embedLit.length = 35 := by decide
        omega)]
      exact embedLit_shift d hd1 hc1 _
    · by_cases hc2 : d = 35
      · subst hc2
        rw [show (35 : Nat) = embedLit.length from by decide, List.drop_left]
        exact embedLit_not_pref_id id hid _
      · obtain ⟨e, rfl⟩ : ∃ e, d = 35 + e := ⟨d - 35, by omega⟩
        have he1 : 1 ≤ e := by omega
        have he2 : e ≤ id.length + 1 := by omega
        have hsteq : (embedLit ++ (id ++ '"' :: (ifrTail ++ rest))).drop (35 + e) =
            (id ++ '"' :: (ifrTail ++ rest)).drop e := by
          rw [show (35 + e : Nat) = embedLit.length + e from by
            have : embedLit.length = 35 := by decide
            omega]
          rw [List.drop_append]
        rw [hsteq]
        by_cases hc3 : e ≤ id.length
        · rw [List.drop_append_of_le_length hc3]
          exact embedLit_not_pref_id (id.drop e)
            (fun c hc => hid c (List.drop_subset e id hc)) _
        · have he : e = id.length + 1 := by omega
          subst he
          rw [show id ++ '"' :: (ifrTail ++ rest) =
            (id ++ ['"']) ++ (ifrTail ++ rest) from by simp]
          rw [show id.length + 1 = (id ++ ['"']).length from by simp]
          rw [List.drop_left]
          apply isPrefixL_take_false _ _ 1
          rw [List.take_append_of_le_length (by decide)]
          decide
  rw [hfalse]
  rfl

/-- `matchIframeAt` matches a canonical embed tag exactly, capturing its
video identifier. -/
theorem matchIframeAt_tag (id rest : Str) (hne : id ≠ [])
    (hid : ∀ c ∈ id, idChar c = true) :
    matchIframeAt (mkIframe id ++ rest) = some (mkIframe id, id, rest) := by
  have hsplit : mkIframe id ++ rest =
      ifrLit ++ (' ' :: (embedLit ++ (id ++ '"' :: (ifrTail ++ rest)))) := by
    have h1 : mkIframePre = ifrLit ++ (' ' :: embedLit) := by decide
    have h2 : mkIframeSuf = '"' :: ifrTail := by decide
    rw [mkIframe, h1, h2]
    simp [List.append_assoc]
  rw [hsplit]
  show (greedyD1
      (ifrScan (' ' :: (embedLit ++ (id ++ '"' :: (ifrTail ++ rest)))))
      (((' ' :: (embedLit ++ (id ++ '"' :: (ifrTail ++ rest)))).takeWhile
        (· ≠ '>')).length)).map
      (fun r =>
        ((ifrLit ++ (' ' :: (embedLit ++ (id ++ '"' :: (ifrTail ++ rest))))).take r.1,
          r.2,
          (ifrLit ++ (' ' :: (embedLit ++ (id ++ '"' :: (ifrTail ++ rest))))).drop r.1)) =
    some (mkIframe id, id, rest)
  have hn0 : ((' ' :: (embedLit ++ (id ++ '"' :: (ifrTail ++ rest)))).takeWhile
      (· ≠ '>')).length = 37 + id.length := by
    have hre : ' ' :: (embedLit ++ (id ++ '"' :: (ifrTail ++ rest))) =
        (((' ' :: embedLit) ++ id) ++ ['"']) ++ '>' :: ("</iframe>".data ++ rest) := by
      have h2 : ifrTail = '>' :: "</iframe>".data := by decide
      rw [h2]
      simp [List.append_assoc]
    rw [hre, takeWhile_append_stop _ _ '>' _ (fun x hx => by
      rcases List.mem_append.mp hx with h' | h'
      · rcases List.mem_append.mp h' with h'' | h''
        · have hall : ∀ y, y ∈ (' ' :: embedLit) → decide (y ≠ '>') = true := by
            decide
          exact hall x h''
        · exact idChar_ngt x (hid x h'')
      · have hone : ∀ y, y ∈ (['"'] : Str) → decide (y ≠ '>') = true := by decide
        exact hone x h') (by decide)]
    simp only [List.length_append, List.length_cons, List.length_nil]
    have h35 : embedLit.length = 35 := by decide
    omega
  rw [hn0]
  rw [greedy_eval
    (ifrScan (' ' :: (embedLit ++ (id ++ '"' :: (ifrTail ++ rest)))))
    (37 + id.length)
    (ifrLit.length + 1 + embedLit.length + id.length + 1 + ifrTail.length, id)
    (by omega) (ifrScan_skip id rest hid) (ifrScan_one id rest hne hid)]
  show some
      ((ifrLit ++ (' ' :: (embedLit ++ (id ++ '"' :: (ifrTail ++ rest))))).take
        (ifrLit.length + 1 + embedLit.length + id.length + 1 + ifrTail.length),
      id,
      (ifrLit ++ (' ' :: (embedLit ++ (id ++ '"' :: (ifrTail ++ rest))))).drop
        (ifrLit.length + 1 + embedLit.length + id.length + 1 + ifrTail.length)) =
    some (mkIframe id, id, rest)
  have hTOT : ifrLit.length + 1 + embedLit.length + id.length + 1 + ifrTail.length =
      (mkIframe id).length := by
    have h1 : ifrLit.length = 7 := by decide
    have h2 : embedLit.length = 35 := by decide
    have h3 : ifrTail.length = 10 := by decide
    have h4 : (mkIframe id).length = 54 + id.length := by
      simp only [mkIframe, List.length_append]
      have h5 : mkIframePre.length = 43 := by decide
      have h6 : mkIframeSuf.length = 11 := by decide
      omega
    omega
  rw [hTOT, ← hsplit, List.take_left, List.drop_left]

/-- Any successful `ifrScan` consumes a positive total of characters. -/
theorem ifrScan_pos (t : Str) (i : Nat) (r0 : Nat × Str)
    (h : ifrScan t i = some r0) : 1 ≤ r0.1 := by
  unfold ifrScan at h
  by_cases hp : isPrefixL embedLit (t.drop i) = true
  · rw [if_pos hp] at h
    obtain ⟨j, _, _, hg⟩ := greedyD1_inv _ _ _ h
    unfold ifrInner2 at hg
    obtain ⟨l, _, hl⟩ := greedyD0_inv _ _ _ hg
    split at hl
    · obtain rfl := Option.some.inj hl
      show 1 ≤ ifrLit.length + i + embedLit.length + j + l + ifrTail.length
      have h7 : ifrLit.length = 7 := by decide
      omega
    · exact Option.noConfusion hl
  · rw [if_neg hp] at h
    exact Option.noConfusion h

/-- A successful iframe match consumes at least one character of `s`. -/
theorem matchIframeAt_lt (s : Str) (x : Str × Str × Str)
    (h : matchIframeAt s = some x) : x.2.2.length < s.length := by
  unfold matchIframeAt at h
  by_cases hp : isPrefixL ifrLit s = true
  · rw [if_pos hp] at h
    cases hg : greedyD1 (ifrScan (s.drop ifrLit.length))
        (((s.drop ifrLit.length).takeWhile (· ≠ '>')).length) with
    | none => rw [hg] at h; exact Option.noConfusion h
    | some r0 =>
      rw [hg] at h
      have h' : (s.take r0.1, r0.2, s.drop r0.1) = x := Option.some.inj h
      obtain ⟨i, _, _, hf⟩ := greedyD1_inv _ _ _ hg
      have hpos := ifrScan_pos _ _ _ hf
      have hlen := isPrefixL_length ifrLit s hp
      have h7 : ifrLit.length = 7 := by decide
      rw [← h']
      show (s.drop r0.1).length < s.length
      rw [List.length_drop]
      omega
  · rw [if_neg hp] at h
    exact Option.noConfusion h

/-- The iframe matcher can only fire on a `<`. -/
theorem pIfr_none (c : Char) (t : Str) (hc : c ≠ '<') : pIfr (c :: t) = none := by
  have h1 : isPrefixL ifrLit (c :: t) = false := by
    show (decide ('<' = c) && isPrefixL "iframe".data t) = false
    rw [decide_eq_false (fun h => hc h.symm)]
    rfl
  unfold pIfr matchIframeAt
  rw [h1]
  rfl

/-- The iframe matcher consumes at least one character on success. -/
theorem pIfr_lt : ∀ s b r, pIfr s = some (b, r) → r.length < s.length := by
  intro s b r h
  unfold pIfr at h
  cases hm : matchIframeAt s with
  | none => rw [hm] at h; exact Option.noConfusion h
  | some x =>
    rw [hm] at h
    have h' : ((x.1, x.2.1), x.2.2) = (b, r) := Option.some.inj h
    have h2 : x.2.2 = r := congrArg Prod.snd h'
    rw [← h2]
    exact matchIframeAt_lt s x hm

/-- The iframe matcher on a canonical tag. -/
theorem pIfr_tag (id rest : Str) (hne : id ≠ [])
    (hid : ∀ c ∈ id, idChar c = true) :
    pIfr (mkIframe id ++ rest) = some ((mkIframe id, id), rest) := by
  unfold pIfr
  rw [matchIframeAt_tag id rest hne hid]
  rfl

theorem mkIframe_ne (id : Str) : mkIframe id ≠ [] := by
  intro h
  have h1 := congrArg List.length h
  simp only [mkIframe, List.length_append, List.length_nil] at h1
  have h2 : mkIframePre.length = 43 := by decide
  omega

/-- Positioned scan over a chunk where the matcher never fires. -/
theorem runScanColAt_skip {β : Type} (p : Str → Option (β × Str)) (xs rest : Str)
    (hx : ∀ c t, c ∈ xs → p (c :: t) = none) :
    ∀ i, runScanColAt p i (xs ++ rest) = runScanColAt p (i + xs.length) rest := by
  induction xs with
  | nil => intro i; simp [runScanColAt]
  | cons c xs ih =>
    intro i
    have hc : p (c :: (xs ++ rest)) = none := hx c _ (by simp)
    unfold runScanColAt
    show scanCol p ((xs ++ rest).length + 1 + 1) i (c :: (xs ++ rest)) =
      scanCol p (rest.length + 1) (i + (c :: xs).length) rest
    simp only [scanCol, hc]
    have hih := ih (fun c' t hc' => hx c' t (by simp [hc'])) (i + 1)
    unfold runScanColAt at hih
    rw [hih]
    show scanCol p (rest.length + 1) (i + 1 + xs.length) rest =
      scanCol p (rest.length + 1) (i + (xs.length + 1)) rest
    rw [show i + 1 + xs.length = i + (xs.length + 1) from by omega]

/-- Positioned scan over a chunk beginning with a full match. -/
theorem runScanColAt_hit {β : Type} (p : Str → Option (β × Str))
    (hp : ∀ s b r, p s = some (b, r) → r.length < s.length)
    (m : Str) (b : β) (rest : Str) (hm : m ≠ [])
    (hmatch : p (m ++ rest) = some (b, rest)) :
    ∀ i, runScanColAt p i (m ++ rest) =
      (i, b) :: runScanColAt p (i + m.length) rest := by
  intro i
  cases m with
  | nil => exact absurd rfl hm
  | cons c m' =>
    unfold runScanColAt
    show scanCol p ((m' ++ rest).length + 1 + 1) i (c :: (m' ++ rest)) =
      (i, b) :: scanCol p (rest.length + 1) (i + (c :: m').length) rest
    simp only [scanCol]
    rw [show c :: (m' ++ rest) = (c :: m') ++ rest from rfl, hmatch]
    show (i, b) :: scanCol p ((m' ++ rest).length + 1)
        (i + (((c :: m') ++ rest).length - rest.length)) rest =
      (i, b) :: scanCol p (rest.length + 1) (i + (c :: m').length) rest
    rw [scanCol_irrel p hp ((m' ++ rest).length + 1) rest (rest.length + 1)
      (i + (((c :: m') ++ rest).length - rest.length))
      (by simp only [List.length_append]; omega) (by omega)]
    rw [show i + (((c :: m') ++ rest).length - rest.length) = i + (c :: m').length
      from by simp only [List.length_append, List.length_cons]; omega]

/-- `indexOf` finds the needle immediately when it is a prefix. -/
theorem indexOfAux_pref (needle : Str) (i : Nat) (s : Str) (hs : s ≠ [])
    (h : isPrefixL needle s = true) : indexOfAux needle i s = some i := by
  cases s with
  | nil => exact absurd rfl hs
  | cons c t => simp [indexOfAux, h]

/-- `replace` on a canonical tag whose id first occurs at the id position
rewrites exactly the id. -/
theorem jsReplaceFirst_tag (A B : Str)
    (hfo : indexOfAux A 0 (mkIframe A) = some mkIframePre.length) :
    jsReplaceFirst A B (mkIframe A) = mkIframe B := by
  unfold jsReplaceFirst
  rw [hfo]
  show (mkIframe A).take mkIframePre.length ++ B ++
      (mkIframe A).drop (mkIframePre.length + A.length) = mkIframe B
  have h1 : (mkIframe A).take mkIframePre.length = mkIframePre := by
    rw [mkIframe, List.append_assoc]
    exact List.take_left _ _
  have h2 : (mkIframe A).drop (mkIframePre.length + A.length) = mkIframeSuf := by
    rw [mkIframe]
    rw [show mkIframePre.length + A.length = (mkIframePre ++ A).length from by
      simp [List.length_append]]
    exact List.drop_left _ _
  rw [h1, h2, mkIframe]

/-- The deduplication body on a content with exactly two identical-id
matches and a second selected video with a fresh non-empty id. -/
theorem dedupBody_eval (content : Str) (v1 : Video) (B : Str)
    (p1 p2 : Nat) (tag A : Str)
    (hms : iframeMatchesN content = [(p1, (tag, A)), (p2, (tag, A))])
    (hBne : B.isEmpty = false) (hBA : B ≠ A)
    (hidx : jsIndexOfFrom content tag p2 = some p2) :
    dedupBody content [v1, ⟨some B⟩] =
      content.take p2 ++ jsReplaceFirst A B tag ++
        content.drop (p2 + tag.length) := by
  simp only [dedupBody]
  rw [hms]
  rw [if_neg (by simp)]
  rw [show ([(p1, (tag, A)), (p2, (tag, A))].map
    (fun m => (m.2.2 : Str))) = [A, A] from rfl]
  rw [show ([A, A] : List Str).headD [] = A from rfl]
  rw [show (([A, A] : List Str).all (fun id => id = A)) = true from by simp]
  show (if (!B.isEmpty && decide (B ≠ A)) = true then
      (match jsIndexOfFrom content tag p2 with
       | some idx =>
         content.take idx ++ jsReplaceFirst A B tag ++
           content.drop (idx + tag.length)
       | none => content)
    else content) =
    content.take p2 ++ jsReplaceFirst A B tag ++ content.drop (p2 + tag.length)
  rw [hBne, decide_eq_true hBA, hidx]
  rfl

/-- A content of two canonical same-id tags separated by `<`-free text has
exactly those two matches, at their own positions. -/
theorem iframeMatches_two (pre mid post A : Str) (hA : A ≠ [])
    (hidA : ∀ c ∈ A, idChar c = true)
    (hpre : ∀ c ∈ pre, c ≠ '<') (hmid : ∀ c ∈ mid, c ≠ '<')
    (hpost : ∀ c ∈ post, c ≠ '<') :
    iframeMatchesN (pre ++ (mkIframe A ++ (mid ++ (mkIframe A ++ post)))) =
      [(pre.length, (mkIframe A, A)),
       (pre.length + (mkIframe A).length + mid.length, (mkIframe A, A))] := by
  unfold iframeMatchesN
  show runScanColAt pIfr 0 (pre ++ (mkIframe A ++ (mid ++ (mkIframe A ++ post)))) = _
  rw [runScanColAt_skip pIfr pre _ (fun c t hc => pIfr_none c t (hpre c hc)) 0]
  rw [runScanColAt_hit pIfr pIfr_lt (mkIframe A) (mkIframe A, A) _ (mkIframe_ne A)
    (pIfr_tag A _ hA hidA) (0 + pre.length)]
  rw [runScanColAt_skip pIfr mid _ (fun c t hc => pIfr_none c t (hmid c hc))]
  rw [runScanColAt_hit pIfr pIfr_lt (mkIframe A) (mkIframe A, A) _ (mkIframe_ne A)
    (pIfr_tag A _ hA hidA)]
  rw [show runScanColAt pIfr
      (0 + pre.length + (mkIframe A).length + mid.length + (mkIframe A).length)
      post = [] from
    scanCol_skip_nil pIfr post (fun c t hc => pIfr_none c t (hpost c hc)) _ _]
  simp only [Nat.zero_add]

/-- C7: given HTML whose embedded YouTube iframes all share one identical
identifier and a selected-video list `[A, B]` with `B.id ≠ A.id`,
`enforceUniqueVideoEmbeds` rewrites only the second iframe's identifier to
`B`, leaving the first iframe and every other character of the content
unchanged; and it returns the content unchanged when no video list is
present, fewer than two videos were selected, or fewer than two embeds are
present. -/
theorem c7_video_dedup :
    (∀ (pre mid post A B : Str) (v1 : Video),
      A ≠ [] → B ≠ [] → B ≠ A →
      (∀ c ∈ A, idChar c = true) →
      (∀ c ∈ pre, c ≠ '<') → (∀ c ∈ mid, c ≠ '<') → (∀ c ∈ post, c ≠ '<') →
      indexOfAux A 0 (mkIframe A) = some mkIframePre.length →
      enforceUniqueVideoEmbeds
          (pre ++ (mkIframe A ++ (mid ++ (mkIframe A ++ post))))
          (some [v1, ⟨some B⟩]) =
        pre ++ (mkIframe A ++ (mid ++ (mkIframe B ++ post)))) ∧
    (∀ content, enforceUniqueVideoEmbeds content none = content) ∧
    (∀ content vs, vs.length < 2 →
      enforceUniqueVideoEmbeds content (some vs) = content) ∧
    (∀ content vs, (iframeMatchesN content).length < 2 →
      enforceUniqueVideoEmbeds content (some vs) = content) := by
  refine ⟨?main, fun content => rfl, ?short, ?few⟩
  case short =>
    intro content vs h
    show (if vs.length < 2 then content else dedupBody content vs) = content
    rw [if_pos h]
  case few =>
    intro content vs h
    by_cases hv : vs.length < 2
    · show (if vs.length < 2 then content else dedupBody content vs) = content
      rw [if_pos hv]
    · show (if vs.length < 2 then content else dedupBody content vs) = content
      rw [if_neg hv]
      show (if (iframeMatchesN content).length < 2 then content else _) = content
      rw [if_pos h]
  case main =>
    intro pre mid post A B v1 hA hB hBA hidA hpre hmid hpost hfo
    have hms := iframeMatches_two pre mid post A hA hidA hpre hmid hpost
    have hBne : B.isEmpty = false := by
      cases B with
      | nil => exact absurd rfl hB
      | cons c t => rfl
    have hidx : jsIndexOfFrom (pre ++ (mkIframe A ++ (mid ++ (mkIframe A ++ post))))
        (mkIframe A) (pre.length + (mkIframe A).length + mid.length) =
        some (pre.length + (mkIframe A).length + mid.length) := by
      unfold jsIndexOfFrom
      have hdrop : (pre ++ (mkIframe A ++ (mid ++ (mkIframe A ++ post)))).drop
          (pre.length + (mkIframe A).length + mid.length) =
          mkIframe A ++ post := by
        rw [show pre ++ (mkIframe A ++ (mid ++ (mkIframe A ++ post))) =
            ((pre ++ mkIframe A) ++ mid) ++ (mkIframe A ++ post) from by
          simp [List.append_assoc]]
        rw [show pre.length + (mkIframe A).length + mid.length =
            ((pre ++ mkIframe A) ++ mid).length from by
          simp only [List.length_append]]
        exact List.drop_left _ _
      rw [hdrop]
      exact indexOfAux_pref _ _ _
        (fun h => mkIframe_ne A (List.append_eq_nil.mp h).1)
        (isPrefixL_self_append _ _)
    show (if ([v1, (⟨some B⟩ : Video)] : List Video).length < 2
        then pre ++ (mkIframe A ++ (mid ++ (mkIframe A ++ post)))
        else dedupBody (pre ++ (mkIframe A ++ (mid ++ (mkIframe A ++ post))))
          [v1, ⟨some B⟩]) =
      pre ++ (mkIframe A ++ (mid ++ (mkIframe B ++ post)))
    rw [if_neg (by simp)]
    rw [dedupBody_eval _ v1 B _ _ _ A hms hBne hBA hidx]
    rw [jsReplaceFirst_tag A B hfo]
    rw [show (pre ++ (mkIframe A ++ (mid ++ (mkIframe A ++ post)))).take
        (pre.length + (mkIframe A).length + mid.length) =
        (pre ++ mkIframe A) ++ mid from by
      rw [show pre ++ (mkIframe A ++ (mid ++ (mkIframe A ++ post))) =
          ((pre ++ mkIframe A) ++ mid) ++ (mkIframe A ++ post) from by
        simp [List.append_assoc]]
      rw [show pre.length + (mkIframe A).length + mid.length =
          ((pre ++ mkIframe A) ++ mid).length from by
          simp only [List.length_append]]
      exact List.take_left _ _]
    rw [show (pre ++ (mkIframe A ++ (mid ++ (mkIframe A ++ post)))).drop
        (pre.length + (mkIframe A).length + mid.length + (mkIframe A).length) =
        post from by
      rw [show pre ++ (mkIframe A ++ (mid ++ (mkIframe A ++ post))) =
          (((pre ++ mkIframe A) ++ mid) ++ mkIframe A) ++ post from by
        simp [List.append_assoc]]
      rw [show pre.length + (mkIframe A).length + mid.length + (mkIframe A).length =
          (((pre ++ mkIframe A) ++ mid) ++ mkIframe A).length from by
        simp only [List.length_append]]
      exact List.drop_left _ _]
    simp [List.append_assoc]

/-- Witness for C7 at concrete inputs. -/
theorem c7_video_dedup_witness :
    enforceUniqueVideoEmbeds
        ("Watch: ".data ++ (mkIframe "abc123".data ++
          (" and again ".data ++ (mkIframe "abc123".data ++ " done.".data))))
        (some [⟨some "abc123".data⟩, ⟨some "xyz789".data⟩]) =
      "Watch: ".data ++ (mkIframe "abc123".data ++
        (" and again ".data ++ (mkIframe "xyz789".data ++ " done.".data))) ∧
    enforceUniqueVideoEmbeds "hello".data none = "hello".data ∧
    enforceUniqueVideoEmbeds "hello".data (some [⟨some "abc123".data⟩]) =
      "hello".data ∧
    enforceUniqueVideoEmbeds "<p>hi</p>".data
      (some [⟨some "abc123".data⟩, ⟨some "xyz789".data⟩]) = "<p>hi</p>".data :=
  ⟨c7_video_dedup.1 "Watch: ".data " and again ".data " done.".data
      "abc123".data "xyz789".data ⟨some "abc123".data⟩
      (by decide) (by decide) (by decide) (by decide) (by decide) (by decide)
      (by decide) (by decide),
    c7_video_dedup.2.1 _,
    c7_video_dedup.2.2.1 _ _ (by decide),
    c7_video_dedup.2.2.2 _ _ (by decide)⟩

/-- Counterexample to C1: for the empty-object input the normalized body is
the empty string, and it contains neither `[IMAGE_1_PLACEHOLDER]` nor
`[IMAGE_2_PLACEHOLDER]` — the injection is guarded by the truthiness of
`normalized.content`, and the just-defaulted empty string is falsy. -/
theorem c1_counterexample :
    (normalizeGeneratedContent emptyRaw "My Topic".data).content = [] ∧
    containsSub "[IMAGE_1_PLACEHOLDER]".data
      (normalizeGeneratedContent emptyRaw "My Topic".data).content = false ∧
    containsSub "[IMAGE_2_PLACEHOLDER]".data
      (normalizeGeneratedContent emptyRaw "My Topic".data).content = false := by
  decide

/-- C1 (amended): for the empty-object input and fallback title "My Topic",
`normalizeGeneratedContent` returns non-null `title` ("My Topic"), `slug`
("my-topic") and `content` fields and exactly 2 synthesized `imageDetails`
entries, but the content body is the empty string and contains neither
placeholder token (the injection step requires a truthy body); when the
input instead carries a short placeholder-free body, both tokens are
appended to it. -/
theorem c1_normalize_empty_object :
    ((normalizeGeneratedContent emptyRaw "My Topic".data).title =
        "My Topic".data ∧
      (normalizeGeneratedContent emptyRaw "My Topic".data).slug =
        "my-topic".data ∧
      (normalizeGeneratedContent emptyRaw "My Topic".data).content = [] ∧
      (normalizeGeneratedContent emptyRaw "My Topic".data).imageDetails.length =
        2 ∧
      containsSub "[IMAGE_1_PLACEHOLDER]".data
        (normalizeGeneratedContent emptyRaw "My Topic".data).content = false ∧
      containsSub "[IMAGE_2_PLACEHOLDER]".data
        (normalizeGeneratedContent emptyRaw "My Topic".data).content = false) ∧
    ((normalizeGeneratedContent rawWithBody "My Topic".data).imageDetails.length =
        2 ∧
      containsSub "[IMAGE_1_PLACEHOLDER]".data
        (normalizeGeneratedContent rawWithBody "My Topic".data).content = true ∧
      containsSub "[IMAGE_2_PLACEHOLDER]".data
        (normalizeGeneratedContent rawWithBody "My Topic".data).content = true) := by
  decide

/-! ### JSON extractor: character-class facts -/

theorem safeChar_facts (c : Char) (h : safeChar c = true) :
    c ≠ '"' ∧ c ≠ '\\' ∧ c ≠ ',' ∧ c ≠ '`' ∧ c ≠ rbrace ∧ c ≠ ']' ∧
      c ≠ lbrace ∧ c ≠ '[' ∧ ¬ c.toNat < 32 := by
  have hm : c ∈
      "abcdefghijklmnopqrstuvwxyzABCDEFGHIJKLMNOPQRSTUVWXYZ0123456789 ".data := by
    simpa [safeChar] using h
  exact (by decide :
    ∀ x ∈ "abcdefghijklmnopqrstuvwxyzABCDEFGHIJKLMNOPQRSTUVWXYZ0123456789 ".data,
      x ≠ '"' ∧ x ≠ '\\' ∧ x ≠ ',' ∧ x ≠ '`' ∧ x ≠ rbrace ∧ x ≠ ']' ∧
        x ≠ lbrace ∧ x ≠ '[' ∧ ¬ x.toNat < 32) c hm

theorem proseOk_facts (c : Char) (h : proseOk c = true) :
    c ≠ ',' ∧ c ≠ '`' ∧ c ≠ lbrace ∧ c ≠ '[' := by
  have hm : c ∈
      "abcdefghijklmnopqrstuvwxyzABCDEFGHIJKLMNOPQRSTUVWXYZ0123456789 .:!".data := by
    simpa [proseOk] using h
  exact (by decide :
    ∀ x ∈
      "abcdefghijklmnopqrstuvwxyzABCDEFGHIJKLMNOPQRSTUVWXYZ0123456789 .:!".data,
      x ≠ ',' ∧ x ≠ '`' ∧ x ≠ lbrace ∧ x ≠ '[') c hm

theorem digitChar_facts (m : Nat) (hm : m < 10) :
    Nat.digitChar m ≠ ',' ∧ isWsRe (Nat.digitChar m) = false ∧
      Nat.digitChar m ≠ rbrace ∧ Nat.digitChar m ≠ ']' ∧
      Nat.digitChar m ≠ '`' ∧ Nat.digitChar m ≠ '\\' ∧
      Nat.digitChar m ≠ '"' ∧ Nat.digitChar m ≠ lbrace ∧
      Nat.digitChar m ≠ '[' ∧ Nat.digitChar m ≠ 't' ∧
      Nat.digitChar m ≠ 'f' ∧ Nat.digitChar m ≠ 'n' ∧
      isJsonWs (Nat.digitChar m) = false := by
  exact (by decide : ∀ k < 10, Nat.digitChar k ≠ ',' ∧
    isWsRe (Nat.digitChar k) = false ∧ Nat.digitChar k ≠ rbrace ∧
    Nat.digitChar k ≠ ']' ∧ Nat.digitChar k ≠ '`' ∧ Nat.digitChar k ≠ '\\' ∧
    Nat.digitChar k ≠ '"' ∧ Nat.digitChar k ≠ lbrace ∧ Nat.digitChar k ≠ '[' ∧
    Nat.digitChar k ≠ 't' ∧ Nat.digitChar k ≠ 'f' ∧ Nat.digitChar k ≠ 'n' ∧
    isJsonWs (Nat.digitChar k) = false) m hm

/-! ### JSON extractor: scanner step lemmas -/

theorem runScanRep_nil (p : Str → Option (Str × Str)) : runScanRep p [] = [] := rfl

theorem runScanRep_id (p : Str → Option (Str × Str)) (s : Str)
    (hx : ∀ c t, c ∈ s → p (c :: t) = none) : runScanRep p s = s := by
  have h := runScanRep_skip p s [] hx
  rw [List.append_nil] at h
  rw [h, runScanRep_nil, List.append_nil]

theorem runScanRep_cons_none (p : Str → Option (Str × Str)) (c : Char) (t : Str)
    (hc : p (c :: t) = none) : runScanRep p (c :: t) = c :: runScanRep p t := by
  unfold runScanRep
  simp only [List.length_cons, scanRep, hc]

theorem mStripTC_not_comma (c : Char) (t : Str) (hc : c ≠ ',') :
    mStripTC (c :: t) = none := by
  show (if c = ',' then _ else none) = none
  rw [if_neg hc]

theorem mStripTC_comma_nil : mStripTC [','] = none := rfl

theorem mStripTC_comma_safe (d : Char) (t : Str) (hw : isWsRe d = false)
    (h1 : d ≠ rbrace) (h2 : d ≠ ']') : mStripTC (',' :: d :: t) = none := by
  show (if (',' : Char) = ',' then
    (match (d :: t).dropWhile isWsRe with
      | e :: r3 =>
        if e = rbrace ∨ e = ']' then
          some ((d :: t).takeWhile isWsRe ++ [e], r3)
        else none
      | [] => none)
    else none) = none
  rw [if_pos rfl, List.dropWhile_cons, hw]
  simp only [Bool.false_eq_true, if_false]
  rw [if_neg (by push_neg; exact ⟨h1, h2⟩)]

theorem mStripTC_close (c : Char) (t : Str) (hc : c = rbrace ∨ c = ']') :
    mStripTC (',' :: c :: t) = some ([c], t) := by
  have hw : isWsRe c = false := by
    rcases hc with rfl | rfl <;> decide
  show (if (',' : Char) = ',' then
    (match (c :: t).dropWhile isWsRe with
      | d :: r3 =>
        if d = rbrace ∨ d = ']' then
          some ((c :: t).takeWhile isWsRe ++ [d], r3)
        else none
      | [] => none)
    else none) = some ([c], t)
  rw [if_pos rfl, List.dropWhile_cons, hw]
  simp only [Bool.false_eq_true, if_false]
  rw [if_pos hc, List.takeWhile_cons, hw]
  simp

theorem mStripTC_lt : ∀ s o r, mStripTC s = some (o, r) → r.length < s.length := by
  intro s o r h
  cases s with
  | nil => cases h
  | cons c rest =>
    simp only [mStripTC] at h
    by_cases hcc : c = ','
    · rw [if_pos hcc] at h
      cases hd : rest.dropWhile isWsRe with
      | nil => rw [hd] at h; cases h
      | cons d r3 =>
        rw [hd] at h
        have h' : (if d = rbrace ∨ d = ']' then
            some (rest.takeWhile isWsRe ++ [d], r3) else none) = some (o, r) := h
        by_cases hc : d = rbrace ∨ d = ']'
        · rw [if_pos hc] at h'
          have h2 : r3 = r := congrArg Prod.snd (Option.some.inj h')
          have h3 : (d :: r3).length ≤ rest.length := by
            rw [← hd]
            exact List.Sublist.length_le (List.dropWhile_sublist isWsRe)
          rw [← h2]
          simp only [List.length_cons] at h3 ⊢
          omega
        · rw [if_neg hc] at h'; cases h'
    · rw [if_neg hcc] at h; cases h

theorem mTC2_lt : ∀ s o r, mTC2 s = some (o, r) → r.length < s.length := by
  intro s o r h
  cases s with
  | nil => cases h
  | cons c rest =>
    simp only [mTC2] at h
    by_cases hcc : c = ','
    · rw [if_pos hcc] at h
      cases hd : rest.dropWhile isWsRe with
      | nil => rw [hd] at h; cases h
      | cons d r3 =>
        rw [hd] at h
        have h' : (if d = rbrace ∨ d = ']' then
            some (([] : Str), rest) else none) = some (o, r) := h
        by_cases hc : d = rbrace ∨ d = ']'
        · rw [if_pos hc] at h'
          have h2 : rest = r := congrArg Prod.snd (Option.some.inj h')
          rw [← h2]
          simp only [List.length_cons]
          omega
        · rw [if_neg hc] at h'; cases h'
    · rw [if_neg hcc] at h; cases h

theorem mFenceJson_none (c : Char) (t : Str) (hc : c ≠ '`') :
    mFenceJson (c :: t) = none := by
  unfold mFenceJson
  have h1 : isPrefixL "```".data (c :: t) = false := by
    show (decide ('`' = c) && isPrefixL "``".data t) = false
    rw [decide_eq_false (fun h => hc h.symm)]
    rfl
  rw [h1]
  rfl

theorem mFencePlain_none (c : Char) (t : Str) (hc : c ≠ '`') :
    mFencePlain (c :: t) = none := by
  unfold mFencePlain
  have h1 : isPrefixL "```".data (c :: t) = false := by
    show (decide ('`' = c) && isPrefixL "``".data t) = false
    rw [decide_eq_false (fun h => hc h.symm)]
    rfl
  rw [h1]
  rfl

theorem backtick_notPrefix (c : Char) (t : Str) (hc : c ≠ '`') :
    isPrefixL "```".data (c :: t) = false := by
  show (decide ('`' = c) && isPrefixL "``".data t) = false
  rw [decide_eq_false (fun h => hc h.symm)]
  rfl

theorem dropWhile_append_stopped (q : Char → Bool) (a : Str) (c : Char) (t : Str)
    (hc : q c = false) :
    (a ++ c :: t).dropWhile q = a.dropWhile q ++ c :: t := by
  induction a with
  | nil => simp [List.dropWhile_cons, hc]
  | cons x a' ih =>
    cases hx : q x with
    | true => simp [List.dropWhile_cons, hx, ih]
    | false => simp [List.dropWhile_cons, hx]

/-! ### Serialized values: character inventory -/

mutual

theorem serJ_chars (tc : Bool) (v : Json) (hs : safeJ v = true) :
    ∀ c ∈ serJ tc v, c ≠ '`' ∧ c ≠ '\\' := by
  cases v with
  | num d =>
    intro c hc
    simp only [serJ, List.mem_singleton] at hc
    subst hc
    have hf := digitChar_facts d.val d.isLt
    exact ⟨hf.2.2.2.2.1, hf.2.2.2.2.2.1⟩
  | str s =>
    intro c hc
    simp only [serJ, List.mem_cons, List.mem_append, List.mem_singleton] at hc
    rcases hc with rfl | hc | rfl | hf
    · exact ⟨by decide, by decide⟩
    · have hcs : safeChar c = true := (List.all_eq_true.mp hs) c hc
      have hf := safeChar_facts c hcs
      exact ⟨hf.2.2.2.1, hf.2.1⟩
    · exact ⟨by decide, by decide⟩
    · simp at hf
  | boolean b =>
    intro c hc
    cases b with
    | true => exact (by decide : ∀ x ∈ "true".data, x ≠ '`' ∧ x ≠ '\\') c hc
    | false => exact (by decide : ∀ x ∈ "false".data, x ≠ '`' ∧ x ≠ '\\') c hc
  | nul =>
    intro c hc
    exact (by decide : ∀ x ∈ "null".data, x ≠ '`' ∧ x ≠ '\\') c hc
  | obj p =>
    intro c hc
    simp only [serJ, List.mem_cons, List.mem_append, List.mem_singleton] at hc
    rcases hc with rfl | hc | hc | rfl | hf
    · exact ⟨by decide, by decide⟩
    · exact serPairs_chars tc p hs c hc
    · cases p with
      | nil => simp at hc
      | cons k v tl =>
        cases tc with
        | true =>
          simp at hc
          subst hc
          exact ⟨by decide, by decide⟩
        | false => simp at hc
    · exact ⟨by decide, by decide⟩
    · simp at hf
  | arr l =>
    intro c hc
    simp only [serJ, List.mem_cons, List.mem_append, List.mem_singleton] at hc
    rcases hc with rfl | hc | hc | rfl | hf
    · exact ⟨by decide, by decide⟩
    · exact serList_chars tc l hs c hc
    · cases l with
      | nil => simp at hc
      | cons v tl =>
        cases tc with
        | true =>
          simp at hc
          subst hc
          exact ⟨by decide, by decide⟩
        | false => simp at hc
    · exact ⟨by decide, by decide⟩
    · simp at hf

theorem serPairs_chars (tc : Bool) (p : JPairs) (hs : safeP p = true) :
    ∀ c ∈ serPairs tc p, c ≠ '`' ∧ c ≠ '\\' := by
  cases p with
  | nil => intro c hc; simp [serPairs] at hc
  | cons k v tl =>
    intro c hc
    simp only [serPairs, List.mem_cons, List.mem_append] at hc
    have hsp : (k.all safeChar && safeJ v && safeP tl) = true := hs
    simp only [Bool.and_eq_true] at hsp
    rcases hc with rfl | hc | rfl | rfl | hc | hc
    · exact ⟨by decide, by decide⟩
    · have hf := safeChar_facts c ((List.all_eq_true.mp hsp.1.1) c hc)
      exact ⟨hf.2.2.2.1, hf.2.1⟩
    · exact ⟨by decide, by decide⟩
    · exact ⟨by decide, by decide⟩
    · exact serJ_chars tc v hsp.1.2 c hc
    · cases tl with
      | nil => simp at hc
      | cons k2 v2 tl2 =>
        have hc' : c ∈ ',' :: serPairs tc (.cons k2 v2 tl2) := hc
        simp only [List.mem_cons] at hc'
        rcases hc' with rfl | hc'
        · exact ⟨by decide, by decide⟩
        · exact serPairs_chars tc (.cons k2 v2 tl2) hsp.2 c hc'

theorem serList_chars (tc : Bool) (l : JList) (hs : safeL l = true) :
    ∀ c ∈ serList tc l, c ≠ '`' ∧ c ≠ '\\' := by
  cases l with
  | nil => intro c hc; simp [serList] at hc
  | cons v tl =>
    intro c hc
    simp only [serList, List.mem_append] at hc
    have hsp : (safeJ v && safeL tl) = true := hs
    simp only [Bool.and_eq_true] at hsp
    rcases hc with hc | hc
    · exact serJ_chars tc v hsp.1 c hc
    · cases tl with
      | nil => simp at hc
      | cons v2 tl2 =>
        have hc' : c ∈ ',' :: serList tc (.cons v2 tl2) := hc
        simp only [List.mem_cons] at hc'
        rcases hc' with rfl | hc'
        · exact ⟨by decide, by decide⟩
        · exact serList_chars tc (.cons v2 tl2) hsp.2 c hc'

end

/-- The first character of a serialized value is never JSON whitespace. -/
theorem serJ_head_nws (tc : Bool) (v : Json) (t : Str) :
    skipWs (serJ tc v ++ t) = serJ tc v ++ t := by
  cases v with
  | num d =>
    show skipWs (Nat.digitChar d.val :: t) = _
    unfold skipWs
    rw [List.dropWhile_cons, (digitChar_facts d.val d.isLt).2.2.2.2.2.2.2.2.2.2.2.2]
    rfl
  | str s =>
    show skipWs ('"' :: ((s ++ ['"']) ++ t)) = _
    unfold skipWs
    rw [List.dropWhile_cons]
    rfl
  | boolean b =>
    cases b with
    | true =>
      show skipWs ('t' :: ("rue".data ++ t)) = _
      unfold skipWs
      rw [List.dropWhile_cons]
      rfl
    | false =>
      show skipWs ('f' :: ("alse".data ++ t)) = _
      unfold skipWs
      rw [List.dropWhile_cons]
      rfl
  | nul =>
    show skipWs ('n' :: ("ull".data ++ t)) = _
    unfold skipWs
    rw [List.dropWhile_cons]
    rfl
  | obj p =>
    show skipWs (lbrace :: _) = _
    unfold skipWs
    rw [List.dropWhile_cons]
    rfl
  | arr l =>
    show skipWs ('[' :: _) = _
    unfold skipWs
    rw [List.dropWhile_cons]
    rfl

/-- The first character of a serialized member list is the key's quote. -/
theorem serPairs_cons_head (tc : Bool) (k : Str) (v : Json) (tl : JPairs) :
    serPairs tc (.cons k v tl) =
      '"' :: (k ++ '"' :: ':' :: (serJ tc v ++
        (match tl with | .nil => [] | .cons _ _ _ => ',' :: serPairs tc tl))) := rfl

/-- The shape of a serialized non-empty element list. -/
theorem serList_cons_shape (tc : Bool) (v : Json) (tl : JList) :
    serList tc (.cons v tl) = serJ tc v ++
      (match tl with
        | JList.nil => []
        | JList.cons _ _ => ',' :: serList tc tl) := rfl

/-- A serialized object read backwards starts with the closing brace. -/
theorem serJ_obj_rev (tc : Bool) (p : JPairs) :
    ∃ R, (serJ tc (.obj p)).reverse = rbrace :: R := by
  refine ⟨((match p with
    | JPairs.nil => ([] : Str)
    | JPairs.cons _ _ _ => if tc then [','] else []).reverse ++
      (serPairs tc p).reverse) ++ [lbrace], ?_⟩
  show (lbrace :: (serPairs tc p ++ _)).reverse = _
  simp [List.reverse_append]

/-- A comma followed by a serialized value is not a trailing comma. -/
theorem mStripTC_comma_serJ (tc : Bool) (v : Json) (t : Str) :
    mStripTC (',' :: (serJ tc v ++ t)) = none := by
  cases v with
  | num d =>
    show mStripTC (',' :: (Nat.digitChar d.val :: t)) = none
    have hf := digitChar_facts d.val d.isLt
    exact mStripTC_comma_safe _ _ hf.2.1 hf.2.2.1 hf.2.2.2.1
  | str s =>
    show mStripTC (',' :: ('"' :: ((s ++ ['"']) ++ t))) = none
    exact mStripTC_comma_safe _ _ (by decide) (by decide) (by decide)
  | boolean b =>
    cases b with
    | true =>
      show mStripTC (',' :: ('t' :: ("rue".data ++ t))) = none
      exact mStripTC_comma_safe _ _ (by decide) (by decide) (by decide)
    | false =>
      show mStripTC (',' :: ('f' :: ("alse".data ++ t))) = none
      exact mStripTC_comma_safe _ _ (by decide) (by decide) (by decide)
  | nul =>
    show mStripTC (',' :: ('n' :: ("ull".data ++ t))) = none
    exact mStripTC_comma_safe _ _ (by decide) (by decide) (by decide)
  | obj p =>
    show mStripTC (',' :: (lbrace :: _)) = none
    exact mStripTC_comma_safe _ _ (by decide) (by decide) (by decide)
  | arr l =>
    show mStripTC (',' :: ('[' :: _)) = none
    exact mStripTC_comma_safe _ _ (by decide) (by decide) (by decide)

/-! ### The trailing-comma strip turns a `tc`-serialization into the plain
one -/

mutual

theorem strip_v (tc : Bool) (v : Json) (hs : safeJ v = true) (rest : Str) :
    runScanRep mStripTC (serJ tc v ++ rest) =
      serJ false v ++ runScanRep mStripTC rest := by
  cases v with
  | num d =>
    have hx : ∀ c t, c ∈ [Nat.digitChar d.val] → mStripTC (c :: t) = none := by
      intro c t hc
      simp only [List.mem_singleton] at hc
      subst hc
      exact mStripTC_not_comma _ _ (digitChar_facts d.val d.isLt).1
    show runScanRep mStripTC ([Nat.digitChar d.val] ++ rest) =
      [Nat.digitChar d.val] ++ runScanRep mStripTC rest
    rw [runScanRep_skip mStripTC [Nat.digitChar d.val] rest hx]
  | str s =>
    have hx : ∀ c t, c ∈ '"' :: (s ++ ['"']) → mStripTC (c :: t) = none := by
      intro c t hc
      apply mStripTC_not_comma
      simp only [List.mem_cons, List.mem_append, List.mem_singleton] at hc
      rcases hc with rfl | hc | rfl | hf
      · decide
      · exact (safeChar_facts c ((List.all_eq_true.mp hs) c hc)).2.2.1
      · decide
      · simp at hf
    show runScanRep mStripTC (('"' :: (s ++ ['"'])) ++ rest) =
      ('"' :: (s ++ ['"'])) ++ runScanRep mStripTC rest
    rw [runScanRep_skip mStripTC _ rest hx]
  | boolean b =>
    cases b with
    | true =>
      have hx : ∀ c t, c ∈ "true".data → mStripTC (c :: t) = none := fun c t hc =>
        mStripTC_not_comma _ _ ((by decide : ∀ x ∈ "true".data, x ≠ ',') c hc)
      show runScanRep mStripTC ("true".data ++ rest) =
        "true".data ++ runScanRep mStripTC rest
      rw [runScanRep_skip mStripTC _ rest hx]
    | false =>
      have hx : ∀ c t, c ∈ "false".data → mStripTC (c :: t) = none := fun c t hc =>
        mStripTC_not_comma _ _ ((by decide : ∀ x ∈ "false".data, x ≠ ',') c hc)
      show runScanRep mStripTC ("false".data ++ rest) =
        "false".data ++ runScanRep mStripTC rest
      rw [runScanRep_skip mStripTC _ rest hx]
  | nul =>
    have hx : ∀ c t, c ∈ "null".data → mStripTC (c :: t) = none := fun c t hc =>
      mStripTC_not_comma _ _ ((by decide : ∀ x ∈ "null".data, x ≠ ',') c hc)
    show runScanRep mStripTC ("null".data ++ rest) =
      "null".data ++ runScanRep mStripTC rest
    rw [runScanRep_skip mStripTC _ rest hx]
  | obj p =>
    cases p with
    | nil =>
      show runScanRep mStripTC (lbrace :: rbrace :: rest) =
        serJ false (.obj .nil) ++ runScanRep mStripTC rest
      rw [runScanRep_cons_none mStripTC lbrace _
        (mStripTC_not_comma _ _ (by decide))]
      rw [runScanRep_cons_none mStripTC rbrace rest
        (mStripTC_not_comma _ _ (by decide))]
      rfl
    | cons k v tl =>
      cases tc with
      | false =>
        rw [show serJ false (Json.obj (.cons k v tl)) ++ rest =
            lbrace :: (serPairs false (.cons k v tl) ++ (rbrace :: rest)) from by
          simp [serJ, List.append_assoc]]
        rw [runScanRep_cons_none mStripTC lbrace _
          (mStripTC_not_comma _ _ (by decide))]
        rw [strip_p false (.cons k v tl) hs (rbrace :: rest)]
        rw [runScanRep_cons_none mStripTC rbrace rest
          (mStripTC_not_comma _ _ (by decide))]
        simp [serJ, List.append_assoc]
      | true =>
        rw [show serJ true (Json.obj (.cons k v tl)) ++ rest =
            lbrace :: (serPairs true (.cons k v tl) ++ (',' :: rbrace :: rest)) from by
          simp [serJ, List.append_assoc]]
        rw [runScanRep_cons_none mStripTC lbrace _
          (mStripTC_not_comma _ _ (by decide))]
        rw [strip_p true (.cons k v tl) hs (',' :: rbrace :: rest)]
        rw [show runScanRep mStripTC (',' :: rbrace :: rest) =
            [rbrace] ++ runScanRep mStripTC rest from
          runScanRep_hit mStripTC mStripTC_lt [',', rbrace] [rbrace] rest
            (by simp) (mStripTC_close rbrace rest (Or.inl rfl))]
        simp [serJ, List.append_assoc]
  | arr l =>
    cases l with
    | nil =>
      show runScanRep mStripTC ('[' :: ']' :: rest) =
        serJ false (.arr .nil) ++ runScanRep mStripTC rest
      rw [runScanRep_cons_none mStripTC '[' _
        (mStripTC_not_comma _ _ (by decide))]
      rw [runScanRep_cons_none mStripTC ']' rest
        (mStripTC_not_comma _ _ (by decide))]
      rfl
    | cons v tl =>
      cases tc with
      | false =>
        rw [show serJ false (Json.arr (.cons v tl)) ++ rest =
            '[' :: (serList false (.cons v tl) ++ (']' :: rest)) from by
          simp [serJ, List.append_assoc]]
        rw [runScanRep_cons_none mStripTC '[' _
          (mStripTC_not_comma _ _ (by decide))]
        rw [strip_l false (.cons v tl) hs (']' :: rest)]
        rw [runScanRep_cons_none mStripTC ']' rest
          (mStripTC_not_comma _ _ (by decide))]
        simp [serJ, List.append_assoc]
      | true =>
        rw [show serJ true (Json.arr (.cons v tl)) ++ rest =
            '[' :: (serList true (.cons v tl) ++ (',' :: ']' :: rest)) from by
          simp [serJ, List.append_assoc]]
        rw [runScanRep_cons_none mStripTC '[' _
          (mStripTC_not_comma _ _ (by decide))]
        rw [strip_l true (.cons v tl) hs (',' :: ']' :: rest)]
        rw [show runScanRep mStripTC (',' :: ']' :: rest) =
            [']'] ++ runScanRep mStripTC rest from
          runScanRep_hit mStripTC mStripTC_lt [',', ']'] [']'] rest
            (by simp) (mStripTC_close ']' rest (Or.inr rfl))]
        simp [serJ, List.append_assoc]

theorem strip_p (tc : Bool) (p : JPairs) (hs : safeP p = true) (rest : Str) :
    runScanRep mStripTC (serPairs tc p ++ rest) =
      serPairs false p ++ runScanRep mStripTC rest := by
  cases p with
  | nil =>
    show runScanRep mStripTC rest = serPairs false .nil ++ runScanRep mStripTC rest
    rfl
  | cons k v tl =>
    have hsp : (k.all safeChar && safeJ v && safeP tl) = true := hs
    simp only [Bool.and_eq_true] at hsp
    have hx1 : ∀ c t, c ∈ '"' :: (k ++ ['"', ':']) → mStripTC (c :: t) = none := by
      intro c t hc
      apply mStripTC_not_comma
      simp only [List.mem_cons, List.mem_append] at hc
      rcases hc with rfl | hc | rfl | rfl | hf
      · decide
      · exact (safeChar_facts c ((List.all_eq_true.mp hsp.1.1) c hc)).2.2.1
      · decide
      · decide
      · simp at hf
    cases tl with
    | nil =>
      rw [show serPairs tc (.cons k v .nil) ++ rest =
          ('"' :: (k ++ ['"', ':'])) ++ (serJ tc v ++ rest) from by
        simp [serPairs, List.append_assoc]]
      rw [runScanRep_skip mStripTC ('"' :: (k ++ ['"', ':'])) _ hx1]
      rw [strip_v tc v hsp.1.2 rest]
      simp [serPairs, List.append_assoc]
    | cons k2 v2 tl2 =>
      rw [show serPairs tc (.cons k v (.cons k2 v2 tl2)) ++ rest =
          ('"' :: (k ++ ['"', ':'])) ++ (serJ tc v ++
            (',' :: (serPairs tc (.cons k2 v2 tl2) ++ rest))) from by
        simp [serPairs, List.append_assoc]]
      rw [runScanRep_skip mStripTC ('"' :: (k ++ ['"', ':'])) _ hx1]
      rw [strip_v tc v hsp.1.2 _]
      have hnone : mStripTC (',' :: (serPairs tc (.cons k2 v2 tl2) ++ rest)) =
          none := by
        rw [serPairs_cons_head]
        exact mStripTC_comma_safe '"' _ (by decide) (by decide) (by decide)
      rw [runScanRep_cons_none mStripTC ',' _ hnone]
      rw [strip_p tc (.cons k2 v2 tl2) hsp.2 rest]
      simp [serPairs, List.append_assoc]

theorem strip_l (tc : Bool) (l : JList) (hs : safeL l = true) (rest : Str) :
    runScanRep mStripTC (serList tc l ++ rest) =
      serList false l ++ runScanRep mStripTC rest := by
  cases l with
  | nil =>
    show runScanRep mStripTC rest = serList false .nil ++ runScanRep mStripTC rest
    rfl
  | cons v tl =>
    have hsp : (safeJ v && safeL tl) = true := hs
    simp only [Bool.and_eq_true] at hsp
    cases tl with
    | nil =>
      rw [show serList tc (.cons v .nil) ++ rest = serJ tc v ++ rest from by
        simp [serList]]
      rw [strip_v tc v hsp.1 rest]
      simp [serList]
    | cons v2 tl2 =>
      rw [show serList tc (.cons v (.cons v2 tl2)) ++ rest =
          serJ tc v ++ (',' :: (serList tc (.cons v2 tl2) ++ rest)) from by
        simp [serList, List.append_assoc]]
      rw [strip_v tc v hsp.1 _]
      have hnone : mStripTC (',' :: (serList tc (.cons v2 tl2) ++ rest)) =
          none := by
        cases tl2 with
        | nil =>
          rw [show serList tc (.cons v2 .nil) ++ rest = serJ tc v2 ++ rest from by
            simp [serList]]
          exact mStripTC_comma_serJ tc v2 rest
        | cons v3 tl3 =>
          rw [show serList tc (.cons v2 (.cons v3 tl3)) ++ rest =
              serJ tc v2 ++ (',' :: (serList tc (.cons v3 tl3) ++ rest)) from by
            simp [serList, List.append_assoc]]
          exact mStripTC_comma_serJ tc v2 _
      rw [runScanRep_cons_none mStripTC ',' _ hnone]
      rw [strip_l tc (.cons v2 tl2) hsp.2 rest]
      simp [serList, List.append_assoc]

end

/-! ### The checker accepts serialized values -/

theorem scanStringRest_quote (r : Str) : scanStringRest ('"' :: r) = some r := by
  unfold scanStringRest
  rfl

theorem scanStringRest_cons_safe (c : Char) (r : Str) (h1 : c ≠ '"')
    (h2 : c ≠ '\\') (h3 : ¬ c.toNat < 32) :
    scanStringRest (c :: r) = scanStringRest r := by
  conv_lhs => unfold scanStringRest
  rw [if_neg h1, if_neg h2, if_neg h3]

theorem scanStringRest_safe (s : Str) (r : Str)
    (hk : ∀ c ∈ s, safeChar c = true) :
    scanStringRest (s ++ '"' :: r) = some r := by
  induction s with
  | nil => exact scanStringRest_quote r
  | cons c s' ih =>
    have hf := safeChar_facts c (hk c (by simp))
    rw [show (c :: s') ++ '"' :: r = c :: (s' ++ '"' :: r) from rfl]
    rw [scanStringRest_cons_safe c _ hf.1 hf.2.1 hf.2.2.2.2.2.2.2.2]
    exact ih (fun c' hc' => hk c' (by simp [hc']))

theorem skipWs_cons_nws (c : Char) (t : Str) (h : isJsonWs c = false) :
    skipWs (c :: t) = c :: t := by
  unfold skipWs
  rw [List.dropWhile_cons, h]
  rfl

/-- Every serialized value starts with a concrete non-whitespace,
non-closer, non-comma character. -/
theorem ser_head_ex (tc : Bool) (v : Json) :
    ∃ c T, serJ tc v = c :: T ∧ isJsonWs c = false ∧ c ≠ rbrace ∧ c ≠ ']' ∧
      c ≠ ',' := by
  cases v with
  | num d =>
    have hf := digitChar_facts d.val d.isLt
    exact ⟨Nat.digitChar d.val, [], rfl, hf.2.2.2.2.2.2.2.2.2.2.2.2, hf.2.2.1,
      hf.2.2.2.1, hf.1⟩
  | str s =>
    exact ⟨'"', s ++ ['"'], rfl, by decide, by decide, by decide, by decide⟩
  | boolean b =>
    cases b with
    | true =>
      exact ⟨'t', "rue".data, rfl, by decide, by decide, by decide, by decide⟩
    | false =>
      exact ⟨'f', "alse".data, rfl, by decide, by decide, by decide, by decide⟩
  | nul => exact ⟨'n', "ull".data, rfl, by decide, by decide, by decide, by decide⟩
  | obj p => exact ⟨lbrace, _, rfl, by decide, by decide, by decide, by decide⟩
  | arr l => exact ⟨'[', _, rfl, by decide, by decide, by decide, by decide⟩

theorem serList_cons_head_nws (tc : Bool) (v : Json) (tl : JList) (t : Str) :
    skipWs (serList tc (.cons v tl) ++ t) = serList tc (.cons v tl) ++ t := by
  obtain ⟨c, T, hec, hw, _, _, _⟩ := ser_head_ex tc v
  cases tl with
  | nil =>
    rw [show serList tc (.cons v JList.nil) = serJ tc v from by simp [serList]]
    rw [hec]
    exact skipWs_cons_nws c (T ++ t) hw
  | cons v2 tl2 =>
    rw [show serList tc (.cons v (.cons v2 tl2)) =
        serJ tc v ++ (',' :: serList tc (.cons v2 tl2)) from by simp [serList]]
    rw [hec]
    exact skipWs_cons_nws c _ hw

/-- Consuming a member's key, quote, and colon in one step. -/
theorem scanMembers_step (m : Nat) (k : Str) (X : Str)
    (hk : ∀ c ∈ k, safeChar c = true) :
    scanMembers (m + 1) ('"' :: (k ++ '"' :: ':' :: X)) =
      (match scanVal m (skipWs X) with
        | some r4 =>
          (match skipWs r4 with
            | ',' :: r5 => scanMembers m (skipWs r5)
            | d :: r5 => if d = rbrace then some r5 else none
            | [] => none)
        | none => none) := by
  show (match scanStringRest (k ++ '"' :: ':' :: X) with
    | some r2 =>
      (match skipWs r2 with
        | ':' :: r3 =>
          (match scanVal m (skipWs r3) with
            | some r4 =>
              (match skipWs r4 with
                | ',' :: r5 => scanMembers m (skipWs r5)
                | d :: r5 => if d = rbrace then some r5 else none
                | [] => none)
            | none => none)
        | _ => none)
    | none => none) = _
  rw [scanStringRest_safe k (':' :: X) hk]
  rfl

theorem jsize_pos (v : Json) : 1 ≤ jsize v := by
  cases v <;> simp [jsize]

mutual

theorem accV (v : Json) (f : Nat) (rest : Str) (hs : safeJ v = true)
    (hf : jsize v < f) (hr : restOk rest = true) :
    scanVal f (serJ false v ++ rest) = some rest := by
  cases f with
  | zero => exact absurd hf (Nat.not_lt_zero _)
  | succ n =>
    cases v with
    | num d =>
      rcases d with ⟨dv, hdv⟩
      cases rest with
      | nil => interval_cases dv <;> rfl
      | cons c t =>
        have hc : (c = ',' ∨ c = ']') ∨ c = rbrace := by
          have h' : (decide (c = ',') || decide (c = ']') ||
            decide (c = rbrace)) = true := hr
          simpa using h'
        rcases hc with (rfl | rfl) | rfl <;> (interval_cases dv <;> rfl)
    | str s =>
      show scanStringRest ((s ++ ['"']) ++ rest) = some rest
      rw [show (s ++ ['"']) ++ rest = s ++ ('"' :: rest) from by simp]
      exact scanStringRest_safe s rest (fun c hc => (List.all_eq_true.mp hs) c hc)
    | boolean b =>
      cases b with
      | true => exact eatLit_self "rue".data rest
      | false => exact eatLit_self "alse".data rest
    | nul => exact eatLit_self "ull".data rest
    | obj p =>
      cases p with
      | nil => rfl
      | cons k v tl =>
        rw [show serJ false (Json.obj (.cons k v tl)) ++ rest =
            lbrace :: (serPairs false (.cons k v tl) ++ (rbrace :: rest)) from by
          simp [serJ, List.append_assoc]]
        show scanMembers n (serPairs false (.cons k v tl) ++ (rbrace :: rest)) =
          some rest
        have hfp : jsizeP (.cons k v tl) < n := by
          have he : jsize (Json.obj (.cons k v tl)) =
            1 + jsizeP (.cons k v tl) := rfl
          omega
        exact accP k v tl n rest hs hfp hr
    | arr l =>
      cases l with
      | nil => rfl
      | cons v tl =>
        rw [show serJ false (Json.arr (.cons v tl)) ++ rest =
            '[' :: (serList false (.cons v tl) ++ (']' :: rest)) from by
          simp [serJ, List.append_assoc]]
        obtain ⟨c, T, hec, hw, _, h2, _⟩ := ser_head_ex false v
        have hfl : jsizeL (.cons v tl) < n := by
          have he : jsize (Json.arr (.cons v tl)) =
            1 + jsizeL (.cons v tl) := rfl
          omega
        cases tl with
        | nil =>
          have hx : serList false (.cons v JList.nil) ++ (']' :: rest) =
              c :: (T ++ (']' :: rest)) := by
            rw [show serList false (.cons v JList.nil) = serJ false v from by
              simp [serList]]
            rw [hec]
            simp
          rw [hx]
          show (match skipWs (c :: (T ++ (']' :: rest))) with
            | d :: r2 => if d = ']' then some r2 else scanElems n (d :: r2)
            | [] => none) = some rest
          rw [skipWs_cons_nws c _ hw]
          show (if c = ']' then some (T ++ (']' :: rest))
            else scanElems n (c :: (T ++ (']' :: rest)))) = some rest
          rw [if_neg h2]
          rw [show c :: (T ++ (']' :: rest)) =
            serList false (.cons v JList.nil) ++ (']' :: rest) from hx.symm]
          exact accL v JList.nil n rest hs hfl hr
        | cons v2 tl2 =>
          have hx : serList false (.cons v (.cons v2 tl2)) ++ (']' :: rest) =
              c :: (T ++ (',' :: (serList false (.cons v2 tl2) ++
                (']' :: rest)))) := by
            rw [show serList false (.cons v (.cons v2 tl2)) =
                serJ false v ++ (',' :: serList false (.cons v2 tl2)) from by
              simp [serList]]
            rw [hec]
            simp
          rw [hx]
          show (match skipWs (c :: (T ++ (',' :: (serList false (.cons v2 tl2) ++
              (']' :: rest))))) with
            | d :: r2 => if d = ']' then some r2 else scanElems n (d :: r2)
            | [] => none) = some rest
          rw [skipWs_cons_nws c _ hw]
          show (if c = ']' then some (T ++ (',' :: (serList false (.cons v2 tl2) ++
              (']' :: rest))))
            else scanElems n (c :: (T ++ (',' :: (serList false (.cons v2 tl2) ++
              (']' :: rest)))))) = some rest
          rw [if_neg h2]
          rw [show c :: (T ++ (',' :: (serList false (.cons v2 tl2) ++
              (']' :: rest)))) =
            serList false (.cons v (.cons v2 tl2)) ++ (']' :: rest) from hx.symm]
          exact accL v (.cons v2 tl2) n rest hs hfl hr
termination_by f

theorem accP (k : Str) (v : Json) (tl : JPairs) (f : Nat) (rest : Str)
    (hs : safeP (.cons k v tl) = true) (hf : jsizeP (.cons k v tl) < f)
    (hr : restOk rest = true) :
    scanMembers f (serPairs false (.cons k v tl) ++ (rbrace :: rest)) =
      some rest := by
  cases f with
  | zero => exact absurd hf (Nat.not_lt_zero _)
  | succ m =>
    have hsp : (k.all safeChar && safeJ v && safeP tl) = true := hs
    simp only [Bool.and_eq_true] at hsp
    have hje : jsizeP (.cons k v tl) = 1 + jsize v + jsizeP tl := rfl
    cases tl with
    | nil =>
      rw [show serPairs false (.cons k v JPairs.nil) ++ (rbrace :: rest) =
          '"' :: (k ++ '"' :: ':' :: (serJ false v ++ (rbrace :: rest))) from by
        simp [serPairs, List.append_assoc]]
      rw [scanMembers_step m k _ (fun c hc => (List.all_eq_true.mp hsp.1.1) c hc)]
      rw [serJ_head_nws false v (rbrace :: rest)]
      rw [accV v m (rbrace :: rest) hsp.1.2 (by omega) rfl]
      rfl
    | cons k2 v2 tl2 =>
      rw [show serPairs false (.cons k v (.cons k2 v2 tl2)) ++ (rbrace :: rest) =
          '"' :: (k ++ '"' :: ':' :: (serJ false v ++
            (',' :: (serPairs false (.cons k2 v2 tl2) ++ (rbrace :: rest))))) from by
        simp [serPairs, List.append_assoc]]
      rw [scanMembers_step m k _ (fun c hc => (List.all_eq_true.mp hsp.1.1) c hc)]
      rw [serJ_head_nws false v _]
      rw [accV v m (',' :: (serPairs false (.cons k2 v2 tl2) ++ (rbrace :: rest)))
        hsp.1.2 (by omega) rfl]
      show scanMembers m
          (skipWs (serPairs false (.cons k2 v2 tl2) ++ (rbrace :: rest))) =
        some rest
      rw [show skipWs (serPairs false (.cons k2 v2 tl2) ++ (rbrace :: rest)) =
          serPairs false (.cons k2 v2 tl2) ++ (rbrace :: rest) from by
        rw [serPairs_cons_head]
        exact skipWs_cons_nws '"' _ (by decide)]
      have hje2 : jsizeP (.cons k2 v2 tl2) = 1 + jsize v2 + jsizeP tl2 := rfl
      exact accP k2 v2 tl2 m rest hsp.2 (by omega) hr
termination_by f

theorem accL (v : Json) (tl : JList) (f : Nat) (rest : Str)
    (hs : safeL (.cons v tl) = true) (hf : jsizeL (.cons v tl) < f)
    (hr : restOk rest = true) :
    scanElems f (serList false (.cons v tl) ++ (']' :: rest)) = some rest := by
  cases f with
  | zero => exact absurd hf (Nat.not_lt_zero _)
  | succ m =>
    have hsp : (safeJ v && safeL tl) = true := hs
    simp only [Bool.and_eq_true] at hsp
    have hje : jsizeL (.cons v tl) = 1 + jsize v + jsizeL tl := rfl
    cases tl with
    | nil =>
      rw [show serList false (.cons v JList.nil) ++ (']' :: rest) =
          serJ false v ++ (']' :: rest) from by simp [serList]]
      show (match scanVal m (serJ false v ++ (']' :: rest)) with
        | some r =>
          (match skipWs r with
            | ',' :: r2 => scanElems m (skipWs r2)
            | d :: r2 => if d = ']' then some r2 else none
            | [] => none)
        | none => none) = some rest
      rw [accV v m (']' :: rest) hsp.1 (by omega) rfl]
      rfl
    | cons v2 tl2 =>
      rw [show serList false (.cons v (.cons v2 tl2)) ++ (']' :: rest) =
          serJ false v ++ (',' :: (serList false (.cons v2 tl2) ++
            (']' :: rest))) from by simp [serList, List.append_assoc]]
      show (match scanVal m (serJ false v ++ (',' :: (serList false (.cons v2 tl2) ++
          (']' :: rest)))) with
        | some r =>
          (match skipWs r with
            | ',' :: r2 => scanElems m (skipWs r2)
            | d :: r2 => if d = ']' then some r2 else none
            | [] => none)
        | none => none) = some rest
      rw [accV v m (',' :: (serList false (.cons v2 tl2) ++ (']' :: rest)))
        hsp.1 (by omega) rfl]
      show scanElems m (skipWs (serList false (.cons v2 tl2) ++ (']' :: rest))) =
        some rest
      rw [serList_cons_head_nws]
      have hje2 : jsizeL (.cons v2 tl2) = 1 + jsize v2 + jsizeL tl2 := rfl
      exact accL v2 tl2 m rest hsp.2 (by omega) hr
termination_by f

end

mutual

theorem jsize_le (v : Json) : jsize v ≤ (serJ false v).length := by
  cases v with
  | num d => simp [jsize, serJ]
  | str s => simp [jsize, serJ]
  | boolean b => cases b <;> simp [jsize, serJ]
  | nul => simp [jsize, serJ]
  | obj p =>
    have ih := jsizeP_le p
    simp only [jsize, serJ, List.length_cons, List.length_append]
    omega
  | arr l =>
    have ih := jsizeL_le l
    simp only [jsize, serJ, List.length_cons, List.length_append]
    omega

theorem jsizeP_le (p : JPairs) : jsizeP p ≤ (serPairs false p).length + 1 := by
  cases p with
  | nil => decide
  | cons k v tl =>
    have ihv := jsize_le v
    cases tl with
    | nil =>
      have e1 : jsizeP (JPairs.cons k v JPairs.nil) = 1 + jsize v + 0 := rfl
      have e2 : (serPairs false (JPairs.cons k v JPairs.nil)).length =
          1 + (k.length + (2 + (serJ false v).length)) := by
        rw [show serPairs false (JPairs.cons k v JPairs.nil) =
            '"' :: (k ++ '"' :: ':' :: (serJ false v ++ [])) from by
          simp [serPairs]]
        simp only [List.length_cons, List.length_append, List.length_nil]
        omega
      rw [e1, e2]
      omega
    | cons k2 v2 tl2 =>
      have iht := jsizeP_le (.cons k2 v2 tl2)
      have e1 : jsizeP (JPairs.cons k v (JPairs.cons k2 v2 tl2)) =
          1 + jsize v + jsizeP (JPairs.cons k2 v2 tl2) := rfl
      have e2 : (serPairs false (JPairs.cons k v (JPairs.cons k2 v2 tl2))).length =
          1 + (k.length + (2 + ((serJ false v).length +
            (1 + (serPairs false (JPairs.cons k2 v2 tl2)).length)))) := by
        rw [show serPairs false (JPairs.cons k v (JPairs.cons k2 v2 tl2)) =
            '"' :: (k ++ '"' :: ':' :: (serJ false v ++
              (',' :: serPairs false (JPairs.cons k2 v2 tl2)))) from by
          simp [serPairs]]
        simp only [List.length_cons, List.length_append]
        omega
      rw [e1, e2]
      omega

theorem jsizeL_le (l : JList) : jsizeL l ≤ (serList false l).length + 1 := by
  cases l with
  | nil => decide
  | cons v tl =>
    have ihv := jsize_le v
    cases tl with
    | nil =>
      have e1 : jsizeL (JList.cons v JList.nil) = 1 + jsize v + 0 := rfl
      have e2 : (serList false (JList.cons v JList.nil)).length =
          (serJ false v).length := by
        rw [show serList false (JList.cons v JList.nil) = serJ false v from by
          simp [serList]]
      rw [e1, e2]
      omega
    | cons v2 tl2 =>
      have iht := jsizeL_le (.cons v2 tl2)
      have e1 : jsizeL (JList.cons v (JList.cons v2 tl2)) =
          1 + jsize v + jsizeL (JList.cons v2 tl2) := rfl
      have e2 : (serList false (JList.cons v (JList.cons v2 tl2))).length =
          (serJ false v).length +
            (1 + (serList false (JList.cons v2 tl2)).length) := by
        rw [show serList false (JList.cons v (JList.cons v2 tl2)) =
            serJ false v ++ (',' :: serList false (JList.cons v2 tl2)) from by
          simp [serList]]
        simp only [List.length_append, List.length_cons]
        omega
      rw [e1, e2]
      omega

end

/-- A serialized safe value is accepted by the full JSON checker. -/
theorem jsonParses_ser (v : Json) (hs : safeJ v = true) :
    jsonParses (serJ false v) = true := by
  unfold jsonParses
  obtain ⟨c, T, hec, hw, _, _, _⟩ := ser_head_ex false v
  rw [show skipWs (serJ false v) = serJ false v from by
    rw [hec]; exact skipWs_cons_nws c T hw]
  have hacc := accV v ((serJ false v).length + 1) [] hs
    (by have := jsize_le v; omega) rfl
  rw [List.append_nil] at hacc
  rw [hacc]
  rfl

/-! ### Comma discipline of serialized values -/

theorem getLast_app_ne (l1 l2 : Str) (h : l2 ≠ []) :
    (l1 ++ l2).getLast? = l2.getLast? := by
  rw [List.getLast?_append]
  cases h2 : l2.getLast? with
  | none => exact absurd (List.getLast?_eq_none_iff.mp h2) h
  | some a => rfl

theorem commaOk_of_no_comma (s : Str) (h : ∀ c ∈ s, c ≠ ',') :
    commaOk s = true := by
  induction s with
  | nil => rfl
  | cons c t ih =>
    cases t with
    | nil => rfl
    | cons d r =>
      show ((if c = ',' then !isWsRe d && !(d = rbrace) && !(d = ']') else true) &&
        commaOk (d :: r)) = true
      rw [if_neg (h c (by simp)), Bool.true_and]
      exact ih (fun x hx => h x (by simp [hx]))

theorem commaOk_cons_ne (c : Char) (s : Str) (hc : c ≠ ',') :
    commaOk (c :: s) = commaOk s := by
  cases s with
  | nil => rfl
  | cons d r =>
    show ((if c = ',' then !isWsRe d && !(d = rbrace) && !(d = ']') else true) &&
      commaOk (d :: r)) = commaOk (d :: r)
    rw [if_neg hc, Bool.true_and]

theorem commaOk_comma (d : Char) (r : Str) (h1 : isWsRe d = false)
    (h2 : d ≠ rbrace) (h3 : d ≠ ']') :
    commaOk (',' :: d :: r) = commaOk (d :: r) := by
  show ((if (',' : Char) = ',' then !isWsRe d && !(d = rbrace) && !(d = ']')
    else true) && commaOk (d :: r)) = commaOk (d :: r)
  rw [if_pos rfl, h1]
  simp [h2, h3]

theorem commaOk_append (a b : Str) (hb : commaOk b = true) :
    commaOk a = true → a.getLast? ≠ some ',' → commaOk (a ++ b) = true := by
  induction a with
  | nil => intro _ _; simpa using hb
  | cons x a' ih =>
    intro ha hl
    cases a' with
    | nil =>
      have hx : x ≠ ',' := by
        intro h; exact hl (by simp [h])
      rw [show ([x] ++ b : Str) = x :: b from rfl, commaOk_cons_ne x b hx]
      exact hb
    | cons y a'' =>
      have haa : ((if x = ',' then !isWsRe y && !(y = rbrace) && !(y = ']')
          else true) && commaOk (y :: a'')) = true := ha
      rw [Bool.and_eq_true] at haa
      show ((if x = ',' then !isWsRe y && !(y = rbrace) && !(y = ']') else true) &&
        commaOk (y :: (a'' ++ b))) = true
      rw [haa.1, Bool.true_and]
      refine ih haa.2 ?_
      intro h
      exact hl (by rw [List.getLast?_cons_cons]; exact h)

theorem commaOk_take (s : Str) :
    ∀ n, commaOk s = true → commaOk (s.take n) = true := by
  induction s with
  | nil => intro n _; cases n <;> rfl
  | cons c s' ih =>
    intro n h
    cases n with
    | zero => rfl
    | succ m =>
      cases s' with
      | nil => cases m <;> rfl
      | cons d s'' =>
        have haa : ((if c = ',' then !isWsRe d && !(d = rbrace) && !(d = ']')
            else true) && commaOk (d :: s'')) = true := h
        rw [Bool.and_eq_true] at haa
        cases m with
        | zero => rfl
        | succ m2 =>
          show ((if c = ',' then !isWsRe d && !(d = rbrace) && !(d = ']')
            else true) && commaOk (d :: List.take m2 s'')) = true
          rw [haa.1, Bool.true_and]
          exact ih (m2 + 1) haa.2

/-- Like `ser_head_ex`, also recording that the head character is outside
the regex whitespace class. -/
theorem ser_head_ex2 (v : Json) :
    ∃ c T, serJ false v = c :: T ∧ isWsRe c = false ∧ c ≠ rbrace ∧
      c ≠ ']' := by
  cases v with
  | num d =>
    have hf := digitChar_facts d.val d.isLt
    exact ⟨Nat.digitChar d.val, [], rfl, hf.2.1, hf.2.2.1, hf.2.2.2.1⟩
  | str s => exact ⟨'"', s ++ ['"'], rfl, by decide, by decide, by decide⟩
  | boolean b =>
    cases b with
    | true => exact ⟨'t', "rue".data, rfl, by decide, by decide, by decide⟩
    | false => exact ⟨'f', "alse".data, rfl, by decide, by decide, by decide⟩
  | nul => exact ⟨'n', "ull".data, rfl, by decide, by decide, by decide⟩
  | obj p => exact ⟨lbrace, _, rfl, by decide, by decide, by decide⟩
  | arr l => exact ⟨'[', _, rfl, by decide, by decide, by decide⟩

mutual

/-- A serialized safe value has no trailing-comma site and does not end in
a comma. -/
theorem comma_ser_v (v : Json) (hs : safeJ v = true) :
    commaOk (serJ false v) = true ∧ (serJ false v).getLast? ≠ some ',' := by
  cases v with
  | num d =>
    simp only [serJ]
    exact ⟨rfl, fun h => (digitChar_facts d.val d.isLt).1
      (Option.some.inj
        (show some (Nat.digitChar d.val) = some ',' from h))⟩
  | str s =>
    have hs' : s.all safeChar = true := hs
    simp only [serJ]
    constructor
    · refine commaOk_of_no_comma ('"' :: (s ++ ['"'])) ?_
      intro c hc
      rcases List.mem_cons.mp hc with rfl | hc2
      · decide
      · rcases List.mem_append.mp hc2 with hc3 | hc4
        · exact (safeChar_facts c ((List.all_eq_true.mp hs') c hc3)).2.2.1
        · have hq : c = '"' := by simpa using hc4
          rw [hq]; decide
    · rw [show ('"' :: (s ++ ['"']) : Str) = ('"' :: s) ++ ['"'] from by simp]
      rw [List.getLast?_concat]
      decide
  | boolean b => cases b <;> exact ⟨by decide, by decide⟩
  | nul => exact ⟨by decide, by decide⟩
  | obj p =>
    cases p with
    | nil => exact ⟨by decide, by decide⟩
    | cons k v tl =>
      have ihp := comma_ser_p (.cons k v tl) hs
      have hne : serPairs false (.cons k v tl) ≠ [] := by
        rw [serPairs_cons_head]
        exact List.cons_ne_nil _ _
      rw [show serJ false (Json.obj (.cons k v tl)) =
          (lbrace :: serPairs false (.cons k v tl)) ++ [rbrace] from by
        simp [serJ]]
      constructor
      · refine commaOk_append _ _ (by decide) ?_ ?_
        · rw [commaOk_cons_ne lbrace _ (by decide)]
          exact ihp.1
        · rw [show (lbrace :: serPairs false (.cons k v tl) : Str) =
            [lbrace] ++ serPairs false (.cons k v tl) from rfl]
          rw [getLast_app_ne _ _ hne]
          exact ihp.2
      · rw [List.getLast?_concat]
        decide
  | arr l =>
    cases l with
    | nil => exact ⟨by decide, by decide⟩
    | cons v tl =>
      have ihl := comma_ser_l (.cons v tl) hs
      have hne : serList false (.cons v tl) ≠ [] := by
        obtain ⟨c, T, hec, _, _, _⟩ := ser_head_ex2 v
        have hsh := serList_cons_shape false v tl
        rw [hec, List.cons_append] at hsh
        rw [hsh]
        exact List.cons_ne_nil _ _
      rw [show serJ false (Json.arr (.cons v tl)) =
          ('[' :: serList false (.cons v tl)) ++ [']'] from by
        simp [serJ]]
      constructor
      · refine commaOk_append _ _ (by decide) ?_ ?_
        · rw [commaOk_cons_ne '[' _ (by decide)]
          exact ihl.1
        · rw [show ('[' :: serList false (.cons v tl) : Str) =
            ['['] ++ serList false (.cons v tl) from rfl]
          rw [getLast_app_ne _ _ hne]
          exact ihl.2
      · rw [List.getLast?_concat]
        decide

/-- Serialized safe members have no trailing-comma site and do not end in
a comma. -/
theorem comma_ser_p (p : JPairs) (hs : safeP p = true) :
    commaOk (serPairs false p) = true ∧
      (serPairs false p).getLast? ≠ some ',' := by
  cases p with
  | nil => exact ⟨rfl, by decide⟩
  | cons k v tl =>
    have hsp : (k.all safeChar && safeJ v && safeP tl) = true := hs
    simp only [Bool.and_eq_true] at hsp
    have ihv := comma_ser_v v hsp.1.2
    have hpref : ∀ c ∈ ('"' :: (k ++ ['"', ':']) : Str), c ≠ ',' := by
      intro c hc
      rcases List.mem_cons.mp hc with rfl | hc2
      · decide
      · rcases List.mem_append.mp hc2 with hc3 | hc4
        · exact (safeChar_facts c ((List.all_eq_true.mp hsp.1.1) c hc3)).2.2.1
        · have hq : c = '"' ∨ c = ':' := by simpa using hc4
          rcases hq with rfl | rfl <;> decide
    have hplast : ('"' :: (k ++ ['"', ':']) : Str).getLast? ≠ some ',' := by
      rw [show ('"' :: (k ++ ['"', ':']) : Str) =
        ('"' :: (k ++ ['"'])) ++ [':'] from by simp]
      rw [List.getLast?_concat]
      decide
    have hvne : serJ false v ≠ [] := by
      obtain ⟨c, T, hec, _, _, _⟩ := ser_head_ex2 v
      rw [hec]
      exact List.cons_ne_nil _ _
    cases tl with
    | nil =>
      rw [show serPairs false (.cons k v JPairs.nil) =
          ('"' :: (k ++ ['"', ':'])) ++ serJ false v from by
        simp [serPairs]]
      constructor
      · exact commaOk_append _ _ ihv.1 (commaOk_of_no_comma _ hpref) hplast
      · rw [getLast_app_ne _ _ hvne]
        exact ihv.2
    | cons k2 v2 tl2 =>
      have ihp := comma_ser_p (.cons k2 v2 tl2) hsp.2
      have hne2 : serPairs false (.cons k2 v2 tl2) ≠ [] := by
        rw [serPairs_cons_head]
        exact List.cons_ne_nil _ _
      rw [show serPairs false (.cons k v (.cons k2 v2 tl2)) =
          ('"' :: (k ++ ['"', ':'])) ++ (serJ false v ++
            (',' :: serPairs false (.cons k2 v2 tl2))) from by
        simp [serPairs]]
      have hb : commaOk (serJ false v ++
          (',' :: serPairs false (.cons k2 v2 tl2))) = true := by
        refine commaOk_append _ _ ?_ ihv.1 ihv.2
        rw [serPairs_cons_head]
        rw [commaOk_comma '"' _ (by decide) (by decide) (by decide)]
        rw [← serPairs_cons_head]
        exact ihp.1
      constructor
      · exact commaOk_append _ _ hb (commaOk_of_no_comma _ hpref) hplast
      · rw [getLast_app_ne _ _ (by simp : serJ false v ++
          (',' :: serPairs false (.cons k2 v2 tl2)) ≠ [])]
        rw [getLast_app_ne _ _ (List.cons_ne_nil ','
          (serPairs false (.cons k2 v2 tl2)))]
        rw [show (',' :: serPairs false (.cons k2 v2 tl2) : Str) =
          [','] ++ serPairs false (.cons k2 v2 tl2) from rfl]
        rw [getLast_app_ne _ _ hne2]
        exact ihp.2

/-- Serialized safe elements have no trailing-comma site and do not end in
a comma. -/
theorem comma_ser_l (l : JList) (hs : safeL l = true) :
    commaOk (serList false l) = true ∧
      (serList false l).getLast? ≠ some ',' := by
  cases l with
  | nil => exact ⟨rfl, by decide⟩
  | cons v tl =>
    have hsp : (safeJ v && safeL tl) = true := hs
    simp only [Bool.and_eq_true] at hsp
    have ihv := comma_ser_v v hsp.1
    cases tl with
    | nil =>
      rw [show serList false (.cons v JList.nil) = serJ false v from by
        simp [serList]]
      exact ihv
    | cons v2 tl2 =>
      have ihl := comma_ser_l (.cons v2 tl2) hsp.2
      obtain ⟨c, T, hec, hw, hbr, hbk⟩ := ser_head_ex2 v2
      have hT2 := serList_cons_shape false v2 tl2
      rw [hec, List.cons_append] at hT2
      have hne2 : serList false (.cons v2 tl2) ≠ [] := by
        rw [hT2]
        exact List.cons_ne_nil _ _
      rw [show serList false (.cons v (.cons v2 tl2)) =
          serJ false v ++ (',' :: serList false (.cons v2 tl2)) from by
        simp [serList]]
      constructor
      · refine commaOk_append _ _ ?_ ihv.1 ihv.2
        rw [hT2, commaOk_comma c _ hw hbr hbk, ← hT2]
        exact ihl.1
      · rw [getLast_app_ne _ _ (List.cons_ne_nil ','
          (serList false (.cons v2 tl2)))]
        rw [show (',' :: serList false (.cons v2 tl2) : Str) =
          [','] ++ serList false (.cons v2 tl2) from rfl]
        rw [getLast_app_ne _ _ hne2]
        exact ihl.2

end

/-! ### Balance-scan machinery -/

theorem procList_nil (sc ec : Char) (st : Int × Bool × Bool) :
    procList sc ec st [] = st := rfl

theorem procList_cons (sc ec : Char) (st : Int × Bool × Bool) (c : Char)
    (r : Str) :
    procList sc ec st (c :: r) = procList sc ec (procOne sc ec st c) r := rfl

theorem procList_append (sc ec : Char) (st : Int × Bool × Bool) (a b : Str) :
    procList sc ec st (a ++ b) = procList sc ec (procList sc ec st a) b :=
  List.foldl_append _ _ _ _

theorem hitsZero_nil (sc ec : Char) (st : Int × Bool × Bool) :
    hitsZero sc ec st [] = false := rfl

theorem hitsZero_cons (sc ec : Char) (st : Int × Bool × Bool) (c : Char)
    (r : Str) :
    hitsZero sc ec st (c :: r) =
      (if !st.2.2 && c ≠ '\\' && !(procOne sc ec st c).2.1 &&
          (procOne sc ec st c).1 = 0 then true
        else hitsZero sc ec (procOne sc ec st c) r) := rfl

theorem scFalls_nil (sc ec : Char) (i : Nat) (st : Int × Bool × Bool) :
    scFalls sc ec i st [] = (none, st.1) := rfl

theorem scFalls_cons (sc ec : Char) (i : Nat) (st : Int × Bool × Bool)
    (c : Char) (r : Str) :
    scFalls sc ec i st (c :: r) =
      (if !st.2.2 && c ≠ '\\' && !(procOne sc ec st c).2.1 &&
          (procOne sc ec st c).1 = 0 then (some i, (procOne sc ec st c).1)
        else scFalls sc ec (i + 1) (procOne sc ec st c) r) := rfl

theorem hitsZero_cons_bal (sc ec : Char) (st : Int × Bool × Bool) (c : Char)
    (r : Str) (hz : (procOne sc ec st c).1 ≠ 0) :
    hitsZero sc ec st (c :: r) = hitsZero sc ec (procOne sc ec st c) r := by
  rw [hitsZero_cons]
  simp only [decide_eq_false hz, Bool.and_false, Bool.false_eq_true, if_false]

theorem hitsZero_cons_instr (sc ec : Char) (st : Int × Bool × Bool) (c : Char)
    (r : Str) (hin : (procOne sc ec st c).2.1 = true) :
    hitsZero sc ec st (c :: r) = hitsZero sc ec (procOne sc ec st c) r := by
  rw [hitsZero_cons]
  simp only [hin, Bool.not_true, Bool.and_false, Bool.false_and,
    Bool.false_eq_true, if_false]

theorem hitsZero_append (sc ec : Char) (a b : Str) :
    ∀ st, hitsZero sc ec st (a ++ b) =
      (hitsZero sc ec st a || hitsZero sc ec (procList sc ec st a) b) := by
  induction a with
  | nil => intro st; rfl
  | cons c a' ih =>
    intro st
    show hitsZero sc ec st (c :: (a' ++ b)) = _
    rw [hitsZero_cons, hitsZero_cons, procList_cons]
    split
    · rfl
    · exact ih (procOne sc ec st c)

theorem scFalls_no_hit (sc ec : Char) (s : Str) :
    ∀ i st, hitsZero sc ec st s = false →
      scFalls sc ec i st s = (none, (procList sc ec st s).1) := by
  induction s with
  | nil => intro i st _; rfl
  | cons c r ih =>
    intro i st h
    rw [hitsZero_cons] at h
    split at h
    case isTrue hc => exact absurd h (by decide)
    case isFalse hc =>
      rw [scFalls_cons, if_neg hc, procList_cons]
      exact ih (i + 1) (procOne sc ec st c) h

theorem scFalls_append_nohit (sc ec : Char) (a t : Str) :
    ∀ i st, hitsZero sc ec st a = false →
      scFalls sc ec i st (a ++ t) =
        scFalls sc ec (i + a.length) (procList sc ec st a) t := by
  induction a with
  | nil =>
    intro i st _
    rw [List.length_nil, Nat.add_zero]
    rfl
  | cons c a' ih =>
    intro i st h
    rw [hitsZero_cons] at h
    split at h
    case isTrue hc => exact absurd h (by decide)
    case isFalse hc =>
      show scFalls sc ec i st (c :: (a' ++ t)) = _
      rw [scFalls_cons, if_neg hc]
      rw [ih (i + 1) (procOne sc ec st c) h]
      rw [procList_cons, List.length_cons]
      rw [show i + 1 + a'.length = i + (a'.length + 1) from by omega]

theorem procOne_esc (sc ec : Char) (st : Int × Bool × Bool) (c : Char)
    (h : st.2.2 = false) (hc : c ≠ '\\') : (procOne sc ec st c).2.2 = false := by
  unfold procOne
  simp only [h, Bool.false_eq_true, if_false, hc, ite_false]
  split
  · split
    · rfl
    · split
      · rfl
      · split <;> rfl
  · split
    · rfl
    · split
      · rfl
      · split <;> rfl

theorem esc_false (sc ec : Char) (s : Str) (hn : ∀ c ∈ s, c ≠ '\\') :
    ∀ st : Int × Bool × Bool, st.2.2 = false →
      (procList sc ec st s).2.2 = false := by
  induction s with
  | nil => intro st h; exact h
  | cons c r ih =>
    intro st h
    rw [procList_cons]
    exact ih (fun x hx => hn x (by simp [hx]))
      (procOne sc ec st c) (procOne_esc sc ec st c h (hn c (by simp)))

theorem procOne_instr (sc ec : Char) (b : Int) (c : Char) (h1 : c ≠ '\\')
    (h2 : c ≠ '"') : procOne sc ec (b, true, false) c = (b, true, false) := by
  simp [procOne, h1, h2]

theorem instr_propagate (sc ec : Char) (s : Str)
    (hn : ∀ c ∈ s, c ≠ '"' ∧ c ≠ '\\') (b : Int) :
    procList sc ec (b, true, false) s = (b, true, false) := by
  induction s with
  | nil => rfl
  | cons c r ih =>
    have hc := hn c (by simp)
    rw [procList_cons, procOne_instr sc ec b c hc.2 hc.1]
    exact ih (fun x hx => hn x (by simp [hx]))

theorem procOne_neutral (b : Int) (c : Char) (h1 : c ≠ '\\') (h2 : c ≠ '"')
    (h3 : c ≠ lbrace) (h4 : c ≠ rbrace) :
    procOne lbrace rbrace (b, false, false) c = (b, false, false) := by
  simp [procOne, h1, h2, h3, h4]

theorem procOne_quote (b : Int) :
    procOne lbrace rbrace (b, false, false) '"' = (b, true, false) := rfl

theorem procOne_unquote (b : Int) :
    procOne lbrace rbrace (b, true, false) '"' = (b, false, false) := rfl

theorem procOne_open (b : Int) :
    procOne lbrace rbrace (b, false, false) lbrace = (b + 1, false, false) := rfl

theorem procOne_close (b : Int) :
    procOne lbrace rbrace (b, false, false) rbrace = (b - 1, false, false) := rfl

theorem procList_replicate_close :
    ∀ (m : Nat) (b : Int),
      procList lbrace rbrace (b, false, false) (List.replicate m rbrace) =
        (b - m, false, false) := by
  intro m
  induction m with
  | zero => intro b; simp [procList_nil]
  | succ n ih =>
    intro b
    rw [List.replicate_succ, procList_cons, procOne_close, ih (b - 1)]
    rw [show b - 1 - (n : Int) = b - ((n + 1 : Nat) : Int) from by
      push_cast
      ring]

theorem procList_neutral (s : Str)
    (hn : ∀ c ∈ s, c ≠ '\\' ∧ c ≠ '"' ∧ c ≠ lbrace ∧ c ≠ rbrace) :
    ∀ b : Int, b ≠ 0 →
      procList lbrace rbrace (b, false, false) s = (b, false, false) ∧
        hitsZero lbrace rbrace (b, false, false) s = false := by
  induction s with
  | nil => intro b _; exact ⟨rfl, rfl⟩
  | cons c r ih =>
    intro b hb
    have hc := hn c (by simp)
    have hstep := procOne_neutral b c hc.1 hc.2.1 hc.2.2.1 hc.2.2.2
    have ihr := ih (fun x hx => hn x (by simp [hx])) b hb
    constructor
    · rw [procList_cons, hstep]
      exact ihr.1
    · rw [hitsZero_cons_bal lbrace rbrace (b, false, false) c r
        (by rw [hstep]; exact hb), hstep]
      exact ihr.2

theorem instr_run (s : Str) (hn : ∀ c ∈ s, c ≠ '"' ∧ c ≠ '\\') (b : Int) :
    hitsZero lbrace rbrace (b, true, false) s = false := by
  induction s with
  | nil => rfl
  | cons c r ih =>
    have hc := hn c (by simp)
    rw [hitsZero_cons_instr lbrace rbrace (b, true, false) c r
      (by rw [procOne_instr lbrace rbrace b c hc.2 hc.1])]
    rw [procOne_instr lbrace rbrace b c hc.2 hc.1]
    exact ih (fun x hx => hn x (by simp [hx]))

theorem strChunk (s : Str) (hsafe : ∀ c ∈ s, safeChar c = true) (b : Int)
    (hb : b ≠ 0) :
    procList lbrace rbrace (b, false, false) ('"' :: (s ++ ['"'])) =
        (b, false, false) ∧
      hitsZero lbrace rbrace (b, false, false) ('"' :: (s ++ ['"'])) =
        false := by
  have hn : ∀ c ∈ s, c ≠ '"' ∧ c ≠ '\\' := by
    intro c hc
    have hf := safeChar_facts c (hsafe c hc)
    exact ⟨hf.1, hf.2.1⟩
  have hinner : procList lbrace rbrace (b, true, false) s = (b, true, false) :=
    instr_propagate lbrace rbrace s hn b
  constructor
  · rw [procList_cons, procOne_quote, procList_append, hinner]
    rw [show procList lbrace rbrace (b, true, false) ['"'] =
      (b, false, false) from rfl]
  · rw [hitsZero_cons_instr lbrace rbrace (b, false, false) '"' _
      (by rw [procOne_quote])]
    rw [procOne_quote]
    rw [hitsZero_append, hinner]
    rw [instr_run s hn b]
    rw [hitsZero_cons_bal lbrace rbrace (b, true, false) '"' []
      (by rw [procOne_unquote]; exact hb)]
    rfl

mutual

/-- Scanning a serialized safe value with the object balance machine from a
positive balance neither hits zero nor changes the state. -/
theorem balV (v : Json) (hs : safeJ v = true) (b : Int) (hb : 1 ≤ b) :
    procList lbrace rbrace (b, false, false) (serJ false v) =
        (b, false, false) ∧
      hitsZero lbrace rbrace (b, false, false) (serJ false v) = false := by
  cases v with
  | num d =>
    have hf := digitChar_facts d.val d.isLt
    have hn : ∀ c ∈ [Nat.digitChar d.val],
        c ≠ '\\' ∧ c ≠ '"' ∧ c ≠ lbrace ∧ c ≠ rbrace := by
      intro c hc
      have hcc : c = Nat.digitChar d.val := by simpa using hc
      rw [hcc]
      exact ⟨hf.2.2.2.2.2.1, hf.2.2.2.2.2.2.1, hf.2.2.2.2.2.2.2.1, hf.2.2.1⟩
    exact procList_neutral _ hn b (by omega)
  | str s =>
    have hs' : s.all safeChar = true := hs
    exact strChunk s (fun c hc => List.all_eq_true.mp hs' c hc) b (by omega)
  | boolean bb =>
    cases bb with
    | true => exact procList_neutral "true".data (by decide) b (by omega)
    | false => exact procList_neutral "false".data (by decide) b (by omega)
  | nul => exact procList_neutral "null".data (by decide) b (by omega)
  | obj p =>
    have hsh : serJ false (Json.obj p) =
        lbrace :: (serPairs false p ++ [rbrace]) := by
      cases p <;> simp [serJ]
    have hP := balP p hs (b + 1) (by omega)
    rw [hsh]
    constructor
    · rw [procList_cons, procOne_open, procList_append, hP.1]
      rw [show procList lbrace rbrace (b + 1, false, false) [rbrace] =
          (b + 1 - 1, false, false) from by
        rw [procList_cons, procOne_close]
        rfl]
      rw [show b + 1 - 1 = b from by ring]
    · rw [hitsZero_cons_bal lbrace rbrace (b, false, false) lbrace
        (serPairs false p ++ [rbrace])
        (by rw [procOne_open]; show b + 1 ≠ 0; omega)]
      rw [procOne_open]
      rw [hitsZero_append, hP.1, hP.2, Bool.false_or]
      rw [hitsZero_cons_bal lbrace rbrace (b + 1, false, false) rbrace []
        (by rw [procOne_close]; show b + 1 - 1 ≠ 0; omega)]
      rfl
  | arr l =>
    have hsh : serJ false (Json.arr l) = '[' :: (serList false l ++ [']']) := by
      cases l <;> simp [serJ]
    have hL := balL l hs b hb
    have hob : procOne lbrace rbrace (b, false, false) '[' = (b, false, false) :=
      procOne_neutral b '[' (by decide) (by decide) (by decide) (by decide)
    have hcb : procOne lbrace rbrace (b, false, false) ']' = (b, false, false) :=
      procOne_neutral b ']' (by decide) (by decide) (by decide) (by decide)
    rw [hsh]
    constructor
    · rw [procList_cons, hob, procList_append, hL.1, procList_cons, hcb]
      rfl
    · rw [hitsZero_cons_bal lbrace rbrace (b, false, false) '['
        (serList false l ++ [']']) (by rw [hob]; show b ≠ 0; omega)]
      rw [hob]
      rw [hitsZero_append, hL.1, hL.2, Bool.false_or]
      rw [hitsZero_cons_bal lbrace rbrace (b, false, false) ']' []
        (by rw [hcb]; show b ≠ 0; omega)]
      rfl

/-- Scanning serialized safe members from a positive balance neither hits
zero nor changes the state. -/
theorem balP (p : JPairs) (hs : safeP p = true) (b : Int) (hb : 1 ≤ b) :
    procList lbrace rbrace (b, false, false) (serPairs false p) =
        (b, false, false) ∧
      hitsZero lbrace rbrace (b, false, false) (serPairs false p) = false := by
  cases p with
  | nil => exact ⟨rfl, rfl⟩
  | cons k v tl =>
    have hsp : (k.all safeChar && safeJ v && safeP tl) = true := hs
    simp only [Bool.and_eq_true] at hsp
    have hV := balV v hsp.1.2 b hb
    have hkey := strChunk k (fun c hc => List.all_eq_true.mp hsp.1.1 c hc) b
      (by omega)
    have hcol : procOne lbrace rbrace (b, false, false) ':' =
        (b, false, false) :=
      procOne_neutral b ':' (by decide) (by decide) (by decide) (by decide)
    cases tl with
    | nil =>
      rw [show serPairs false (.cons k v JPairs.nil) =
          ('"' :: (k ++ ['"'])) ++ (':' :: serJ false v) from by
        simp [serPairs]]
      constructor
      · rw [procList_append, hkey.1, procList_cons, hcol, hV.1]
      · rw [hitsZero_append, hkey.1, hkey.2, Bool.false_or]
        rw [hitsZero_cons_bal lbrace rbrace (b, false, false) ':'
          (serJ false v) (by rw [hcol]; show b ≠ 0; omega)]
        rw [hcol]
        exact hV.2
    | cons k2 v2 tl2 =>
      have hP2 := balP (.cons k2 v2 tl2) hsp.2 b hb
      have hcom : procOne lbrace rbrace (b, false, false) ',' =
          (b, false, false) :=
        procOne_neutral b ',' (by decide) (by decide) (by decide) (by decide)
      rw [show serPairs false (.cons k v (.cons k2 v2 tl2)) =
          ('"' :: (k ++ ['"'])) ++ (':' :: (serJ false v ++
            (',' :: serPairs false (.cons k2 v2 tl2)))) from by
        simp [serPairs]]
      constructor
      · rw [procList_append, hkey.1, procList_cons, hcol, procList_append,
          hV.1, procList_cons, hcom, hP2.1]
      · rw [hitsZero_append, hkey.1, hkey.2, Bool.false_or]
        rw [hitsZero_cons_bal lbrace rbrace (b, false, false) ':'
          (serJ false v ++ (',' :: serPairs false (.cons k2 v2 tl2)))
          (by rw [hcol]; show b ≠ 0; omega)]
        rw [hcol]
        rw [hitsZero_append, hV.1, hV.2, Bool.false_or]
        rw [hitsZero_cons_bal lbrace rbrace (b, false, false) ','
          (serPairs false (.cons k2 v2 tl2))
          (by rw [hcom]; show b ≠ 0; omega)]
        rw [hcom]
        exact hP2.2

/-- Scanning serialized safe elements from a positive balance neither hits
zero nor changes the state. -/
theorem balL (l : JList) (hs : safeL l = true) (b : Int) (hb : 1 ≤ b) :
    procList lbrace rbrace (b, false, false) (serList false l) =
        (b, false, false) ∧
      hitsZero lbrace rbrace (b, false, false) (serList false l) = false := by
  cases l with
  | nil => exact ⟨rfl, rfl⟩
  | cons v tl =>
    have hsp : (safeJ v && safeL tl) = true := hs
    simp only [Bool.and_eq_true] at hsp
    have hV := balV v hsp.1 b hb
    cases tl with
    | nil =>
      rw [show serList false (.cons v JList.nil) = serJ false v from by
        simp [serList]]
      exact hV
    | cons v2 tl2 =>
      have hL2 := balL (.cons v2 tl2) hsp.2 b hb
      have hcom : procOne lbrace rbrace (b, false, false) ',' =
          (b, false, false) :=
        procOne_neutral b ',' (by decide) (by decide) (by decide) (by decide)
      rw [show serList false (.cons v (.cons v2 tl2)) =
          serJ false v ++ (',' :: serList false (.cons v2 tl2)) from by
        simp [serList]]
      constructor
      · rw [procList_append, hV.1, procList_cons, hcom, hL2.1]
      · rw [hitsZero_append, hV.1, hV.2, Bool.false_or]
        rw [hitsZero_cons_bal lbrace rbrace (b, false, false) ','
          (serList false (.cons v2 tl2)) (by rw [hcom]; show b ≠ 0; omega)]
        rw [hcom]
        exact hL2.2

end

/-! ### Extractor: core and tail lemmas -/

theorem extractCore_hit (body : Str) (i : Nat)
    (hres : scFalls lbrace rbrace 1 (1, false, false) body = (some i, 0))
    (hparse : jsonParses ((lbrace :: body).take (i + 1)) = true) :
    extractCore (lbrace :: body) = .ok ((lbrace :: body).take (i + 1)) := by
  unfold extractCore
  simp only [List.headD_cons, List.drop_one, List.tail_cons, reduceIte, hres,
    hparse]

theorem extractCore_nohit (body : Str) (z : Int)
    (hres : scFalls lbrace rbrace 1 (1, false, false) body = (none, z))
    (hz : 0 < z)
    (hparse : jsonParses ((lbrace :: body) ++ List.replicate z.toNat rbrace) =
      true) :
    extractCore (lbrace :: body) =
      .ok ((lbrace :: body) ++ List.replicate z.toNat rbrace) := by
  unfold extractCore
  simp only [List.headD_cons, List.drop_one, List.tail_cons, reduceIte, hres,
    hz, if_true, hparse]

theorem firstIdxOf_cons_self (t : Char) (r : Str) :
    firstIdxOf t (t :: r) = some 0 := by
  unfold firstIdxOf
  rw [if_pos rfl]

theorem firstIdxOf_cons_ne (t c : Char) (r : Str) (h : c ≠ t) :
    firstIdxOf t (c :: r) = (firstIdxOf t r).map (· + 1) := by
  conv_lhs => unfold firstIdxOf
  rw [if_neg h]

theorem firstIdxOf_append_none (t : Char) (a b : Str) (ha : ∀ c ∈ a, c ≠ t) :
    firstIdxOf t (a ++ b) = (firstIdxOf t b).map (· + a.length) := by
  induction a with
  | nil => simp
  | cons c a' ih =>
    rw [show (c :: a') ++ b = c :: (a' ++ b) from rfl]
    rw [firstIdxOf_cons_ne t c _ (ha c (by simp))]
    rw [ih (fun x hx => ha x (by simp [hx]))]
    cases hfb : firstIdxOf t b with
    | none => rfl
    | some x =>
      simp only [Option.map_some']
      rw [show x + a'.length + 1 = x + (c :: a').length from by
        simp only [List.length_cons]
        omega]

theorem extractTail_obj (a body : Str) (ha1 : ∀ c ∈ a, c ≠ lbrace)
    (ha2 : ∀ c ∈ a, c ≠ '[') :
    extractTail (a ++ (lbrace :: body)) = extractCore (lbrace :: body) := by
  have h1 : firstIdxOf lbrace (a ++ (lbrace :: body)) = some a.length := by
    rw [firstIdxOf_append_none lbrace a _ ha1, firstIdxOf_cons_self]
    simp
  have h2 : firstIdxOf '[' (a ++ (lbrace :: body)) =
      (firstIdxOf '[' body).map (· + (a.length + 1)) := by
    rw [firstIdxOf_append_none '[' a _ ha2]
    rw [firstIdxOf_cons_ne '[' lbrace body (by decide)]
    cases hfb : firstIdxOf '[' body with
    | none => rfl
    | some x =>
      simp only [Option.map_some']
      rw [show x + 1 + a.length = x + (a.length + 1) from by omega]
  unfold extractTail
  rw [h1, h2]
  cases h3 : firstIdxOf '[' body with
  | none =>
    show extractCore ((a ++ (lbrace :: body)).drop a.length) = _
    rw [List.drop_left]
  | some q =>
    simp only [Option.map_some']
    show extractCore
      ((a ++ (lbrace :: body)).drop (min a.length (q + (a.length + 1)))) = _
    rw [show min a.length (q + (a.length + 1)) = a.length from by omega]
    rw [List.drop_left]

/-! ### Extractor: cleanup identities -/

theorem dropWsRe_cons (c : Char) (t : Str) (hc : isWsRe c = false) :
    (c :: t).dropWhile isWsRe = c :: t := by
  rw [List.dropWhile_cons, hc]
  rfl

theorem notPrefix_backtick_of_all (s : Str) (hne : s ≠ [])
    (h : ∀ c ∈ s, c ≠ '`') : isPrefixL "```".data s = false := by
  cases s with
  | nil => exact absurd rfl hne
  | cons c t => exact backtick_notPrefix c t (h c (by simp))

theorem stripOpenFence_id (s : Str) (h : isPrefixL "```".data s = false) :
    stripOpenFence s = s := by
  unfold stripOpenFence
  simp only [h, Bool.false_eq_true, if_false]

theorem stripCloseFence_id (s : Str)
    (h : isPrefixL "```".data s.reverse = false) : stripCloseFence s = s := by
  unfold stripCloseFence
  simp only [h, Bool.false_eq_true, if_false]

theorem trimWs_prefix (a s : Str) (hh : ∃ c T, s = c :: T ∧ isWsRe c = false)
    (hr : ∃ c T, s.reverse = c :: T ∧ isWsRe c = false) :
    trimWs (a ++ s) = a.dropWhile isWsRe ++ s := by
  obtain ⟨c, T, hcT, hc⟩ := hh
  obtain ⟨d, Tr, hdT, hd⟩ := hr
  unfold trimWs
  rw [hcT, dropWhile_append_stopped isWsRe a c T hc, ← hcT]
  rw [List.reverse_append, hdT]
  rw [show (d :: Tr) ++ (a.dropWhile isWsRe).reverse =
    d :: (Tr ++ (a.dropWhile isWsRe).reverse) from rfl]
  rw [dropWsRe_cons d _ hd]
  rw [show d :: (Tr ++ (a.dropWhile isWsRe).reverse) =
    (d :: Tr) ++ (a.dropWhile isWsRe).reverse from rfl]
  rw [← hdT, ← List.reverse_append, List.reverse_reverse]

theorem isEmpty_append_cons (a : Str) (c : Char) (t : Str) :
    (a ++ c :: t).isEmpty = false := by
  cases a <;> rfl

/-- Trailing-comma removal is the identity on comma-disciplined strings. -/
theorem commaOk_id (s : Str) (h : commaOk s = true) :
    runScanRep mStripTC s = s := by
  induction s with
  | nil => rfl
  | cons c t ih =>
    by_cases hc : c = ','
    · subst hc
      cases t with
      | nil =>
        rw [runScanRep_cons_none mStripTC ',' [] mStripTC_comma_nil]
        rfl
      | cons d r =>
        have haa : ((if (',' : Char) = ',' then
            !isWsRe d && !(d = rbrace) && !(d = ']') else true) &&
            commaOk (d :: r)) = true := h
        rw [Bool.and_eq_true] at haa
        have hg : (!isWsRe d && !(d = rbrace) && !(d = ']')) = true := by
          have h1 := haa.1
          rwa [if_pos rfl] at h1
        simp only [Bool.and_eq_true, Bool.not_eq_true',
          decide_eq_false_iff_not] at hg
        rw [runScanRep_cons_none mStripTC ',' (d :: r)
          (mStripTC_comma_safe d r hg.1.1 hg.1.2 hg.2)]
        rw [ih haa.2]
    · rw [runScanRep_cons_none mStripTC c t (mStripTC_not_comma c t hc)]
      rw [commaOk_cons_ne c t hc] at h
      rw [ih h]

theorem extractTail_objD (body : Str) :
    extractTail (lbrace :: body) = extractCore (lbrace :: body) := by
  have h := extractTail_obj [] body (by simp) (by simp)
  simpa using h

/-- The extractor core accepts a full serialized safe object verbatim. -/
theorem extractCore_serObj (ps : JPairs) (hs : safeP ps = true) :
    extractCore (serJ false (Json.obj ps)) = .ok (serJ false (Json.obj ps)) := by
  have hsh : serJ false (Json.obj ps) =
      lbrace :: (serPairs false ps ++ [rbrace]) := by
    cases ps <;> simp [serJ]
  have hbalP := balP ps hs 1 (by omega)
  have hscan : scFalls lbrace rbrace 1 (1, false, false)
      (serPairs false ps ++ [rbrace]) =
      (some (1 + (serPairs false ps).length), 0) := by
    rw [scFalls_append_nohit lbrace rbrace _ _ 1 (1, false, false) hbalP.2,
      hbalP.1]
    rw [scFalls_cons, if_pos (by decide)]
    rfl
  have htake : (lbrace :: (serPairs false ps ++ [rbrace])).take
      (1 + (serPairs false ps).length + 1) =
      lbrace :: (serPairs false ps ++ [rbrace]) := by
    apply List.take_of_length_le
    simp only [List.length_cons, List.length_append, List.length_nil]
    omega
  rw [hsh]
  rw [extractCore_hit _ _ hscan
    (by rw [htake, ← hsh]; exact jsonParses_ser (.obj ps) hs)]
  rw [htake]

/-- Cleanup on conversational prose followed by a serialized safe object. -/
theorem clean_prose (ps : JPairs) (prose : Str) (hs : safeP ps = true)
    (hp : ∀ c ∈ prose, proseOk c = true) :
    extractClean (prose ++ serJ false (Json.obj ps)) =
      prose.dropWhile isWsRe ++ serJ false (Json.obj ps) := by
  have hsh : serJ false (Json.obj ps) =
      lbrace :: (serPairs false ps ++ [rbrace]) := by
    cases ps <;> simp [serJ]
  obtain ⟨R, hR⟩ := serJ_obj_rev false ps
  have hchS := serJ_chars false (.obj ps) hs
  have hopen : stripOpenFence (prose ++ serJ false (Json.obj ps)) =
      prose ++ serJ false (Json.obj ps) := by
    apply stripOpenFence_id
    apply notPrefix_backtick_of_all
    · rw [hsh]
      simp
    · intro c hc
      rcases List.mem_append.mp hc with h1 | h2
      · exact (proseOk_facts c (hp c h1)).2.1
      · exact (hchS c h2).1
  have hclose : stripCloseFence (prose ++ serJ false (Json.obj ps)) =
      prose ++ serJ false (Json.obj ps) := by
    apply stripCloseFence_id
    rw [List.reverse_append, hR]
    exact backtick_notPrefix rbrace (R ++ prose.reverse) (by decide)
  have htrim : trimWs (prose ++ serJ false (Json.obj ps)) =
      prose.dropWhile isWsRe ++ serJ false (Json.obj ps) :=
    trimWs_prefix prose _ ⟨lbrace, _, hsh, by decide⟩ ⟨rbrace, R, hR, by decide⟩
  have hmem : ∀ c ∈ prose.dropWhile isWsRe ++ serJ false (Json.obj ps),
      proseOk c = true ∨ (c ≠ '`' ∧ c ≠ '\\') := by
    intro c hc
    rcases List.mem_append.mp hc with h1 | h2
    · exact Or.inl (hp c (List.Sublist.mem h1 (List.dropWhile_sublist isWsRe)))
    · exact Or.inr (hchS c h2)
  have hfj : runScanRep mFenceJson
      (prose.dropWhile isWsRe ++ serJ false (Json.obj ps)) =
      prose.dropWhile isWsRe ++ serJ false (Json.obj ps) := by
    apply runScanRep_id
    intro c t hc
    apply mFenceJson_none
    rcases hmem c hc with h1 | h2
    · exact (proseOk_facts c h1).2.1
    · exact h2.1
  have hfp : runScanRep mFencePlain
      (prose.dropWhile isWsRe ++ serJ false (Json.obj ps)) =
      prose.dropWhile isWsRe ++ serJ false (Json.obj ps) := by
    apply runScanRep_id
    intro c t hc
    apply mFencePlain_none
    rcases hmem c hc with h1 | h2
    · exact (proseOk_facts c h1).2.1
    · exact h2.1
  have hstrip : runScanRep mStripTC
      (prose.dropWhile isWsRe ++ serJ false (Json.obj ps)) =
      prose.dropWhile isWsRe ++ serJ false (Json.obj ps) := by
    rw [runScanRep_skip mStripTC (prose.dropWhile isWsRe) _
      (fun c t hc => mStripTC_not_comma c t
        (proseOk_facts c (hp c
          (List.Sublist.mem hc (List.dropWhile_sublist isWsRe)))).1)]
    congr 1
    have hv := strip_v false (Json.obj ps) hs []
    rw [List.append_nil] at hv
    rw [hv, runScanRep_nil, List.append_nil]
  unfold extractClean
  rw [hopen, hclose, htrim, hfj, hfp, hstrip]

/-- Cleanup on a fenced serialized safe object. -/
theorem clean_fence (ps : JPairs) (hs : safeP ps = true) :
    extractClean ("```json\n".data ++
        (serJ false (Json.obj ps) ++ "\n```".data)) =
      serJ false (Json.obj ps) := by
  have hsh : serJ false (Json.obj ps) =
      lbrace :: (serPairs false ps ++ [rbrace]) := by
    cases ps <;> simp [serJ]
  obtain ⟨R, hR⟩ := serJ_obj_rev false ps
  have hchS := serJ_chars false (.obj ps) hs
  have hopen : stripOpenFence ("```json\n".data ++
      (serJ false (Json.obj ps) ++ "\n```".data)) =
      serJ false (Json.obj ps) ++ "\n```".data := by
    unfold stripOpenFence
    have hpf : isPrefixL "```".data ("```json\n".data ++
        (serJ false (Json.obj ps) ++ "\n```".data)) = true := rfl
    have hpf2 : isPrefixL "json".data (("```json\n".data ++
        (serJ false (Json.obj ps) ++ "\n```".data)).drop 3) = true := rfl
    simp only [hpf, hpf2, if_true]
    rw [show ((("```json\n".data ++ (serJ false (Json.obj ps) ++
        "\n```".data)).drop 3).drop 4) =
      '\n' :: (serJ false (Json.obj ps) ++ "\n```".data) from rfl]
    rw [List.dropWhile_cons]
    rw [show isWsRe '\n' = true from rfl]
    simp only [if_true]
    rw [hsh, List.cons_append, dropWsRe_cons lbrace _ (by decide),
      ← List.cons_append, ← hsh]
  have hclose : stripCloseFence (serJ false (Json.obj ps) ++ "\n```".data) =
      serJ false (Json.obj ps) := by
    unfold stripCloseFence
    have hrev : (serJ false (Json.obj ps) ++ "\n```".data).reverse =
        '`' :: '`' :: '`' :: '\n' :: (serJ false (Json.obj ps)).reverse := by
      rw [List.reverse_append]
      rfl
    rw [hrev]
    rw [show isPrefixL "```".data ('`' :: '`' :: '`' :: '\n' ::
      (serJ false (Json.obj ps)).reverse) = true from rfl]
    simp only [if_true]
    rw [show (('`' :: '`' :: '`' :: '\n' ::
        (serJ false (Json.obj ps)).reverse).drop 3) =
      '\n' :: (serJ false (Json.obj ps)).reverse from rfl]
    rw [List.dropWhile_cons]
    rw [show isWsRe '\n' = true from rfl]
    simp only [if_true]
    rw [hR, dropWsRe_cons rbrace _ (by decide), ← hR, List.reverse_reverse]
  have htrim : trimWs (serJ false (Json.obj ps)) =
      serJ false (Json.obj ps) := by
    have h := trimWs_prefix [] (serJ false (Json.obj ps))
      ⟨lbrace, _, hsh, by decide⟩ ⟨rbrace, R, hR, by decide⟩
    simpa using h
  have hfj : runScanRep mFenceJson (serJ false (Json.obj ps)) =
      serJ false (Json.obj ps) :=
    runScanRep_id _ _ (fun c t hc => mFenceJson_none c t (hchS c hc).1)
  have hfp : runScanRep mFencePlain (serJ false (Json.obj ps)) =
      serJ false (Json.obj ps) :=
    runScanRep_id _ _ (fun c t hc => mFencePlain_none c t (hchS c hc).1)
  have hstrip : runScanRep mStripTC (serJ false (Json.obj ps)) =
      serJ false (Json.obj ps) := by
    have hv := strip_v false (Json.obj ps) hs []
    rw [List.append_nil, runScanRep_nil, List.append_nil] at hv
    exact hv
  unfold extractClean
  rw [hopen, hclose, htrim, hfj, hfp, hstrip]

/-- Cleanup on a serialized safe object with trailing commas: the trailing
commas are removed and nothing else changes. -/
theorem clean_tc (ps : JPairs) (hs : safeP ps = true) :
    extractClean (serJ true (Json.obj ps)) = serJ false (Json.obj ps) := by
  have hhead : ∃ T, serJ true (Json.obj ps) = lbrace :: T := ⟨_, rfl⟩
  obtain ⟨T, hT⟩ := hhead
  obtain ⟨R, hR⟩ := serJ_obj_rev true ps
  have hchS := serJ_chars true (.obj ps) hs
  have hopen : stripOpenFence (serJ true (Json.obj ps)) =
      serJ true (Json.obj ps) := by
    apply stripOpenFence_id
    rw [hT]
    exact backtick_notPrefix lbrace T (by decide)
  have hclose : stripCloseFence (serJ true (Json.obj ps)) =
      serJ true (Json.obj ps) := by
    apply stripCloseFence_id
    rw [hR]
    exact backtick_notPrefix rbrace R (by decide)
  have htrim : trimWs (serJ true (Json.obj ps)) = serJ true (Json.obj ps) := by
    have h := trimWs_prefix [] (serJ true (Json.obj ps))
      ⟨lbrace, T, hT, by decide⟩ ⟨rbrace, R, hR, by decide⟩
    simpa using h
  have hfj : runScanRep mFenceJson (serJ true (Json.obj ps)) =
      serJ true (Json.obj ps) :=
    runScanRep_id _ _ (fun c t hc => mFenceJson_none c t (hchS c hc).1)
  have hfp : runScanRep mFencePlain (serJ true (Json.obj ps)) =
      serJ true (Json.obj ps) :=
    runScanRep_id _ _ (fun c t hc => mFencePlain_none c t (hchS c hc).1)
  have hstrip : runScanRep mStripTC (serJ true (Json.obj ps)) =
      serJ false (Json.obj ps) := by
    have hv := strip_v true (Json.obj ps) hs []
    rw [List.append_nil, runScanRep_nil, List.append_nil] at hv
    exact hv
  unfold extractClean
  rw [hopen, hclose, htrim, hfj, hfp, hstrip]

/-- Cleanup on a serialized safe object truncated by `k` trailing closing
braces (the character before the truncated run being non-whitespace) is the
identity. -/
theorem clean_trunc (ps : JPairs) (d : Char) (k : Nat) (hs : safeP ps = true)
    (hk1 : 1 ≤ k) (hk2 : k + 1 ≤ (serJ false (Json.obj ps)).length)
    (hd : isWsRe d = false)
    (hsuf : (serJ false (Json.obj ps)).drop
        ((serJ false (Json.obj ps)).length - (k + 1)) =
      d :: List.replicate k rbrace) :
    extractClean ((serJ false (Json.obj ps)).take
        ((serJ false (Json.obj ps)).length - k)) =
      (serJ false (Json.obj ps)).take
        ((serJ false (Json.obj ps)).length - k) := by
  have hsh : serJ false (Json.obj ps) =
      lbrace :: (serPairs false ps ++ [rbrace]) := by
    cases ps <;> simp [serJ]
  have hchS := serJ_chars false (.obj ps) hs
  have hT : (serJ false (Json.obj ps)).take
      ((serJ false (Json.obj ps)).length - k) =
      (serJ false (Json.obj ps)).take
        ((serJ false (Json.obj ps)).length - (k + 1)) ++ [d] := by
    rw [show (serJ false (Json.obj ps)).length - k =
      ((serJ false (Json.obj ps)).length - (k + 1)) + 1 from by omega]
    rw [List.take_add, hsuf]
    rfl
  have hTrev : ((serJ false (Json.obj ps)).take
      ((serJ false (Json.obj ps)).length - k)).reverse =
      d :: ((serJ false (Json.obj ps)).take
        ((serJ false (Json.obj ps)).length - (k + 1))).reverse := by
    rw [hT, List.reverse_append]
    rfl
  obtain ⟨m, hm⟩ : ∃ m, (serJ false (Json.obj ps)).length - k = m + 1 :=
    ⟨(serJ false (Json.obj ps)).length - k - 1, by omega⟩
  have hhead : ∃ T2, (serJ false (Json.obj ps)).take
      ((serJ false (Json.obj ps)).length - k) = lbrace :: T2 := by
    rw [hm, hsh, List.take_succ_cons]
    exact ⟨_, rfl⟩
  obtain ⟨T2, hhead2⟩ := hhead
  have hopen : stripOpenFence ((serJ false (Json.obj ps)).take
      ((serJ false (Json.obj ps)).length - k)) =
      (serJ false (Json.obj ps)).take
        ((serJ false (Json.obj ps)).length - k) := by
    apply stripOpenFence_id
    rw [hhead2]
    exact backtick_notPrefix lbrace T2 (by decide)
  have hdmem : d ∈ serJ false (Json.obj ps) := by
    have hmm : d ∈ d :: List.replicate k rbrace := by simp
    rw [← hsuf] at hmm
    exact List.drop_subset _ _ hmm
  have hclose : stripCloseFence ((serJ false (Json.obj ps)).take
      ((serJ false (Json.obj ps)).length - k)) =
      (serJ false (Json.obj ps)).take
        ((serJ false (Json.obj ps)).length - k) := by
    apply stripCloseFence_id
    rw [hTrev]
    exact backtick_notPrefix d _ ((hchS d hdmem).1)
  have htrim : trimWs ((serJ false (Json.obj ps)).take
      ((serJ false (Json.obj ps)).length - k)) =
      (serJ false (Json.obj ps)).take
        ((serJ false (Json.obj ps)).length - k) := by
    have h := trimWs_prefix [] ((serJ false (Json.obj ps)).take
      ((serJ false (Json.obj ps)).length - k))
      ⟨lbrace, T2, hhead2, by decide⟩ ⟨d, _, hTrev, hd⟩
    simpa using h
  have hmemT : ∀ c ∈ (serJ false (Json.obj ps)).take
      ((serJ false (Json.obj ps)).length - k), c ≠ '`' ∧ c ≠ '\\' :=
    fun c hc => hchS c (List.take_subset _ _ hc)
  have hfj := runScanRep_id mFenceJson _
    (fun c t hc => mFenceJson_none c t (hmemT c hc).1)
  have hfp := runScanRep_id mFencePlain _
    (fun c t hc => mFencePlain_none c t (hmemT c hc).1)
  have hstrip := commaOk_id _
    (commaOk_take (serJ false (Json.obj ps))
      ((serJ false (Json.obj ps)).length - k)
      (comma_ser_v (Json.obj ps) hs).1)
  unfold extractClean
  rw [hopen, hclose, htrim, hfj, hfp, hstrip]

/-- The extractor repairs a serialized safe object truncated by `k` trailing
closing braces: the balance scan never returns to zero, the missing closers
are appended, and the reconstructed candidate parses. -/
theorem extract_trunc (ps : JPairs) (d : Char) (k : Nat) (hs : safeP ps = true)
    (hk1 : 1 ≤ k) (hk2 : k + 1 ≤ (serJ false (Json.obj ps)).length)
    (hsuf : (serJ false (Json.obj ps)).drop
        ((serJ false (Json.obj ps)).length - (k + 1)) =
      d :: List.replicate k rbrace) :
    extractTail ((serJ false (Json.obj ps)).take
        ((serJ false (Json.obj ps)).length - k)) =
      .ok (serJ false (Json.obj ps)) := by
  have hsh : serJ false (Json.obj ps) =
      lbrace :: (serPairs false ps ++ [rbrace]) := by
    cases ps <;> simp [serJ]
  have hlen : (serJ false (Json.obj ps)).length =
      (serPairs false ps).length + 2 := by
    rw [hsh]
    simp only [List.length_cons, List.length_append, List.length_nil]
  obtain ⟨m, hm⟩ : ∃ m, (serJ false (Json.obj ps)).length - k = m + 1 :=
    ⟨(serJ false (Json.obj ps)).length - k - 1, by omega⟩
  have hQ : (serJ false (Json.obj ps)).take
      ((serJ false (Json.obj ps)).length - k) =
      lbrace :: (serPairs false ps).take m := by
    rw [hm, hsh, List.take_succ_cons,
      List.take_append_of_le_length
        (show m ≤ (serPairs false ps).length from by omega)]
  have hdropS : (serJ false (Json.obj ps)).drop
      ((serJ false (Json.obj ps)).length - k) = List.replicate k rbrace := by
    rw [show (serJ false (Json.obj ps)).length - k =
      ((serJ false (Json.obj ps)).length - (k + 1)) + 1 from by omega]
    rw [← List.drop_drop, hsuf]
    rfl
  have hdropP : (serPairs false ps).drop m = List.replicate (k - 1) rbrace := by
    have h2 := hdropS
    rw [hm, hsh, List.drop_succ_cons] at h2
    rw [List.drop_append_of_le_length
      (by omega : m ≤ (serPairs false ps).length)] at h2
    rw [show k = (k - 1) + 1 from by omega, List.replicate_succ' (k - 1)] at h2
    exact List.append_cancel_right h2
  have hsplitP : serPairs false ps =
      (serPairs false ps).take m ++ List.replicate (k - 1) rbrace := by
    rw [← hdropP]
    exact (List.take_append_drop m (serPairs false ps)).symm
  have hbalP := balP ps hs 1 (by omega)
  have hQz : hitsZero lbrace rbrace (1, false, false)
      ((serPairs false ps).take m) = false := by
    have h2 := hbalP.2
    rw [hsplitP, hitsZero_append] at h2
    exact (Bool.or_eq_false_iff.mp h2).1
  have hkey : procList lbrace rbrace (1, false, false) (serPairs false ps) =
      (1, false, false) := hbalP.1
  rw [hsplitP, procList_append] at hkey
  have hesc : (procList lbrace rbrace (1, false, false)
      ((serPairs false ps).take m)).2.2 = false :=
    esc_false lbrace rbrace _
      (fun c hc => (serPairs_chars false ps hs c (List.take_subset _ _ hc)).2)
      (1, false, false) rfl
  have hrepchars : ∀ c ∈ List.replicate (k - 1) rbrace,
      c ≠ '"' ∧ c ≠ '\\' := by
    intro c hc
    rw [List.eq_of_mem_replicate hc]
    exact ⟨by decide, by decide⟩
  have hin : (procList lbrace rbrace (1, false, false)
      ((serPairs false ps).take m)).2.1 = false := by
    cases hi : (procList lbrace rbrace (1, false, false)
        ((serPairs false ps).take m)).2.1 with
    | false => rfl
    | true =>
      exfalso
      have hform : procList lbrace rbrace (1, false, false)
          ((serPairs false ps).take m) =
          ((procList lbrace rbrace (1, false, false)
            ((serPairs false ps).take m)).1, true, false) := by
        conv_lhs => rw [show procList lbrace rbrace (1, false, false)
            ((serPairs false ps).take m) =
          ((procList lbrace rbrace (1, false, false)
              ((serPairs false ps).take m)).1,
            (procList lbrace rbrace (1, false, false)
              ((serPairs false ps).take m)).2.1,
            (procList lbrace rbrace (1, false, false)
              ((serPairs false ps).take m)).2.2) from rfl]
        rw [hi, hesc]
      rw [hform, instr_propagate lbrace rbrace _ hrepchars _] at hkey
      have hcontra := congrArg (fun p : Int × Bool × Bool => p.2.1) hkey
      simp at hcontra
  have hform2 : procList lbrace rbrace (1, false, false)
      ((serPairs false ps).take m) =
      ((procList lbrace rbrace (1, false, false)
        ((serPairs false ps).take m)).1, false, false) := by
    conv_lhs => rw [show procList lbrace rbrace (1, false, false)
        ((serPairs false ps).take m) =
      ((procList lbrace rbrace (1, false, false)
          ((serPairs false ps).take m)).1,
        (procList lbrace rbrace (1, false, false)
          ((serPairs false ps).take m)).2.1,
        (procList lbrace rbrace (1, false, false)
          ((serPairs false ps).take m)).2.2) from rfl]
    rw [hin, hesc]
  rw [hform2, procList_replicate_close (k - 1)] at hkey
  have hx : (procList lbrace rbrace (1, false, false)
      ((serPairs false ps).take m)).1 - ((k - 1 : Nat) : Int) = 1 :=
    congrArg Prod.fst hkey
  have hxk : (procList lbrace rbrace (1, false, false)
      ((serPairs false ps).take m)).1 = (k : Int) := by
    omega
  have hscan : scFalls lbrace rbrace 1 (1, false, false)
      ((serPairs false ps).take m) = (none, (k : Int)) := by
    rw [scFalls_no_hit lbrace rbrace _ 1 (1, false, false) hQz, hxk]
  have hcand : (lbrace :: (serPairs false ps).take m) ++
      List.replicate k rbrace = serJ false (Json.obj ps) := by
    rw [← hQ, ← hdropS]
    exact List.take_append_drop _ _
  rw [hQ, extractTail_objD]
  rw [extractCore_nohit _ _ hscan (by omega : (0 : Int) < (k : Int))
    (by rw [Int.toNat_natCast, hcand]; exact jsonParses_ser (.obj ps) hs)]
  rw [Int.toNat_natCast, hcand]

theorem c5m_prose (ps : JPairs) (prose : Str) (hs : safeP ps = true)
    (hp : ∀ c ∈ prose, proseOk c = true) :
    ∃ out, extractJson (prose ++ serJ false (Json.obj ps)) = .ok out ∧
      jsonParses out = true := by
  have hsh : serJ false (Json.obj ps) =
      lbrace :: (serPairs false ps ++ [rbrace]) := by
    cases ps <;> simp [serJ]
  have hne : (prose ++ serJ false (Json.obj ps)).isEmpty = false := by
    rw [hsh]
    exact isEmpty_append_cons prose lbrace _
  by_cases hjp : jsonParses (prose ++ serJ false (Json.obj ps)) = true
  · refine ⟨prose ++ serJ false (Json.obj ps), ?_, hjp⟩
    unfold extractJson
    simp only [hne, hjp, Bool.false_eq_true, if_false, reduceIte]
  · have hjp' : jsonParses (prose ++ serJ false (Json.obj ps)) = false := by
      simp only [Bool.not_eq_true] at hjp
      exact hjp
    refine ⟨serJ false (Json.obj ps), ?_, jsonParses_ser (.obj ps) hs⟩
    unfold extractJson
    simp only [hne, hjp', Bool.false_eq_true, if_false, reduceIte]
    rw [clean_prose ps prose hs hp]
    have hps : ∀ c ∈ prose.dropWhile isWsRe, proseOk c = true :=
      fun c hc => hp c (List.Sublist.mem hc (List.dropWhile_sublist isWsRe))
    rw [hsh]
    rw [extractTail_obj (prose.dropWhile isWsRe) _
      (fun c hc => (proseOk_facts c (hps c hc)).2.2.1)
      (fun c hc => (proseOk_facts c (hps c hc)).2.2.2)]
    rw [← hsh, extractCore_serObj ps hs]

theorem c5m_fence (ps : JPairs) (hs : safeP ps = true) :
    ∃ out, extractJson ("```json\n".data ++
        (serJ false (Json.obj ps) ++ "\n```".data)) = .ok out ∧
      jsonParses out = true := by
  have hsh : serJ false (Json.obj ps) =
      lbrace :: (serPairs false ps ++ [rbrace]) := by
    cases ps <;> simp [serJ]
  have hne : ("```json\n".data ++
      (serJ false (Json.obj ps) ++ "\n```".data)).isEmpty = false := rfl
  by_cases hjp : jsonParses ("```json\n".data ++
      (serJ false (Json.obj ps) ++ "\n```".data)) = true
  · refine ⟨_, ?_, hjp⟩
    unfold extractJson
    simp only [hne, hjp, Bool.false_eq_true, if_false, reduceIte]
  · have hjp' : jsonParses ("```json\n".data ++
        (serJ false (Json.obj ps) ++ "\n```".data)) = false := by
      simp only [Bool.not_eq_true] at hjp
      exact hjp
    refine ⟨serJ false (Json.obj ps), ?_, jsonParses_ser (.obj ps) hs⟩
    unfold extractJson
    simp only [hne, hjp', Bool.false_eq_true, if_false, reduceIte]
    rw [clean_fence ps hs, hsh, extractTail_objD, ← hsh,
      extractCore_serObj ps hs]

theorem c5m_tc (ps : JPairs) (hs : safeP ps = true) :
    ∃ out, extractJson (serJ true (Json.obj ps)) = .ok out ∧
      jsonParses out = true := by
  have hsh : serJ false (Json.obj ps) =
      lbrace :: (serPairs false ps ++ [rbrace]) := by
    cases ps <;> simp [serJ]
  have hne : (serJ true (Json.obj ps)).isEmpty = false := by
    obtain ⟨T, hT⟩ : ∃ T, serJ true (Json.obj ps) = lbrace :: T := ⟨_, rfl⟩
    rw [hT]
    rfl
  by_cases hjp : jsonParses (serJ true (Json.obj ps)) = true
  · refine ⟨_, ?_, hjp⟩
    unfold extractJson
    simp only [hne, hjp, Bool.false_eq_true, if_false, reduceIte]
  · have hjp' : jsonParses (serJ true (Json.obj ps)) = false := by
      simp only [Bool.not_eq_true] at hjp
      exact hjp
    refine ⟨serJ false (Json.obj ps), ?_, jsonParses_ser (.obj ps) hs⟩
    unfold extractJson
    simp only [hne, hjp', Bool.false_eq_true, if_false, reduceIte]
    rw [clean_tc ps hs, hsh, extractTail_objD, ← hsh,
      extractCore_serObj ps hs]

theorem c5m_trunc (ps : JPairs) (d : Char) (k : Nat) (hs : safeP ps = true)
    (hk1 : 1 ≤ k) (hk2 : k + 1 ≤ (serJ false (Json.obj ps)).length)
    (hd : isWsRe d = false)
    (hsuf : (serJ false (Json.obj ps)).drop
        ((serJ false (Json.obj ps)).length - (k + 1)) =
      d :: List.replicate k rbrace) :
    ∃ out, extractJson ((serJ false (Json.obj ps)).take
        ((serJ false (Json.obj ps)).length - k)) = .ok out ∧
      jsonParses out = true := by
  have hsh : serJ false (Json.obj ps) =
      lbrace :: (serPairs false ps ++ [rbrace]) := by
    cases ps <;> simp [serJ]
  have hne : ((serJ false (Json.obj ps)).take
      ((serJ false (Json.obj ps)).length - k)).isEmpty = false := by
    obtain ⟨m, hm⟩ : ∃ m, (serJ false (Json.obj ps)).length - k = m + 1 :=
      ⟨(serJ false (Json.obj ps)).length - k - 1, by omega⟩
    rw [hm, hsh, List.take_succ_cons]
    rfl
  by_cases hjp : jsonParses ((serJ false (Json.obj ps)).take
      ((serJ false (Json.obj ps)).length - k)) = true
  · refine ⟨_, ?_, hjp⟩
    unfold extractJson
    simp only [hne, hjp, Bool.false_eq_true, if_false, reduceIte]
  · have hjp' : jsonParses ((serJ false (Json.obj ps)).take
        ((serJ false (Json.obj ps)).length - k)) = false := by
      simp only [Bool.not_eq_true] at hjp
      exact hjp
    refine ⟨serJ false (Json.obj ps), ?_, jsonParses_ser (.obj ps) hs⟩
    unfold extractJson
    simp only [hne, hjp', Bool.false_eq_true, if_false, reduceIte]
    rw [clean_trunc ps d k hs hk1 hk2 hd hsuf]
    exact extract_trunc ps d k hs hk1 hk2 hsuf

/-- C5: for every string obtained from a serialized safe JSON object by
prepending conversational prose, wrapping in markdown `json` code fences,
inserting a trailing comma in every non-empty container, or truncating `k`
trailing closing braces (all of the top-level bracket type, the preceding
character being non-whitespace), `extractJson` returns a string that parses
successfully as JSON. -/
theorem c5_extract_recovers (ps : JPairs) (prose : Str) (d : Char) (k : Nat)
    (hs : safeP ps = true) (hp : ∀ c ∈ prose, proseOk c = true)
    (hk1 : 1 ≤ k) (hk2 : k + 1 ≤ (serJ false (Json.obj ps)).length)
    (hd : isWsRe d = false)
    (hsuf : (serJ false (Json.obj ps)).drop
        ((serJ false (Json.obj ps)).length - (k + 1)) =
      d :: List.replicate k rbrace) :
    (∃ out, extractJson (prose ++ serJ false (Json.obj ps)) = .ok out ∧
        jsonParses out = true) ∧
      (∃ out, extractJson ("```json\n".data ++
          (serJ false (Json.obj ps) ++ "\n```".data)) = .ok out ∧
        jsonParses out = true) ∧
      (∃ out, extractJson (serJ true (Json.obj ps)) = .ok out ∧
        jsonParses out = true) ∧
      (∃ out, extractJson ((serJ false (Json.obj ps)).take
          ((serJ false (Json.obj ps)).length - k)) = .ok out ∧
        jsonParses out = true) :=
  ⟨c5m_prose ps prose hs hp, c5m_fence ps hs, c5m_tc ps hs,
    c5m_trunc ps d k hs hk1 hk2 hd hsuf⟩

theorem c5_extract_recovers_witness :
    (∃ out, extractJson ("Sure: ".data ++ serJ false (Json.obj
        (JPairs.cons "a".data (Json.obj (JPairs.cons "b".data (Json.num 1)
          JPairs.nil)) JPairs.nil))) = .ok out ∧ jsonParses out = true) ∧
      (∃ out, extractJson ("```json\n".data ++ (serJ false (Json.obj
          (JPairs.cons "a".data (Json.obj (JPairs.cons "b".data (Json.num 1)
            JPairs.nil)) JPairs.nil)) ++ "\n```".data)) = .ok out ∧
        jsonParses out = true) ∧
      (∃ out, extractJson (serJ true (Json.obj
          (JPairs.cons "a".data (Json.obj (JPairs.cons "b".data (Json.num 1)
            JPairs.nil)) JPairs.nil))) = .ok out ∧
        jsonParses out = true) ∧
      (∃ out, extractJson ((serJ false (Json.obj
          (JPairs.cons "a".data (Json.obj (JPairs.cons "b".data (Json.num 1)
            JPairs.nil)) JPairs.nil))).take
          ((serJ false (Json.obj
            (JPairs.cons "a".data (Json.obj (JPairs.cons "b".data (Json.num 1)
              JPairs.nil)) JPairs.nil))).length - 2)) = .ok out ∧
        jsonParses out = true) :=
  c5_extract_recovers
    (JPairs.cons "a".data (Json.obj (JPairs.cons "b".data (Json.num 1)
      JPairs.nil)) JPairs.nil)
    "Sure: ".data '1' 2 (by decide) (by decide) (by decide) (by decide)
    (by decide) (by decide)

/-- C5 counterexample: truncation across mixed bracket nesting is not
recovered — the auto-close appends only the top-level bracket type, so for
the truncated input `{"a":[1,2` both parse attempts fail and `extractJson`
returns the repair-failure error, although the value it was truncated from
parses. -/
theorem c5_counterexample :
    extractJson (lbrace :: "\"a\":[1,2".data) =
        .error "Unable to parse JSON from AI response after multiple repair attempts.".data ∧
      jsonParses (lbrace :: ("\"a\":[1,2]".data ++ [rbrace])) = true := by
  constructor
  · decide
  · decide

end ContentOptimizer
